import Mathlib

/-!
# ozz-animation: `FloatTrackTriggeringJob`

A shallow embedding of `src/animation/runtime/track_triggering_job.cc` and of
`include/ozz/animation/runtime/track_triggering_job.h`.

* `float` values are rationals (`ℚ`), so `floorf` is `Int.floor`. The code is embedded
  twice: `DetectEdge`, `forwardInner`, ..., `Run` compute every `float` operation exactly
  (exact arithmetic); `binary32.DetectEdge`, ..., `binary32.Run` are the same code with
  every `float` operation rounded to the nearest binary32 value.
* `ptrdiff_t` indices are integers (`ℤ`).
* Reading a `Range` outside of its bounds, and a failing `assert`, make the
  computation undefined: every function that reads returns an `Option`, and
  `none` stands for such a fault.
* The iterator is the triple `(outer_, inner_, edge_)`; `job_` never changes.
-/

namespace ozz
namespace animation

/-- Job output element, `FloatTrackTriggeringJob::Edge`. -/
structure Edge where
  time : ℚ
  rising : Bool
deriving DecidableEq, Repr

/-- Modelled from the spec: the class `FloatTrack` (declared in
`ozz/animation/runtime/track.h`, which is only included by the sources): keyframe times
of one normalized cycle, the parallel keyframe values, and the packed step flags, one
bit per keyframe, eight keyframes per byte. -/
structure FloatTrack where
  times : List ℚ
  values : List ℚ
  steps : List ℕ
deriving DecidableEq, Repr

/-- The job: `from`, `to`, `threshold`, the nullable `track` pointer and the nullable
`edges` pointer. The pointed `Range<Edge>` is the list of the elements between its
`begin` and its `end`, so that its length is the capacity of the output. -/
structure FloatTrackTriggeringJob where
  from_ : ℚ
  to_ : ℚ
  threshold : ℚ
  track : Option FloatTrack
  edges : Option (List Edge)

/-- State of `FloatTrackTriggeringJob::Iterator` (without the constant `job_`). -/
structure Iterator where
  outer_ : ℚ
  inner_ : ℤ
  edge_ : Edge
deriving DecidableEq, Repr

/-- Checked read `range[i]` of a `Range` with a `ptrdiff_t` index. -/
def Range.at {α : Type} (r : List α) (i : ℤ) : Option α :=
  if 0 ≤ i then r[i.toNat]? else none

/-- Modelled from the spec: `math::Lerp` of `ozz/base/maths/math_ex.h`, the
general-purpose linear interpolation primitive `(b - a) * alpha + a`, computed exactly. -/
def Lerp (a b alpha : ℚ) : ℚ := (b - a) * alpha + a

/-- `DetectEdge` of the anonymous namespace. The out-parameter `_edge` is threaded: the
result is the returned `detected` flag and the value of `*_edge` on return. The index
`_i0` is not negative once `values[_i0]` has been read, so that `_i0 / 8` and `_i0 & 7`
are computed on its natural value. The quotient `alpha` and `math::Lerp` are exact here;
`binary32.DetectEdge` rounds them. -/
def DetectEdge (i0 i1 : ℤ) (forward : Bool) (threshold : ℚ) (track : FloatTrack)
    (edge : Edge) : Option (Bool × Edge) := do
  let vk0 ← Range.at track.values i0
  let vk1 ← Range.at track.values i1
  let (detected, edge) :=
    if vk0 ≤ threshold ∧ vk1 > threshold then
      (true, { edge with rising := forward })
    else if vk0 > threshold ∧ vk1 ≤ threshold then
      (true, { edge with rising := !forward })
    else (false, edge)
  if detected then
    let byte ← Range.at track.steps (i0 / 8)
    let step := (byte &&& (1 <<< (i0.toNat &&& 7))) != 0
    if step then
      let t ← Range.at track.times i1
      pure (detected, { edge with time := t })
    else
      if vk0 = vk1 then none  -- assert(vk0 != vk1)
      else if i1 = 0 then
        pure (detected, { edge with time := 0 })
      else
        let alpha := (threshold - vk0) / (vk1 - vk0)
        let tk0 ← Range.at track.times i0
        let tk1 ← Range.at track.times i1
        pure (detected, { edge with time := Lerp tk0 tk1 alpha })
  else
    pure (detected, edge)

/-- Inner `for (; inner_ < num_keys; ++inner_)` loop of the forward branch of
`Iterator::operator++`, for the cycle `outer`. The result is `(true, inner_, edge_)` when
the loop is left by `return` (an edge is yielded), and `(false, inner_, edge_)` when it is
left by `break` or by its condition. The `float` sums are exact here;
`binary32.forwardInner` rounds them. -/
def forwardInner (from_ to_ threshold : ℚ) (track : FloatTrack) (outer : ℚ) (inner : ℤ)
    (edge : Edge) : Option (Bool × ℤ × Edge) :=
  if inner < (track.times.length : ℤ) then
    let i0 := if inner = 0 then (track.times.length : ℤ) - 1 else inner - 1
    match DetectEdge i0 inner true threshold track edge with
    | none => none
    | some (true, e) =>
      let e' : Edge := { e with time := e.time + outer }
      if e'.time ≥ from_ ∧ (e'.time < to_ ∨ to_ ≥ 1 + outer) then
        some (true, inner + 1, e')
      else
        match Range.at track.times inner with
        | none => none
        | some t =>
          if t + outer ≥ to_ then some (false, inner, e')
          else forwardInner from_ to_ threshold track outer (inner + 1) e'
    | some (false, e) => forwardInner from_ to_ threshold track outer (inner + 1) e
  else some (false, inner, edge)
termination_by ((track.times.length : ℤ) - inner).toNat
decreasing_by all_goals omega

/-- Outer `for (; outer_ < job_->to; outer_ += 1.f)` loop of the forward branch of
`Iterator::operator++`, followed by the statements that set the end position. The sum
`outer_ += 1.f` is exact here; `binary32.forwardOuter` rounds it. -/
def forwardOuter (from_ to_ threshold : ℚ) (track : FloatTrack) (outer : ℚ) (inner : ℤ)
    (edge : Edge) : Option Iterator :=
  if outer < to_ then
    match forwardInner from_ to_ threshold track outer inner edge with
    | none => none
    | some (true, inner', e) => some ⟨outer, inner', e⟩
    | some (false, _, e) => forwardOuter from_ to_ threshold track (outer + 1) 0 e
  else some ⟨to_, 0, edge⟩
termination_by (⌈to_ - outer⌉).toNat
decreasing_by
  have h1 : ⌈to_ - (outer + 1)⌉ = ⌈to_ - outer⌉ - 1 := by
    rw [show to_ - (outer + 1) = (to_ - outer) - 1 by ring, Int.ceil_sub_one]
  have h2 : 0 < ⌈to_ - outer⌉ := Int.ceil_pos.mpr (by linarith)
  omega

/-- Inner `for (; inner_ >= 0; --inner_)` loop of the backward branch of
`Iterator::operator++`, for the cursor value `outer`, with the same result as
`forwardInner`. The test of the `break` is reached when no edge is detected and when the
detected edge is not accepted. The `float` sums and differences are exact here;
`binary32.backwardInner` rounds them. -/
def backwardInner (from_ to_ threshold : ℚ) (track : FloatTrack) (outer : ℚ) (inner : ℤ)
    (edge : Edge) : Option (Bool × ℤ × Edge) :=
  if inner ≥ 0 then
    let i0 := if inner = 0 then (track.times.length : ℤ) - 1 else inner - 1
    match DetectEdge i0 inner false threshold track edge with
    | none => none
    | some (detected, e) =>
      let e' : Edge := if detected then { e with time := e.time + (outer - 1) } else e
      if detected ∧ e'.time ≥ to_ ∧ (e'.time < from_ ∨ from_ ≥ outer) then
        some (true, inner - 1, e')
      else
        match Range.at track.times inner with
        | none => none
        | some t =>
          if t + outer - 1 ≤ to_ then some (false, inner, e')
          else backwardInner from_ to_ threshold track outer (inner - 1) e'
  else some (false, inner, edge)
termination_by (inner + 1).toNat
decreasing_by all_goals omega

/-- Outer `for (; outer_ > job_->to; outer_ -= 1.f)` loop of the backward branch of
`Iterator::operator++`, followed by the statements that set the end position. The
difference `outer_ -= 1.f` is exact here; `binary32.backwardOuter` rounds it. -/
def backwardOuter (from_ to_ threshold : ℚ) (track : FloatTrack) (outer : ℚ) (inner : ℤ)
    (edge : Edge) : Option Iterator :=
  if outer > to_ then
    match backwardInner from_ to_ threshold track outer inner edge with
    | none => none
    | some (true, inner', e) => some ⟨outer, inner', e⟩
    | some (false, _, e) =>
      backwardOuter from_ to_ threshold track (outer - 1) ((track.times.length : ℤ) - 1) e
  else some ⟨to_, 0, edge⟩
termination_by (⌈outer - to_⌉).toNat
decreasing_by
  have h1 : ⌈outer - 1 - to_⌉ = ⌈outer - to_⌉ - 1 := by
    rw [show outer - 1 - to_ = (outer - to_) - 1 by ring, Int.ceil_sub_one]
  have h2 : 0 < ⌈outer - to_⌉ := Int.ceil_pos.mpr (by linarith)
  omega

/-- `FloatTrackTriggeringJob::Iterator::operator++`. -/
def Iterator.next (from_ to_ threshold : ℚ) (track : FloatTrack) (it : Iterator) :
    Option Iterator :=
  if to_ > from_ then forwardOuter from_ to_ threshold track it.outer_ it.inner_ it.edge_
  else backwardOuter from_ to_ threshold track it.outer_ it.inner_ it.edge_

/-- `FloatTrackTriggeringJob::Iterator::Iterator(const FloatTrackTriggeringJob*)`. The
member `edge_` is not initialized by the constructor: `edge0` is the value it holds. -/
def Iterator.begin (from_ to_ threshold : ℚ) (track : FloatTrack) (edge0 : Edge) :
    Option Iterator :=
  let outer : ℚ := (⌊from_⌋ : ℤ)
  if to_ > from_ then Iterator.next from_ to_ threshold track ⟨outer, 0, edge0⟩
  else
    Iterator.next from_ to_ threshold track
      ⟨outer + 1, (track.times.length : ℤ) - 1, edge0⟩

/-- `Iterator::operator!=` against `job_->end()`, the iterator `(outer_ = to_, inner_ = 0)`
of the same job. -/
def Iterator.neEnd (to_ : ℚ) (it : Iterator) : Bool :=
  it.inner_ != 0 || it.outer_ != to_

/-- The loop `for (; iterator != end(); ++iterator, ++edges_end)` of `Run` and the two
statements after it. `mem` is the memory of the output range, `pos` is
`edges_end - edges->begin`. The result is the returned flag and the output range. -/
def RunLoop (from_ to_ threshold : ℚ) (track : FloatTrack) (it : Iterator)
    (mem : List Edge) (pos : ℕ) : Option (Bool × List Edge) :=
  if Iterator.neEnd to_ it then
    if pos < mem.length then
      match Iterator.next from_ to_ threshold track it with
      | none => none
      | some it' => RunLoop from_ to_ threshold track it' (mem.set pos it.edge_) (pos + 1)
    else some (false, mem)
  else some (true, mem.take pos)
termination_by mem.length - pos
decreasing_by
  simp only [List.length_set]
  omega

/-- `FloatTrackTriggeringJob::Validate`. -/
def Validate (job : FloatTrackTriggeringJob) : Bool :=
  let valid := true
  let valid := valid && job.track.isSome
  let valid := valid && job.edges.isSome
  valid

/-- `FloatTrackTriggeringJob::Run`: the returned flag and the range `*edges` on return
(`none` for a null `edges`). `edge0` is the uninitialized `edge_` of the iterator. -/
def Run (job : FloatTrackTriggeringJob) (edge0 : Edge) :
    Option (Bool × Option (List Edge)) :=
  if !Validate job then some (false, job.edges)
  else
    match job.track, job.edges with
    | some track, some mem =>
      if job.from_ = job.to_ then some (true, some [])
      else
        match Iterator.begin job.from_ job.to_ job.threshold track edge0 with
        | none => none
        | some it =>
          match RunLoop job.from_ job.to_ job.threshold track it mem 0 with
          | none => none
          | some (r, out) => some (r, some out)
    | _, _ => some (false, job.edges)

/-! ## Specification-level definitions -/

/-- Well-formed curve: `N ≥ 1` keyframes, strictly increasing keyframe times,
`0 ≤ times[0]` and `times[N-1] < 1`; and, as in every `FloatTrack`, one value per keyframe
and one step bit per keyframe. -/
def FloatTrack.WellFormed (track : FloatTrack) : Prop :=
  1 ≤ track.times.length ∧ track.values.length = track.times.length ∧
  track.times.length ≤ 8 * track.steps.length ∧
  track.times.Pairwise (· < ·) ∧
  0 ≤ track.times.getD 0 0 ∧ track.times.getD (track.times.length - 1) 0 < 1

instance (track : FloatTrack) : Decidable track.WellFormed := by
  unfold FloatTrack.WellFormed; infer_instance

/-- Index of the keyframe before keyframe `i` in the loop: `i == 0 ? num_keys - 1 : i - 1`. -/
def FloatTrack.prevKey (track : FloatTrack) (i : ℕ) : ℕ :=
  if i = 0 then track.times.length - 1 else i - 1

/-- Step bit of keyframe `i`. -/
def FloatTrack.isStep (track : FloatTrack) (i : ℕ) : Bool :=
  (track.steps.getD (i / 8) 0 &&& (1 <<< (i &&& 7))) != 0

/-- Time, local to the cycle, of the crossing between the keyframes `prevKey i` and `i`. -/
def FloatTrack.localTime (track : FloatTrack) (threshold : ℚ) (i : ℕ) : ℚ :=
  if track.isStep (track.prevKey i) then track.times.getD i 0
  else if i = 0 then 0
  else
    Lerp (track.times.getD (track.prevKey i) 0) (track.times.getD i 0)
      ((threshold - track.values.getD (track.prevKey i) 0) /
        (track.values.getD i 0 - track.values.getD (track.prevKey i) 0))

/-- The edge between the keyframes `prevKey i` and `i`, in local time, if there is one. -/
def FloatTrack.localEdge (track : FloatTrack) (threshold : ℚ) (forward : Bool) (i : ℕ) :
    Option Edge :=
  if track.values.getD (track.prevKey i) 0 ≤ threshold ∧ track.values.getD i 0 > threshold then
    some ⟨track.localTime threshold i, forward⟩
  else if track.values.getD (track.prevKey i) 0 > threshold ∧
      track.values.getD i 0 ≤ threshold then
    some ⟨track.localTime threshold i, !forward⟩
  else none

/-- An edge moved to the cycle `c`. -/
def Edge.shift (c : ℤ) (e : Edge) : Edge := { e with time := e.time + c }

/-- An edge with the opposite polarity. -/
def Edge.flip (e : Edge) : Edge := { e with rising := !e.rising }

/-- The edges of the cycle `c`, by increasing keyframe index. -/
def FloatTrack.cycleEdges (track : FloatTrack) (threshold : ℚ) (forward : Bool) (c : ℤ) :
    List Edge :=
  (List.range track.times.length).filterMap
    fun i => (track.localEdge threshold forward i).map (Edge.shift c)

/-- The edges of the `n` cycles `lo`, `lo + 1`, ..., by increasing cycle and index. -/
def FloatTrack.allEdges (track : FloatTrack) (threshold : ℚ) (forward : Bool) (lo : ℤ)
    (n : ℕ) : List Edge :=
  (List.range n).flatMap fun k => track.cycleEdges threshold forward (lo + k)

/-- Membership of the time of an edge to the half-open interval `[a, b)`. -/
def Edge.inRange (a b : ℚ) (e : Edge) : Bool := decide (a ≤ e.time ∧ e.time < b)

/-- The edges of the forward query `(a, b)`: those of the cycles `⌊a⌋`, ..., `⌈b⌉ - 1`, by
increasing cycle and index, whose time belongs to `[a, b)`. -/
def FloatTrack.forwardEdges (track : FloatTrack) (threshold a b : ℚ) : List Edge :=
  (track.allEdges threshold true ⌊a⌋ (⌈b⌉ - ⌊a⌋).toNat).filter (Edge.inRange a b)

/-- The edges of the backward query `(from = b, to = a)`: those of the cycles `⌊b⌋`, ...,
`⌊a⌋`, by decreasing cycle and index, whose time belongs to `[a, b)`. -/
def FloatTrack.backwardEdges (track : FloatTrack) (threshold b a : ℚ) : List Edge :=
  ((track.allEdges threshold false ⌊a⌋ (⌊b⌋ + 1 - ⌊a⌋).toNat).filter
    (Edge.inRange a b)).reverse

/-- The edges of the cycle `c` from the keyframe index `i` on. -/
def FloatTrack.cycleEdgesFrom (track : FloatTrack) (threshold : ℚ) (forward : Bool) (c : ℤ)
    (i : ℕ) : List Edge :=
  (List.range' i (track.times.length - i)).filterMap
    fun j => (track.localEdge threshold forward j).map (Edge.shift c)

/-- The edges of the cycle `c` from the keyframe index `k - 1` down to `0`. -/
def FloatTrack.cycleEdgesDown (track : FloatTrack) (threshold : ℚ) (forward : Bool) (c : ℤ)
    (k : ℕ) : List Edge :=
  (List.range k).reverse.filterMap
    fun j => (track.localEdge threshold forward j).map (Edge.shift c)

/-- The edges of the forward query `(a, b)` from the index `i` of the cycle `c` on. -/
def FloatTrack.forwardRest (track : FloatTrack) (threshold a b : ℚ) (c : ℤ) (i : ℕ) :
    List Edge :=
  (track.cycleEdgesFrom threshold true c i).filter (Edge.inRange a b) ++
    (track.allEdges threshold true (c + 1) (⌈b⌉ - (c + 1)).toNat).filter (Edge.inRange a b)

/-- The edges of the backward query `(b, a)` from the index `k - 1` of the cycle `c` down. -/
def FloatTrack.backwardRest (track : FloatTrack) (threshold b a : ℚ) (c : ℤ) (k : ℕ) :
    List Edge :=
  (track.cycleEdgesDown threshold false c k).filter (Edge.inRange a b) ++
    ((track.allEdges threshold false ⌊a⌋ (c - ⌊a⌋).toNat).filter (Edge.inRange a b)).reverse

/-- The curve of the scenarios: keyframes at `0`, `1/4`, `1/2`, `3/4` with the values `0`,
`1`, `1`, `0`, and no step. -/
def scenarioTrack : FloatTrack := ⟨[0, 1/4, 1/2, 3/4], [0, 1, 1, 0], [0]⟩

/-- A curve that touches the threshold `0` at the keyframe of time `1/4`. -/
def touchTrack : FloatTrack := ⟨[0, 1/4, 1/2], [1, 0, 1], [0]⟩

/-- One value and one step bit per keyframe, as in every `FloatTrack`, for any number of
keyframes. -/
def FloatTrack.Sized (track : FloatTrack) : Prop :=
  track.values.length = track.times.length ∧ track.times.length ≤ 8 * track.steps.length

instance (track : FloatTrack) : Decidable track.Sized := by
  unfold FloatTrack.Sized; infer_instance

/-- The cursors from which `operator++` reads within bounds: `inner_ ≥ 0` for a forward
query and `inner_ < N` for a backward query. -/
def Iterator.InBounds (from_ to_ : ℚ) (track : FloatTrack) (it : Iterator) : Prop :=
  if to_ > from_ then 0 ≤ it.inner_ else it.inner_ < track.times.length

/-- The state of the iterator after `n` calls of `operator++`. -/
def Iterator.advance (from_ to_ threshold : ℚ) (track : FloatTrack) :
    ℕ → Iterator → Option Iterator
  | 0, it => some it
  | n + 1, it =>
    (Iterator.next from_ to_ threshold track it).bind
      (Iterator.advance from_ to_ threshold track n)

/-- From the state `it`, the generator yields the edges `l`, in this order, and is then at
the end: `it` compares equal to `end()` when `l` is empty, and else `it` differs from
`end()`, its edge is the head of `l`, and `operator++` leads to a state that yields the
tail of `l`. -/
def Iterator.Produces (from_ to_ threshold : ℚ) (track : FloatTrack) :
    Iterator → List Edge → Prop
  | it, [] => Iterator.neEnd to_ it = false
  | it, e :: l =>
    Iterator.neEnd to_ it = true ∧ it.edge_ = e ∧
      ∃ it', Iterator.next from_ to_ threshold track it = some it' ∧
        Iterator.Produces from_ to_ threshold track it' l

/-! ## The code with binary32 rounding

The definitions above compute every `float` operation exactly. The definitions of this
section are the same code with each `float` operation rounded as IEEE 754 binary32 does, to
the nearest value and to the even one in a tie. The exponent is not bounded from above:
the magnitudes from `2 ^ 128`, which binary32 rounds to an infinity, are outside of the
model, as are the NaN. -/

/-- The power `2 ^ e` of an integer exponent. -/
def binary32.pow2 (e : ℤ) : ℚ :=
  if 0 ≤ e then ((2 ^ e.toNat : ℕ) : ℚ) else 1 / ((2 ^ (-e).toNat : ℕ) : ℚ)

/-- The position of the leading bit of `n`, that is `⌊log₂ n⌋` for `n ≥ 1`, found by
halving `n`, `fuel` times at most. -/
def binary32.log2 : ℕ → ℕ → ℕ
  | 0, _ => 0
  | fuel + 1, n => if 2 ≤ n then binary32.log2 fuel (n / 2) + 1 else 0

/-- The exponent `e` of the binade of `x ≠ 0`: `2 ^ e ≤ |x| < 2 ^ (e + 1)`. The difference
of the positions of the leading bits of the numerator and of the denominator is `e` or
`e + 1`. -/
def binary32.exponent (x : ℚ) : ℤ :=
  let e0 : ℤ := (binary32.log2 x.num.natAbs x.num.natAbs : ℤ) -
    (binary32.log2 x.den x.den : ℤ)
  if binary32.pow2 e0 * (x.den : ℚ) ≤ (x.num.natAbs : ℚ) then e0 else e0 - 1

/-- The distance of two consecutive binary32 values in the binade of `x`: 24 significant
bits, and the subnormal spacing `2 ^ (-149)` below `2 ^ (-126)`. -/
def binary32.ulp (x : ℚ) : ℚ :=
  binary32.pow2 (max (binary32.exponent x) (-126) - 23)

/-- The binary32 value nearest to `x`, the one with an even significand in a tie. -/
def binary32.round (x : ℚ) : ℚ :=
  if x = 0 then 0
  else
    let u := binary32.ulp x
    let q := x / u
    let n : ℤ := ⌊q⌋
    let r := q - n
    let m : ℤ := if r < 1 / 2 then n else if r > 1 / 2 then n + 1
      else if n % 2 = 0 then n else n + 1
    m * u

/-- The `float` sum `a + b`. -/
def binary32.add (a b : ℚ) : ℚ := binary32.round (a + b)

/-- The `float` difference `a - b`. -/
def binary32.sub (a b : ℚ) : ℚ := binary32.round (a - b)

/-- The `float` product `a * b`. -/
def binary32.mul (a b : ℚ) : ℚ := binary32.round (a * b)

/-- The `float` quotient `a / b`. -/
def binary32.div (a b : ℚ) : ℚ := binary32.round (a / b)

/-- Modelled from the spec: `math::Lerp` of `ozz/base/maths/math_ex.h`,
`(b - a) * alpha + a`, each of the three operations rounded. -/
def binary32.Lerp (a b alpha : ℚ) : ℚ :=
  binary32.add (binary32.mul (binary32.sub b a) alpha) a

/-- `DetectEdge` with binary32 rounding: the quotient `alpha` and `math::Lerp` are the
`float` operations of the function. -/
def binary32.DetectEdge (i0 i1 : ℤ) (forward : Bool) (threshold : ℚ) (track : FloatTrack)
    (edge : Edge) : Option (Bool × Edge) := do
  let vk0 ← Range.at track.values i0
  let vk1 ← Range.at track.values i1
  let (detected, edge) :=
    if vk0 ≤ threshold ∧ vk1 > threshold then
      (true, { edge with rising := forward })
    else if vk0 > threshold ∧ vk1 ≤ threshold then
      (true, { edge with rising := !forward })
    else (false, edge)
  if detected then
    let byte ← Range.at track.steps (i0 / 8)
    let step := (byte &&& (1 <<< (i0.toNat &&& 7))) != 0
    if step then
      let t ← Range.at track.times i1
      pure (detected, { edge with time := t })
    else
      if vk0 = vk1 then none  -- assert(vk0 != vk1)
      else if i1 = 0 then
        pure (detected, { edge with time := 0 })
      else
        let alpha := binary32.div (binary32.sub threshold vk0) (binary32.sub vk1 vk0)
        let tk0 ← Range.at track.times i0
        let tk1 ← Range.at track.times i1
        pure (detected, { edge with time := binary32.Lerp tk0 tk1 alpha })
  else
    pure (detected, edge)

/-- The inner loop of the forward branch of `Iterator::operator++` with binary32 rounding:
`edge_.time += outer_`, `1.f + outer_` and `times[inner_] + outer_` are `float` sums. -/
def binary32.forwardInner (from_ to_ threshold : ℚ) (track : FloatTrack) (outer : ℚ)
    (inner : ℤ) (edge : Edge) : Option (Bool × ℤ × Edge) :=
  if inner < (track.times.length : ℤ) then
    let i0 := if inner = 0 then (track.times.length : ℤ) - 1 else inner - 1
    match binary32.DetectEdge i0 inner true threshold track edge with
    | none => none
    | some (true, e) =>
      let e' : Edge := { e with time := binary32.add e.time outer }
      if e'.time ≥ from_ ∧ (e'.time < to_ ∨ to_ ≥ binary32.add 1 outer) then
        some (true, inner + 1, e')
      else
        match Range.at track.times inner with
        | none => none
        | some t =>
          if binary32.add t outer ≥ to_ then some (false, inner, e')
          else binary32.forwardInner from_ to_ threshold track outer (inner + 1) e'
    | some (false, e) => binary32.forwardInner from_ to_ threshold track outer (inner + 1) e
  else some (false, inner, edge)
termination_by ((track.times.length : ℤ) - inner).toNat
decreasing_by all_goals omega

/-- The outer loop of the forward branch with binary32 rounding: `outer_ += 1.f` is a
`float` sum, which leaves `outer_` unchanged from `2 ^ 24`, so that the loop need not end.
The loop makes at most `fuel` tests of its condition: the result is `none` when this is not
enough, and it is the result of the code otherwise. -/
def binary32.forwardOuter (from_ to_ threshold : ℚ) (track : FloatTrack) :
    ℕ → ℚ → ℤ → Edge → Option Iterator
  | 0, _, _, _ => none
  | fuel + 1, outer, inner, edge =>
    if outer < to_ then
      match binary32.forwardInner from_ to_ threshold track outer inner edge with
      | none => none
      | some (true, inner', e) => some ⟨outer, inner', e⟩
      | some (false, _, e) =>
        binary32.forwardOuter from_ to_ threshold track fuel (binary32.add outer 1) 0 e
    else some ⟨to_, 0, edge⟩

/-- The inner loop of the backward branch of `Iterator::operator++` with binary32
rounding: `outer_ - 1.f`, `edge_.time += outer_ - 1.f` and
`times[inner_] + outer_ - 1.f` are `float` operations. -/
def binary32.backwardInner (from_ to_ threshold : ℚ) (track : FloatTrack) (outer : ℚ)
    (inner : ℤ) (edge : Edge) : Option (Bool × ℤ × Edge) :=
  if inner ≥ 0 then
    let i0 := if inner = 0 then (track.times.length : ℤ) - 1 else inner - 1
    match binary32.DetectEdge i0 inner false threshold track edge with
    | none => none
    | some (detected, e) =>
      let e' : Edge :=
        if detected then { e with time := binary32.add e.time (binary32.sub outer 1) } else e
      if detected ∧ e'.time ≥ to_ ∧ (e'.time < from_ ∨ from_ ≥ outer) then
        some (true, inner - 1, e')
      else
        match Range.at track.times inner with
        | none => none
        | some t =>
          if binary32.sub (binary32.add t outer) 1 ≤ to_ then some (false, inner, e')
          else binary32.backwardInner from_ to_ threshold track outer (inner - 1) e'
  else some (false, inner, edge)
termination_by (inner + 1).toNat
decreasing_by all_goals omega

/-- The outer loop of the backward branch with binary32 rounding: `outer_ -= 1.f` is a
`float` difference. The fuel is that of `binary32.forwardOuter`. -/
def binary32.backwardOuter (from_ to_ threshold : ℚ) (track : FloatTrack) :
    ℕ → ℚ → ℤ → Edge → Option Iterator
  | 0, _, _, _ => none
  | fuel + 1, outer, inner, edge =>
    if outer > to_ then
      match binary32.backwardInner from_ to_ threshold track outer inner edge with
      | none => none
      | some (true, inner', e) => some ⟨outer, inner', e⟩
      | some (false, _, e) =>
        binary32.backwardOuter from_ to_ threshold track fuel (binary32.sub outer 1)
          ((track.times.length : ℤ) - 1) e
    else some ⟨to_, 0, edge⟩

/-- `Iterator::operator++` with binary32 rounding, each call with the fuel `fuel`. -/
def binary32.next (fuel : ℕ) (from_ to_ threshold : ℚ) (track : FloatTrack)
    (it : Iterator) : Option Iterator :=
  if to_ > from_ then
    binary32.forwardOuter from_ to_ threshold track fuel it.outer_ it.inner_ it.edge_
  else binary32.backwardOuter from_ to_ threshold track fuel it.outer_ it.inner_ it.edge_

/-- The constructor of the iterator with binary32 rounding: `floorf` is exact, and
`outer_ += 1.f` is a `float` sum. -/
def binary32.begin (fuel : ℕ) (from_ to_ threshold : ℚ) (track : FloatTrack)
    (edge0 : Edge) : Option Iterator :=
  let outer : ℚ := (⌊from_⌋ : ℤ)
  if to_ > from_ then binary32.next fuel from_ to_ threshold track ⟨outer, 0, edge0⟩
  else
    binary32.next fuel from_ to_ threshold track
      ⟨binary32.add outer 1, (track.times.length : ℤ) - 1, edge0⟩

/-- The loop of `Run` over the iterator with binary32 rounding. -/
def binary32.RunLoop (fuel : ℕ) (from_ to_ threshold : ℚ) (track : FloatTrack)
    (it : Iterator) (mem : List Edge) (pos : ℕ) : Option (Bool × List Edge) :=
  if Iterator.neEnd to_ it then
    if pos < mem.length then
      match binary32.next fuel from_ to_ threshold track it with
      | none => none
      | some it' =>
        binary32.RunLoop fuel from_ to_ threshold track it' (mem.set pos it.edge_) (pos + 1)
    else some (false, mem)
  else some (true, mem.take pos)
termination_by mem.length - pos
decreasing_by
  simp only [List.length_set]
  omega

/-- `FloatTrackTriggeringJob::Run` with binary32 rounding: a result `some` is the result
of the code, and `none` is a fault or a call of `operator++` that does not return within
`fuel` turns of its outer loop. -/
def binary32.Run (fuel : ℕ) (job : FloatTrackTriggeringJob) (edge0 : Edge) :
    Option (Bool × Option (List Edge)) :=
  if !Validate job then some (false, job.edges)
  else
    match job.track, job.edges with
    | some track, some mem =>
      if job.from_ = job.to_ then some (true, some [])
      else
        match binary32.begin fuel job.from_ job.to_ job.threshold track edge0 with
        | none => none
        | some it =>
          match binary32.RunLoop fuel job.from_ job.to_ job.threshold track it mem 0 with
          | none => none
          | some (r, out) => some (r, some out)
    | _, _ => some (false, job.edges)

/-- A well-formed curve with a step from the keyframe 0 to the keyframe 1, at the time
`0.99999f`, close to the end of the cycle. -/
def boundaryTrack : FloatTrack := ⟨[0, binary32.round (99999 / 100000)], [0, 1], [1]⟩

theorem Range.at_eq_getD (r : List ℚ) (i : ℕ) (h : i < r.length) :
    Range.at r (i : ℤ) = some (r.getD i 0) := by
  simp [Range.at, h, List.getD_eq_getElem]

theorem Range.at_eq_getD_nat (r : List ℕ) (i : ℕ) (h : i < r.length) :
    Range.at r (i : ℤ) = some (r.getD i 0) := by
  simp [Range.at, h, List.getD_eq_getElem]

theorem FloatTrack.prevKey_lt {track : FloatTrack} (h : 1 ≤ track.times.length) (i : ℕ)
    (hi : i < track.times.length) : track.prevKey i < track.times.length := by
  unfold FloatTrack.prevKey
  split <;> omega

theorem FloatTrack.prevKey_cast {track : FloatTrack} (i : ℕ)
    (hi : i < track.times.length) :
    (if (i : ℤ) = 0 then (track.times.length : ℤ) - 1 else (i : ℤ) - 1)
      = ((track.prevKey i : ℕ) : ℤ) := by
  unfold FloatTrack.prevKey
  split_ifs <;> omega

theorem DetectEdge_eq {track : FloatTrack} (hw : track.WellFormed) (threshold : ℚ)
    (forward : Bool) (i : ℕ) (hi : i < track.times.length) (edge : Edge) :
    DetectEdge (track.prevKey i) i forward threshold track edge =
      some (match track.localEdge threshold forward i with
        | some e => (true, e)
        | none => (false, edge)) := by
  obtain ⟨h1, hv, hs, -, -, -⟩ := hw
  have hp := FloatTrack.prevKey_lt h1 i hi
  have hs8 : track.prevKey i / 8 < track.steps.length := by omega
  have hdiv : ((track.prevKey i : ℕ) : ℤ) / 8 = ((track.prevKey i / 8 : ℕ) : ℤ) := by
    norm_cast
  unfold DetectEdge FloatTrack.localEdge FloatTrack.localTime
  rw [Range.at_eq_getD _ _ (hv ▸ hp), Range.at_eq_getD _ _ (hv ▸ hi)]
  simp only [Option.bind_eq_bind, Option.some_bind, hdiv]
  rw [Range.at_eq_getD_nat _ _ hs8, Range.at_eq_getD _ _ hp, Range.at_eq_getD _ _ hi]
  simp only [Option.some_bind, Int.toNat_ofNat, FloatTrack.isStep]
  by_cases hr : track.values.getD (track.prevKey i) 0 ≤ threshold ∧
      track.values.getD i 0 > threshold
  · have hne : track.values.getD (track.prevKey i) 0 ≠ track.values.getD i 0 := by
      intro h; rw [h] at hr; linarith [hr.1, hr.2]
    simp only [hr, and_self, if_true]
    split_ifs <;> simp_all
  · by_cases hf : track.values.getD (track.prevKey i) 0 > threshold ∧
      track.values.getD i 0 ≤ threshold
    · have hne : track.values.getD (track.prevKey i) 0 ≠ track.values.getD i 0 := by
        intro h; rw [h] at hf; linarith [hf.1, hf.2]
      simp only [hr, hf, and_self, if_true, if_false]
      split_ifs <;> simp_all
    · rw [if_neg hr, if_neg hf, if_neg hr, if_neg hf]
      simp

/-! ## Keyframe times of a well-formed curve -/

theorem FloatTrack.WellFormed.times_lt {track : FloatTrack} (hw : track.WellFormed)
    {i j : ℕ} (hij : i < j) (hj : j < track.times.length) :
    track.times.getD i 0 < track.times.getD j 0 := by
  obtain ⟨-, -, -, hp, -, -⟩ := hw
  rw [List.getD_eq_getElem _ _ (by omega), List.getD_eq_getElem _ _ hj]
  exact List.pairwise_iff_getElem.mp hp i j (by omega) hj hij

theorem FloatTrack.WellFormed.times_le {track : FloatTrack} (hw : track.WellFormed)
    {i j : ℕ} (hij : i ≤ j) (hj : j < track.times.length) :
    track.times.getD i 0 ≤ track.times.getD j 0 := by
  rcases Nat.eq_or_lt_of_le hij with h | h
  · rw [h]
  · exact le_of_lt (hw.times_lt h hj)

theorem FloatTrack.WellFormed.times_nonneg {track : FloatTrack} (hw : track.WellFormed)
    {i : ℕ} (hi : i < track.times.length) : 0 ≤ track.times.getD i 0 :=
  le_trans hw.2.2.2.2.1 (hw.times_le (Nat.zero_le i) hi)

theorem FloatTrack.WellFormed.times_lt_one {track : FloatTrack} (hw : track.WellFormed)
    {i : ℕ} (hi : i < track.times.length) : track.times.getD i 0 < 1 :=
  lt_of_le_of_lt (hw.times_le (by omega) (by have := hw.1; omega)) hw.2.2.2.2.2

theorem Lerp_mem {t0 t1 alpha : ℚ} (ht : t0 ≤ t1) (h0 : 0 ≤ alpha) (h1 : alpha ≤ 1) :
    t0 ≤ Lerp t0 t1 alpha ∧ Lerp t0 t1 alpha ≤ t1 := by
  unfold Lerp
  constructor
  · nlinarith
  · nlinarith

theorem unlerp_mem {v0 v1 th : ℚ}
    (h : (v0 ≤ th ∧ v1 > th) ∨ (v0 > th ∧ v1 ≤ th)) :
    0 ≤ (th - v0) / (v1 - v0) ∧ (th - v0) / (v1 - v0) ≤ 1 := by
  rcases h with ⟨h0, h1⟩ | ⟨h0, h1⟩
  · have hd : 0 < v1 - v0 := by linarith
    exact ⟨div_nonneg (by linarith) hd.le, (div_le_one hd).mpr (by linarith)⟩
  · have hd : v1 - v0 < 0 := by linarith
    constructor
    · exact div_nonneg_of_nonpos (by linarith) hd.le
    · rw [div_le_one_of_neg hd]; linarith

/-- The local time of an edge lies between the times of its two keyframes (and between `0`
and the time of the first keyframe for the pair that closes the loop). -/
theorem FloatTrack.localEdge_time {track : FloatTrack} (hw : track.WellFormed)
    {threshold : ℚ} {forward : Bool} {i : ℕ} (hi : i < track.times.length) {e : Edge}
    (h : track.localEdge threshold forward i = some e) :
    (if i = 0 then 0 else track.times.getD (i - 1) 0) ≤ e.time ∧
      e.time ≤ track.times.getD i 0 := by
  have hcross : (track.values.getD (track.prevKey i) 0 ≤ threshold ∧
      track.values.getD i 0 > threshold) ∨ (track.values.getD (track.prevKey i) 0 > threshold ∧
      track.values.getD i 0 ≤ threshold) := by
    unfold FloatTrack.localEdge at h
    by_contra hc
    rw [not_or] at hc
    rw [if_neg hc.1, if_neg hc.2] at h
    exact Option.noConfusion h
  have ht : e.time = track.localTime threshold i := by
    unfold FloatTrack.localEdge at h
    split_ifs at h <;> simp at h <;> rw [← h]
  rw [ht]
  unfold FloatTrack.localTime
  by_cases h0 : i = 0
  · subst h0
    have := hw.times_nonneg hi
    split_ifs <;> simp_all
  · have hp : track.prevKey i = i - 1 := by simp [FloatTrack.prevKey, h0]
    have hlt : track.times.getD (i - 1) 0 < track.times.getD i 0 :=
      hw.times_lt (by omega) hi
    rw [hp] at hcross ⊢
    simp only [h0, if_false]
    split_ifs
    · exact ⟨hlt.le, le_refl _⟩
    · exact Lerp_mem hlt.le (unlerp_mem hcross).1 (unlerp_mem hcross).2

theorem FloatTrack.localEdge_time_nonneg {track : FloatTrack} (hw : track.WellFormed)
    {threshold : ℚ} {forward : Bool} {i : ℕ} (hi : i < track.times.length) {e : Edge}
    (h : track.localEdge threshold forward i = some e) : 0 ≤ e.time := by
  have := (track.localEdge_time hw hi h).1
  by_cases h0 : i = 0
  · simpa [h0] using this
  · simp only [h0, if_false] at this
    exact le_trans (hw.times_nonneg (by omega)) this

theorem FloatTrack.localEdge_time_lt_one {track : FloatTrack} (hw : track.WellFormed)
    {threshold : ℚ} {forward : Bool} {i : ℕ} (hi : i < track.times.length) {e : Edge}
    (h : track.localEdge threshold forward i = some e) : e.time < 1 :=
  lt_of_le_of_lt (track.localEdge_time hw hi h).2 (hw.times_lt_one hi)

theorem FloatTrack.localEdge_time_ge {track : FloatTrack} (hw : track.WellFormed)
    {threshold : ℚ} {forward : Bool} {i j : ℕ} (hij : i < j) (hj : j < track.times.length)
    {e : Edge} (h : track.localEdge threshold forward j = some e) :
    track.times.getD i 0 ≤ e.time := by
  have := (track.localEdge_time hw hj h).1
  have h0 : j ≠ 0 := by omega
  simp only [h0, if_false] at this
  exact le_trans (hw.times_le (by omega) (by omega)) this

/-! ## The forward generator -/

theorem FloatTrack.cycleEdgesFrom_of_ge (track : FloatTrack) (threshold : ℚ) (forward : Bool)
    (c : ℤ) {i : ℕ} (hi : track.times.length ≤ i) :
    track.cycleEdgesFrom threshold forward c i = [] := by
  simp [FloatTrack.cycleEdgesFrom, Nat.sub_eq_zero_of_le hi]

theorem FloatTrack.cycleEdgesFrom_of_lt (track : FloatTrack) (threshold : ℚ) (forward : Bool)
    (c : ℤ) {i : ℕ} (hi : i < track.times.length) :
    track.cycleEdgesFrom threshold forward c i =
      match track.localEdge threshold forward i with
      | some e => e.shift c :: track.cycleEdgesFrom threshold forward c (i + 1)
      | none => track.cycleEdgesFrom threshold forward c (i + 1) := by
  unfold FloatTrack.cycleEdgesFrom
  have : track.times.length - i = (track.times.length - (i + 1)) + 1 := by omega
  rw [this, List.range'_succ]
  cases h : track.localEdge threshold forward i <;> simp [List.filterMap_cons, h]

/-- The edges of a cycle from the index `i` on are not before the time of keyframe `i`. -/
theorem FloatTrack.cycleEdgesFrom_time_ge {track : FloatTrack} (hw : track.WellFormed)
    (threshold : ℚ) (forward : Bool) (c : ℤ) {i : ℕ} {e : Edge}
    (he : e ∈ track.cycleEdgesFrom threshold forward c (i + 1)) :
    track.times.getD i 0 + c ≤ e.time := by
  unfold FloatTrack.cycleEdgesFrom at he
  rw [List.mem_filterMap] at he
  obtain ⟨j, hj, hje⟩ := he
  rw [List.mem_range'_1] at hj
  cases hl : track.localEdge threshold forward j with
  | none => simp [hl] at hje
  | some e' =>
    simp only [hl, Option.map_some', Option.some.injEq] at hje
    rw [← hje]
    have := track.localEdge_time_ge hw (show i < j by omega) (by omega) hl
    simp only [Edge.shift]
    linarith

theorem forwardInner_spec {track : FloatTrack} (hw : track.WellFormed) (a b threshold : ℚ)
    (c : ℤ) (k : ℕ) : ∀ (i : ℕ) (e : Edge), track.times.length - i = k →
    ∃ r, forwardInner a b threshold track c i e = some r ∧
      ((r.1 = false ∧ (track.cycleEdgesFrom threshold true c i).filter (Edge.inRange a b) = []) ∨
        ∃ j e', i ≤ j ∧ j < track.times.length ∧ r = (true, (j : ℤ) + 1, e') ∧
          (track.cycleEdgesFrom threshold true c i).filter (Edge.inRange a b) =
            e' :: (track.cycleEdgesFrom threshold true c (j + 1)).filter (Edge.inRange a b)) := by
  induction k with
  | zero =>
    intro i e hk
    have hi : track.times.length ≤ i := by omega
    rw [forwardInner, if_neg (by omega)]
    exact ⟨_, rfl, Or.inl ⟨rfl, by simp [track.cycleEdgesFrom_of_ge threshold true c hi]⟩⟩
  | succ k ih =>
    intro i e hk
    have hi : i < track.times.length := by omega
    have hrec := fun e => ih (i + 1) e (by omega)
    rw [forwardInner, if_pos (by exact_mod_cast hi)]
    simp only [FloatTrack.prevKey_cast i hi, DetectEdge_eq hw threshold true i hi,
      track.cycleEdgesFrom_of_lt threshold true c hi]
    cases hl : track.localEdge threshold true i with
    | none =>
      simp only []
      obtain ⟨r, hr, hcase⟩ := hrec e
      refine ⟨r, by exact_mod_cast hr, ?_⟩
      rcases hcase with h | ⟨j, e', hj, hjn, hre, hl'⟩
      · exact Or.inl h
      · exact Or.inr ⟨j, e', by omega, hjn, hre, hl'⟩
    | some le =>
      simp only []
      have hlt : le.time < 1 := track.localEdge_time_lt_one hw hi hl
      have hle : le.time ≤ track.times.getD i 0 := (track.localEdge_time hw hi hl).2
      by_cases hacc : le.time + c ≥ a ∧ (le.time + c < b ∨ b ≥ 1 + c)
      · rw [if_pos hacc]
        refine ⟨_, rfl, Or.inr ⟨i, _, le_refl _, hi, rfl, ?_⟩⟩
        have : Edge.inRange a b (le.shift c) = true := by
          simp only [Edge.inRange, Edge.shift, decide_eq_true_eq]
          refine ⟨hacc.1, ?_⟩
          rcases hacc.2 with h | h <;> linarith
        rw [List.filter_cons_of_pos this]
        rfl
      · rw [if_neg hacc, Range.at_eq_getD _ _ hi]
        have hrej : Edge.inRange a b (le.shift c) = false := by
          simp only [Edge.inRange, Edge.shift, decide_eq_false_iff_not]
          intro h
          exact hacc ⟨h.1, Or.inl h.2⟩
        rw [List.filter_cons_of_neg (by simp [hrej] : ¬ Edge.inRange a b (le.shift c) = true)]
        simp only []
        by_cases hbrk : track.times.getD i 0 + c ≥ b
        · rw [if_pos hbrk]
          refine ⟨_, rfl, Or.inl ⟨rfl, ?_⟩⟩
          rw [List.filter_eq_nil_iff]
          intro x hx
          have := track.cycleEdgesFrom_time_ge hw threshold true c hx
          simp only [Edge.inRange, decide_eq_true_eq, not_and, not_lt]
          intro _
          linarith
        · rw [if_neg hbrk]
          obtain ⟨r, hr, hcase⟩ := hrec { time := le.time + c, rising := le.rising }
          refine ⟨r, by exact_mod_cast hr, ?_⟩
          rcases hcase with h | ⟨j, e', hj, hjn, hre, hl'⟩
          · exact Or.inl h
          · exact Or.inr ⟨j, e', by omega, hjn, hre, hl'⟩

theorem FloatTrack.cycleEdges_eq_from (track : FloatTrack) (threshold : ℚ) (forward : Bool)
    (c : ℤ) : track.cycleEdges threshold forward c = track.cycleEdgesFrom threshold forward c 0 := by
  simp [FloatTrack.cycleEdges, FloatTrack.cycleEdgesFrom, List.range_eq_range']

theorem FloatTrack.allEdges_zero (track : FloatTrack) (threshold : ℚ) (forward : Bool)
    (lo : ℤ) : track.allEdges threshold forward lo 0 = [] := by
  simp [FloatTrack.allEdges]

theorem FloatTrack.allEdges_succ (track : FloatTrack) (threshold : ℚ) (forward : Bool)
    (lo : ℤ) (n : ℕ) : track.allEdges threshold forward lo (n + 1) =
      track.cycleEdges threshold forward lo ++ track.allEdges threshold forward (lo + 1) n := by
  simp only [FloatTrack.allEdges, List.range_succ_eq_map, List.flatMap_cons, List.flatMap_map,
    Nat.cast_zero, add_zero]
  congr 1
  apply congrArg (fun f => List.flatMap (List.range n) f)
  funext k
  simp only [Function.comp, Nat.succ_eq_add_one, Nat.cast_add, Nat.cast_one]
  congr 1
  ring

theorem FloatTrack.allEdges_succ_last (track : FloatTrack) (threshold : ℚ) (forward : Bool)
    (lo : ℤ) (n : ℕ) : track.allEdges threshold forward lo (n + 1) =
      track.allEdges threshold forward lo n ++ track.cycleEdges threshold forward (lo + n) := by
  simp [FloatTrack.allEdges, List.range_succ, List.flatMap_append]

/-- The times of the edges of the cycle `c` belong to `[c, c + 1)`. -/
theorem FloatTrack.cycleEdgesFrom_time {track : FloatTrack} (hw : track.WellFormed)
    (threshold : ℚ) (forward : Bool) (c : ℤ) (i : ℕ) {e : Edge}
    (he : e ∈ track.cycleEdgesFrom threshold forward c i) :
    (c : ℚ) ≤ e.time ∧ e.time < c + 1 := by
  unfold FloatTrack.cycleEdgesFrom at he
  rw [List.mem_filterMap] at he
  obtain ⟨j, hj, hje⟩ := he
  rw [List.mem_range'_1] at hj
  cases hl : track.localEdge threshold forward j with
  | none => simp [hl] at hje
  | some e' =>
    simp only [hl, Option.map_some', Option.some.injEq] at hje
    rw [← hje]
    have h0 := track.localEdge_time_nonneg hw (show j < track.times.length by omega) hl
    have h1 := track.localEdge_time_lt_one hw (show j < track.times.length by omega) hl
    simp only [Edge.shift]
    constructor <;> linarith

theorem FloatTrack.forwardRest_of_le {track : FloatTrack} (hw : track.WellFormed)
    (threshold a b : ℚ) (c : ℤ) (i : ℕ) (h : b ≤ c) :
    track.forwardRest threshold a b c i = [] := by
  have hc : ⌈b⌉ ≤ c := Int.ceil_le.mpr h
  have h0 : (⌈b⌉ - (c + 1)).toNat = 0 := by omega
  rw [FloatTrack.forwardRest, h0, FloatTrack.allEdges_zero, List.filter_nil, List.append_nil,
    List.filter_eq_nil_iff]
  intro e he
  have := track.cycleEdgesFrom_time hw threshold true c i he
  simp only [Edge.inRange, decide_eq_true_eq, not_and, not_lt]
  intro _
  linarith

theorem FloatTrack.forwardRest_zero (track : FloatTrack)
    (threshold a b : ℚ) (c : ℤ) (h : (c : ℚ) < b) :
    (track.allEdges threshold true c (⌈b⌉ - c).toNat).filter (Edge.inRange a b) =
      track.forwardRest threshold a b c 0 := by
  have hc : c < ⌈b⌉ := Int.lt_ceil.mpr h
  have h0 : (⌈b⌉ - c).toNat = (⌈b⌉ - (c + 1)).toNat + 1 := by omega
  rw [FloatTrack.forwardRest, h0, FloatTrack.allEdges_succ, List.filter_append,
    FloatTrack.cycleEdges_eq_from]

theorem forwardOuter_produces {track : FloatTrack} (hw : track.WellFormed)
    (a b threshold : ℚ) (hab : a < b) (n : ℕ) : ∀ (c : ℤ), (⌈b⌉ - c).toNat = n →
    ∀ (k i : ℕ) (e : Edge), track.times.length - i = k →
    ∃ it, forwardOuter a b threshold track c i e = some it ∧
      Iterator.Produces a b threshold track it (track.forwardRest threshold a b c i) := by
  induction n with
  | zero =>
    intro c hc k i e _
    have hbc : b ≤ c := Int.ceil_le.mp (by omega)
    rw [forwardOuter, if_neg (not_lt.mpr hbc), track.forwardRest_of_le hw threshold a b c i hbc]
    exact ⟨_, rfl, by simp [Iterator.Produces, Iterator.neEnd]⟩
  | succ n ihn =>
    intro c hc k
    have hcb : (c : ℚ) < b := Int.lt_ceil.mp (by omega)
    have hnext : ∀ e, ∃ it, forwardOuter a b threshold track ((c : ℚ) + 1) 0 e = some it ∧
        Iterator.Produces a b threshold track it
          ((track.allEdges threshold true (c + 1) (⌈b⌉ - (c + 1)).toNat).filter
            (Edge.inRange a b)) := by
      intro e
      obtain ⟨it, h1, h2⟩ := ihn (c + 1) (by omega) _ 0 e rfl
      refine ⟨it, by exact_mod_cast h1, ?_⟩
      by_cases h : (c : ℚ) + 1 < b
      · rw [track.forwardRest_zero threshold a b (c + 1) (by push_cast; exact h)]; exact h2
      · have hc1 : ⌈b⌉ ≤ c + 1 := Int.ceil_le.mpr (by push_cast; linarith)
        have h0 : (⌈b⌉ - (c + 1)).toNat = 0 := by omega
        rw [track.forwardRest_of_le hw threshold a b (c + 1) 0 (by push_cast; linarith)] at h2
        rw [h0, FloatTrack.allEdges_zero, List.filter_nil]
        exact h2
    induction k using Nat.strong_induction_on with
    | _ k ihk =>
      intro i e hk
      obtain ⟨r, hr, hcase⟩ := forwardInner_spec hw a b threshold c k i e hk
      rw [forwardOuter, if_pos hcb, hr]
      rcases hcase with ⟨hfalse, hnil⟩ | ⟨j, e', hij, hjn, hre, hcons⟩
      · obtain ⟨r1, r2, r3⟩ := r
        simp only at hfalse
        subst hfalse
        simp only []
        rw [FloatTrack.forwardRest, hnil, List.nil_append]
        exact hnext r3
      · subst hre
        simp only []
        refine ⟨_, rfl, ?_⟩
        rw [FloatTrack.forwardRest, hcons, List.cons_append]
        refine ⟨?_, rfl, ?_⟩
        · simp only [Iterator.neEnd, bne_iff_ne, ne_eq, Bool.or_eq_true]
          left; omega
        · obtain ⟨it, h1, h2⟩ := ihk (track.times.length - (j + 1)) (by omega) (j + 1) e' rfl
          refine ⟨it, ?_, h2⟩
          simp only [Iterator.next, gt_iff_lt, hab, if_true]
          exact_mod_cast h1

theorem take_succ_set {α : Type} (x : α) : ∀ (mem : List α) (pos : ℕ),
    pos < mem.length → (mem.set pos x).take (pos + 1) = mem.take pos ++ [x]
  | [], _, h => by simp at h
  | _ :: _, 0, _ => by simp
  | y :: mem, pos + 1, h => by
    simp only [List.set_cons_succ, List.take_succ_cons, List.cons_append, List.cons.injEq,
      true_and]
    exact take_succ_set x mem pos (by simpa using h)

theorem RunLoop_of_produces (a b threshold : ℚ) (track : FloatTrack) (l : List Edge) :
    ∀ (it : Iterator) (mem : List Edge) (pos : ℕ),
    Iterator.Produces a b threshold track it l → pos ≤ mem.length →
    RunLoop a b threshold track it mem pos =
      some (if pos + l.length ≤ mem.length then (true, mem.take pos ++ l)
        else (false, mem.take pos ++ l.take (mem.length - pos))) := by
  induction l with
  | nil =>
    intro it mem pos hp hpos
    simp only [Iterator.Produces] at hp
    rw [RunLoop, hp]
    simp [hpos]
  | cons e l ih =>
    intro it mem pos hp hpos
    obtain ⟨hne, hedge, it', hnext, hp'⟩ := hp
    rw [RunLoop, hne]
    by_cases hlt : pos < mem.length
    · simp only [if_true, hlt, hnext]
      rw [ih it' (mem.set pos it.edge_) (pos + 1) hp' (by simp; omega),
        take_succ_set _ _ _ hlt, hedge, List.length_set, List.length_cons]
      have h1 : mem.length - pos = (mem.length - (pos + 1)) + 1 := by omega
      have h2 : (pos + 1 + l.length ≤ mem.length) ↔ (pos + (l.length + 1) ≤ mem.length) := by
        omega
      simp only [h2, h1, List.take_succ_cons, List.append_assoc, List.singleton_append]
    · have hpos' : pos = mem.length := by omega
      subst hpos'
      simp [hlt]

/-- The run of a forward query on a well-formed curve. -/
theorem Run_forward {track : FloatTrack} (hw : track.WellFormed) (a b threshold : ℚ)
    (hab : a < b) (mem : List Edge) (edge0 : Edge) :
    Run ⟨a, b, threshold, some track, some mem⟩ edge0 =
      some (if (track.forwardEdges threshold a b).length ≤ mem.length then
          (true, some (track.forwardEdges threshold a b))
        else (false, some ((track.forwardEdges threshold a b).take mem.length))) := by
  have hfl : ((⌊a⌋ : ℤ) : ℚ) < b := lt_of_le_of_lt (Int.floor_le a) hab
  obtain ⟨it, h1, h2⟩ := forwardOuter_produces hw a b threshold hab _ ⌊a⌋ rfl _ 0 edge0 rfl
  rw [← track.forwardRest_zero threshold a b ⌊a⌋ hfl] at h2
  have h3 := RunLoop_of_produces a b threshold track _ it mem 0 h2 (Nat.zero_le _)
  simp only [Run, Validate, Option.isSome_some, Bool.and_self, Bool.not_true, Bool.false_eq_true,
    if_false, ne_of_lt hab, Iterator.begin, gt_iff_lt, hab, if_true, Iterator.next]
  simp only [Nat.cast_zero] at h1
  rw [h1]
  simp only []
  rw [h3]
  simp only [FloatTrack.forwardEdges, List.take_zero, List.nil_append, zero_add, Nat.sub_zero]
  split_ifs <;> rfl

/-! ## The backward generator -/

theorem FloatTrack.cycleEdgesDown_zero (track : FloatTrack) (threshold : ℚ) (forward : Bool)
    (c : ℤ) : track.cycleEdgesDown threshold forward c 0 = [] := by
  simp [FloatTrack.cycleEdgesDown]

theorem FloatTrack.cycleEdgesDown_succ (track : FloatTrack) (threshold : ℚ) (forward : Bool)
    (c : ℤ) (k : ℕ) :
    track.cycleEdgesDown threshold forward c (k + 1) =
      match track.localEdge threshold forward k with
      | some e => e.shift c :: track.cycleEdgesDown threshold forward c k
      | none => track.cycleEdgesDown threshold forward c k := by
  unfold FloatTrack.cycleEdgesDown
  rw [List.range_succ, List.reverse_append, List.reverse_singleton, List.singleton_append]
  cases h : track.localEdge threshold forward k <;> simp [List.filterMap_cons, h]

theorem FloatTrack.cycleEdgesDown_eq_reverse (track : FloatTrack) (threshold : ℚ)
    (forward : Bool) (c : ℤ) :
    track.cycleEdgesDown threshold forward c track.times.length =
      (track.cycleEdges threshold forward c).reverse := by
  simp [FloatTrack.cycleEdgesDown, FloatTrack.cycleEdges, List.filterMap_reverse]

/-- The times of the edges of the cycle `c` before the index `k` belong to `[c, c + 1)`,
and are before the time of the keyframe `k`. -/
theorem FloatTrack.cycleEdgesDown_time {track : FloatTrack} (hw : track.WellFormed)
    (threshold : ℚ) (forward : Bool) (c : ℤ) {k : ℕ} (hk : k ≤ track.times.length) {e : Edge}
    (he : e ∈ track.cycleEdgesDown threshold forward c k) :
    (c : ℚ) ≤ e.time ∧ e.time < c + 1 ∧
      (k < track.times.length → e.time < track.times.getD k 0 + c) := by
  unfold FloatTrack.cycleEdgesDown at he
  rw [List.mem_filterMap] at he
  obtain ⟨j, hj, hje⟩ := he
  rw [List.mem_reverse, List.mem_range] at hj
  cases hl : track.localEdge threshold forward j with
  | none => simp [hl] at hje
  | some e' =>
    simp only [hl, Option.map_some', Option.some.injEq] at hje
    rw [← hje]
    have hjn : j < track.times.length := by omega
    have h0 := track.localEdge_time_nonneg hw hjn hl
    have h1 := track.localEdge_time_lt_one hw hjn hl
    have h2 := (track.localEdge_time hw hjn hl).2
    simp only [Edge.shift]
    refine ⟨by linarith, by linarith, fun hkn => ?_⟩
    have := hw.times_lt hj hkn
    linarith

theorem backwardInner_spec {track : FloatTrack} (hw : track.WellFormed) (b a threshold : ℚ)
    (c : ℤ) (k : ℕ) : ∀ (e : Edge), k ≤ track.times.length →
    ∃ r, backwardInner b a threshold track ((c : ℚ) + 1) ((k : ℤ) - 1) e = some r ∧
      ((r.1 = false ∧
          (track.cycleEdgesDown threshold false c k).filter (Edge.inRange a b) = []) ∨
        ∃ j e', j < k ∧ r = (true, (j : ℤ) - 1, e') ∧
          (track.cycleEdgesDown threshold false c k).filter (Edge.inRange a b) =
            e' :: (track.cycleEdgesDown threshold false c j).filter (Edge.inRange a b)) := by
  induction k with
  | zero =>
    intro e _
    rw [backwardInner, if_neg (by omega)]
    exact ⟨_, rfl, Or.inl ⟨rfl, by simp [track.cycleEdgesDown_zero]⟩⟩
  | succ k ih =>
    intro e hk
    have hi : k < track.times.length := by omega
    have hrec := fun e => ih e (by omega)
    have hcast : ((k + 1 : ℕ) : ℤ) - 1 = (k : ℤ) := by push_cast; ring
    rw [hcast, backwardInner, if_pos (by omega)]
    simp only [FloatTrack.prevKey_cast k hi, DetectEdge_eq hw threshold false k hi,
      track.cycleEdgesDown_succ threshold false c k, add_sub_cancel_right]
    have hbreak : track.times.getD k 0 + ((c : ℚ) + 1) - 1 ≤ a →
        (track.cycleEdgesDown threshold false c k).filter (Edge.inRange a b) = [] := by
      intro hbrk
      rw [List.filter_eq_nil_iff]
      intro x hx
      have := (track.cycleEdgesDown_time hw threshold false c (le_of_lt hi) hx).2.2 hi
      simp only [Edge.inRange, decide_eq_true_eq, not_and, not_lt]
      intro h
      linarith
    cases hl : track.localEdge threshold false k with
    | none =>
      simp only [Bool.false_eq_true, false_and, if_false, Range.at_eq_getD _ _ hi]
      by_cases hbrk : track.times.getD k 0 + ((c : ℚ) + 1) - 1 ≤ a
      · rw [if_pos hbrk]
        exact ⟨_, rfl, Or.inl ⟨rfl, hbreak hbrk⟩⟩
      · rw [if_neg hbrk]
        obtain ⟨r, hr, hcase⟩ := hrec e
        refine ⟨r, hr, ?_⟩
        rcases hcase with h | ⟨j, e', hj, hre, hl'⟩
        · exact Or.inl h
        · exact Or.inr ⟨j, e', by omega, hre, hl'⟩
    | some le =>
      simp only [if_true, true_and]
      have hlt : le.time < 1 := track.localEdge_time_lt_one hw hi hl
      by_cases hacc : le.time + c ≥ a ∧ (le.time + c < b ∨ b ≥ (c : ℚ) + 1)
      · rw [if_pos hacc]
        refine ⟨_, rfl, Or.inr ⟨k, _, by omega, rfl, ?_⟩⟩
        have : Edge.inRange a b (le.shift c) = true := by
          simp only [Edge.inRange, Edge.shift, decide_eq_true_eq]
          refine ⟨hacc.1, ?_⟩
          rcases hacc.2 with h | h <;> linarith
        rw [List.filter_cons_of_pos this]
        rfl
      · rw [if_neg hacc, Range.at_eq_getD _ _ hi]
        have hrej : Edge.inRange a b (le.shift c) = false := by
          simp only [Edge.inRange, Edge.shift, decide_eq_false_iff_not]
          intro h
          exact hacc ⟨h.1, Or.inl h.2⟩
        rw [List.filter_cons_of_neg (by simp [hrej] : ¬ Edge.inRange a b (le.shift c) = true)]
        simp only []
        by_cases hbrk : track.times.getD k 0 + ((c : ℚ) + 1) - 1 ≤ a
        · rw [if_pos hbrk]
          exact ⟨_, rfl, Or.inl ⟨rfl, hbreak hbrk⟩⟩
        · rw [if_neg hbrk]
          obtain ⟨r, hr, hcase⟩ := hrec { time := le.time + c, rising := le.rising }
          refine ⟨r, hr, ?_⟩
          rcases hcase with h | ⟨j, e', hj, hre, hl'⟩
          · exact Or.inl h
          · exact Or.inr ⟨j, e', by omega, hre, hl'⟩

theorem FloatTrack.backwardRest_of_lt {track : FloatTrack} (hw : track.WellFormed)
    (threshold b a : ℚ) (c : ℤ) (k : ℕ) (hk : k ≤ track.times.length) (h : c < ⌊a⌋) :
    track.backwardRest threshold b a c k = [] := by
  have h0 : (c - ⌊a⌋).toNat = 0 := by omega
  have hca : (c : ℚ) + 1 ≤ a := by
    have : ((c + 1 : ℤ) : ℚ) ≤ a := Int.le_floor.mp (by omega)
    exact_mod_cast this
  rw [FloatTrack.backwardRest, h0, FloatTrack.allEdges_zero, List.filter_nil, List.reverse_nil,
    List.append_nil, List.filter_eq_nil_iff]
  intro e he
  have := (track.cycleEdgesDown_time hw threshold false c hk he).2.1
  simp only [Edge.inRange, decide_eq_true_eq, not_and, not_lt]
  intro h
  linarith

theorem FloatTrack.backwardRest_full (track : FloatTrack)
    (threshold b a : ℚ) (c : ℤ) (h : ⌊a⌋ ≤ c) :
    ((track.allEdges threshold false ⌊a⌋ (c + 1 - ⌊a⌋).toNat).filter (Edge.inRange a b)).reverse =
      track.backwardRest threshold b a c track.times.length := by
  have h0 : (c + 1 - ⌊a⌋).toNat = (c - ⌊a⌋).toNat + 1 := by omega
  have h1 : ⌊a⌋ + ((c - ⌊a⌋).toNat : ℤ) = c := by omega
  rw [FloatTrack.backwardRest, h0, FloatTrack.allEdges_succ_last, List.filter_append,
    List.reverse_append, h1, FloatTrack.cycleEdgesDown_eq_reverse, List.filter_reverse]

theorem backwardOuter_produces {track : FloatTrack} (hw : track.WellFormed)
    (b a threshold : ℚ) (hab : a < b) (n : ℕ) : ∀ (c : ℤ), (c + 1 - ⌊a⌋).toNat = n →
    ∀ (k : ℕ) (e : Edge), k ≤ track.times.length →
    ∃ it, backwardOuter b a threshold track ((c : ℚ) + 1) ((k : ℤ) - 1) e = some it ∧
      Iterator.Produces b a threshold track it (track.backwardRest threshold b a c k) := by
  induction n with
  | zero =>
    intro c hc k e hk
    have hlt : c < ⌊a⌋ := by omega
    have hca : (c : ℚ) + 1 ≤ a := by
      have : ((c + 1 : ℤ) : ℚ) ≤ a := Int.le_floor.mp (by omega)
      exact_mod_cast this
    rw [backwardOuter, if_neg (not_lt.mpr hca), track.backwardRest_of_lt hw threshold b a c k hk hlt]
    exact ⟨_, rfl, by simp [Iterator.Produces, Iterator.neEnd]⟩
  | succ n ihn =>
    intro c hc k
    have hle : ⌊a⌋ ≤ c := by omega
    have hca : (c : ℚ) + 1 > a := by
      have : a < ((c + 1 : ℤ) : ℚ) := Int.floor_lt.mp (by omega)
      exact_mod_cast this
    have hnext : ∀ e, ∃ it, backwardOuter b a threshold track ((c : ℚ) + 1 - 1)
          ((track.times.length : ℤ) - 1) e = some it ∧
        Iterator.Produces b a threshold track it
          ((track.allEdges threshold false ⌊a⌋ (c - ⌊a⌋).toNat).filter
            (Edge.inRange a b)).reverse := by
      intro e
      obtain ⟨it, h1, h2⟩ := ihn (c - 1) (by omega) track.times.length e (le_refl _)
      have hcast : (((c - 1 : ℤ) : ℚ)) + 1 = (c : ℚ) + 1 - 1 := by push_cast; ring
      rw [hcast] at h1
      refine ⟨it, h1, ?_⟩
      by_cases h : ⌊a⌋ ≤ c - 1
      · rw [← track.backwardRest_full threshold b a (c - 1) h] at h2
        rw [show c - 1 + 1 = c by ring] at h2
        exact h2
      · have h0 : (c - ⌊a⌋).toNat = 0 := by omega
        rw [track.backwardRest_of_lt hw threshold b a (c - 1) _ (le_refl _) (by omega)] at h2
        rw [h0, FloatTrack.allEdges_zero, List.filter_nil, List.reverse_nil]
        exact h2
    induction k using Nat.strong_induction_on with
    | _ k ihk =>
      intro e hk
      obtain ⟨r, hr, hcase⟩ := backwardInner_spec hw b a threshold c k e hk
      rw [backwardOuter, if_pos hca, hr]
      rcases hcase with ⟨hfalse, hnil⟩ | ⟨j, e', hjk, hre, hcons⟩
      · obtain ⟨r1, r2, r3⟩ := r
        simp only at hfalse
        subst hfalse
        simp only []
        rw [FloatTrack.backwardRest, hnil, List.nil_append]
        exact hnext r3
      · subst hre
        simp only []
        refine ⟨_, rfl, ?_⟩
        rw [FloatTrack.backwardRest, hcons, List.cons_append]
        refine ⟨?_, rfl, ?_⟩
        · simp only [Iterator.neEnd, bne_iff_ne, ne_eq, Bool.or_eq_true]
          right; exact ne_of_gt hca
        · obtain ⟨it, h1, h2⟩ := ihk j hjk e' (by omega)
          refine ⟨it, ?_, h2⟩
          simp only [Iterator.next, gt_iff_lt, not_lt.mpr (le_of_lt hab), if_false]
          exact h1

/-- The run of a backward query on a well-formed curve. -/
theorem Run_backward {track : FloatTrack} (hw : track.WellFormed) (b a threshold : ℚ)
    (hab : a < b) (mem : List Edge) (edge0 : Edge) :
    Run ⟨b, a, threshold, some track, some mem⟩ edge0 =
      some (if (track.backwardEdges threshold b a).length ≤ mem.length then
          (true, some (track.backwardEdges threshold b a))
        else (false, some ((track.backwardEdges threshold b a).take mem.length))) := by
  have hfl : ⌊a⌋ ≤ ⌊b⌋ := Int.floor_mono (le_of_lt hab)
  obtain ⟨it, h1, h2⟩ := backwardOuter_produces hw b a threshold hab _ ⌊b⌋ rfl
    track.times.length edge0 (le_refl _)
  rw [← track.backwardRest_full threshold b a ⌊b⌋ hfl] at h2
  have h3 := RunLoop_of_produces b a threshold track _ it mem 0 h2 (Nat.zero_le _)
  simp only [Run, Validate, Option.isSome_some, Bool.and_self, Bool.not_true, Bool.false_eq_true,
    if_false, ne_of_gt hab, Iterator.begin, gt_iff_lt, not_lt.mpr (le_of_lt hab),
    Iterator.next]
  rw [h1]
  simp only []
  rw [h3]
  simp only [FloatTrack.backwardEdges, List.take_zero, List.nil_append, zero_add, Nat.sub_zero]
  split_ifs <;> rfl

/-! ## Order of the edges -/

theorem FloatTrack.allEdges_time {track : FloatTrack} (hw : track.WellFormed)
    (threshold : ℚ) (forward : Bool) (lo : ℤ) (n : ℕ) {e : Edge}
    (he : e ∈ track.allEdges threshold forward lo n) :
    (lo : ℚ) ≤ e.time ∧ e.time < lo + n := by
  simp only [FloatTrack.allEdges, List.mem_flatMap, List.mem_range] at he
  obtain ⟨k, hk, hek⟩ := he
  rw [FloatTrack.cycleEdges_eq_from] at hek
  have := track.cycleEdgesFrom_time hw threshold forward (lo + k) 0 hek
  have hk' : (k : ℚ) + 1 ≤ n := by exact_mod_cast hk
  push_cast at this
  constructor <;> linarith [this.1, this.2]

theorem FloatTrack.localEdge_false (track : FloatTrack) (threshold : ℚ) (i : ℕ) :
    track.localEdge threshold false i = (track.localEdge threshold true i).map Edge.flip := by
  unfold FloatTrack.localEdge
  split_ifs <;> simp [Edge.flip]

theorem Edge.inRange_flip (a b : ℚ) (e : Edge) : Edge.inRange a b e.flip = Edge.inRange a b e :=
  rfl

theorem FloatTrack.cycleEdges_false (track : FloatTrack) (threshold : ℚ) (c : ℤ) :
    track.cycleEdges threshold false c = (track.cycleEdges threshold true c).map Edge.flip := by
  simp only [FloatTrack.cycleEdges, List.map_filterMap, FloatTrack.localEdge_false,
    Option.map_map]
  rfl

theorem FloatTrack.allEdges_false (track : FloatTrack) (threshold : ℚ) (lo : ℤ) (n : ℕ) :
    track.allEdges threshold false lo n = (track.allEdges threshold true lo n).map Edge.flip := by
  simp only [FloatTrack.allEdges, List.map_flatMap, FloatTrack.cycleEdges_false]

theorem filter_inRange_map_flip (a b : ℚ) (l : List Edge) :
    (l.map Edge.flip).filter (Edge.inRange a b) = (l.filter (Edge.inRange a b)).map Edge.flip := by
  rw [List.filter_map]
  rfl

theorem FloatTrack.allEdges_add (track : FloatTrack) (threshold : ℚ) (forward : Bool)
    (lo : ℤ) (n m : ℕ) : track.allEdges threshold forward lo (n + m) =
      track.allEdges threshold forward lo n ++ track.allEdges threshold forward (lo + n) m := by
  induction m with
  | zero => simp [FloatTrack.allEdges_zero]
  | succ m ih =>
    rw [← Nat.add_assoc, FloatTrack.allEdges_succ_last, ih, FloatTrack.allEdges_succ_last,
      List.append_assoc]
    push_cast
    rw [add_assoc]

/-- The cycles from `⌈b⌉` on have no edge before `b`. -/
theorem FloatTrack.filter_allEdges_extend {track : FloatTrack} (hw : track.WellFormed)
    (threshold : ℚ) (forward : Bool) (a b : ℚ) (lo : ℤ) (n m : ℕ) (h : b ≤ lo + n) :
    (track.allEdges threshold forward lo (n + m)).filter (Edge.inRange a b) =
      (track.allEdges threshold forward lo n).filter (Edge.inRange a b) := by
  rw [FloatTrack.allEdges_add, List.filter_append]
  have : (track.allEdges threshold forward (lo + n) m).filter (Edge.inRange a b) = [] := by
    rw [List.filter_eq_nil_iff]
    intro e he
    have := (track.allEdges_time hw threshold forward (lo + n) m he).1
    push_cast at this
    simp only [Edge.inRange, decide_eq_true_eq, not_and, not_lt]
    intro _
    linarith
  rw [this, List.append_nil]

/-- The edges of a backward query are those of the forward query on the same interval, in
the reverse order and with the opposite polarity. -/
theorem FloatTrack.backwardEdges_eq {track : FloatTrack} (hw : track.WellFormed)
    (threshold a b : ℚ) (hab : a < b) :
    track.backwardEdges threshold b a =
      ((track.forwardEdges threshold a b).map Edge.flip).reverse := by
  have h1 : ⌊a⌋ ≤ ⌈b⌉ := by
    have : ((⌊a⌋ : ℤ) : ℚ) ≤ b := le_trans (Int.floor_le a) (le_of_lt hab)
    exact Int.le_ceil_iff.mpr (by
      have := Int.floor_le a
      linarith)
  have h2 : ⌈b⌉ ≤ ⌊b⌋ + 1 := Int.ceil_le_floor_add_one b
  have hn : (⌊b⌋ + 1 - ⌊a⌋).toNat = (⌈b⌉ - ⌊a⌋).toNat + (⌊b⌋ + 1 - ⌈b⌉).toNat := by omega
  have hb : b ≤ ((⌊a⌋ : ℤ) : ℚ) + ((⌈b⌉ - ⌊a⌋).toNat : ℕ) := by
    have h3 : (((⌈b⌉ - ⌊a⌋).toNat : ℕ) : ℤ) = ⌈b⌉ - ⌊a⌋ := Int.toNat_of_nonneg (by omega)
    have h4 : ((((⌈b⌉ - ⌊a⌋).toNat : ℕ) : ℤ) : ℚ) = ((⌈b⌉ - ⌊a⌋ : ℤ) : ℚ) := by rw [h3]
    have h5 := Int.le_ceil b
    push_cast at h4
    rw [h4]
    linarith
  rw [FloatTrack.backwardEdges, FloatTrack.forwardEdges, hn,
    track.filter_allEdges_extend hw threshold false a b _ _ _ hb, FloatTrack.allEdges_false,
    filter_inRange_map_flip]

theorem Run_forward_out {track : FloatTrack} (hw : track.WellFormed) {a b threshold : ℚ}
    (hab : a < b) {mem : List Edge} {edge0 : Edge} {out : List Edge}
    (h : Run ⟨a, b, threshold, some track, some mem⟩ edge0 = some (true, some out)) :
    out = track.forwardEdges threshold a b := by
  rw [Run_forward hw a b threshold hab] at h
  split_ifs at h
  · simp only [Option.some.injEq, Prod.mk.injEq, true_and] at h
    exact h.symm
  · simp at h

theorem Run_backward_out {track : FloatTrack} (hw : track.WellFormed) {a b threshold : ℚ}
    (hab : a < b) {mem : List Edge} {edge0 : Edge} {out : List Edge}
    (h : Run ⟨b, a, threshold, some track, some mem⟩ edge0 = some (true, some out)) :
    out = ((track.forwardEdges threshold a b).map Edge.flip).reverse := by
  rw [Run_backward hw b a threshold hab, track.backwardEdges_eq hw threshold a b hab] at h
  split_ifs at h
  · simp only [Option.some.injEq, Prod.mk.injEq, true_and] at h
    exact h.symm
  · simp at h

theorem FloatTrack.forwardEdges_mem {track : FloatTrack} {threshold a b : ℚ} {e : Edge}
    (h : e ∈ track.forwardEdges threshold a b) : a ≤ e.time ∧ e.time < b := by
  have := (List.mem_filter.mp h).2
  simpa [Edge.inRange] using this

/-- The run of a query whose generator yields the edges `l`. -/
theorem Run_of_produces (from_ to_ threshold : ℚ) (track : FloatTrack) (mem : List Edge)
    (edge0 : Edge) (hne : from_ ≠ to_) (it : Iterator) (l : List Edge)
    (hbegin : Iterator.begin from_ to_ threshold track edge0 = some it)
    (hprod : Iterator.Produces from_ to_ threshold track it l) :
    Run ⟨from_, to_, threshold, some track, some mem⟩ edge0 =
      some (if l.length ≤ mem.length then (true, some l)
        else (false, some (l.take mem.length))) := by
  have h3 := RunLoop_of_produces from_ to_ threshold track l it mem 0 hprod (Nat.zero_le _)
  simp only [Run, Validate, Option.isSome_some, Bool.and_self, Bool.not_true, Bool.false_eq_true,
    if_false, hne, hbegin]
  rw [h3]
  simp only [List.take_zero, List.nil_append, zero_add, Nat.sub_zero]
  split_ifs <;> rfl

/-- The generator of a well-formed curve yields a list of edges, then reaches the end. -/
theorem Iterator.begin_produces {track : FloatTrack} (hw : track.WellFormed)
    (from_ to_ threshold : ℚ) (hne : from_ ≠ to_) (edge0 : Edge) :
    ∃ (it : Iterator) (l : List Edge),
      Iterator.begin from_ to_ threshold track edge0 = some it ∧
      Iterator.Produces from_ to_ threshold track it l := by
  rcases lt_or_gt_of_ne hne with h | h
  · obtain ⟨it, h1, h2⟩ :=
      forwardOuter_produces hw from_ to_ threshold h _ ⌊from_⌋ rfl _ 0 edge0 rfl
    refine ⟨it, _, ?_, h2⟩
    simp only [Iterator.begin, gt_iff_lt, h, if_true, Iterator.next]
    simpa using h1
  · obtain ⟨it, h1, h2⟩ := backwardOuter_produces hw from_ to_ threshold h _ ⌊from_⌋ rfl
      track.times.length edge0 (le_refl _)
    refine ⟨it, _, ?_, h2⟩
    simp only [Iterator.begin, gt_iff_lt, not_lt.mpr (le_of_lt h), if_false, Iterator.next]
    exact h1

/-- The result of `DetectEdge` once the two values are read: the `assert` holds on every
detection. -/
theorem DetectEdge_of_values (track : FloatTrack) (i0 i1 : ℤ) (forward : Bool)
    (threshold : ℚ) (edge : Edge) (v0 v1 : ℚ)
    (hv0 : Range.at track.values i0 = some v0) (hv1 : Range.at track.values i1 = some v1) :
    DetectEdge i0 i1 forward threshold track edge =
      if (v0 ≤ threshold ∧ v1 > threshold) ∨ (v0 > threshold ∧ v1 ≤ threshold) then
        (Range.at track.steps (i0 / 8)).bind fun byte =>
          if (byte &&& (1 <<< (i0.toNat &&& 7))) != 0 then
            (Range.at track.times i1).bind fun t =>
              some (true, ⟨t, if v0 ≤ threshold then forward else !forward⟩)
          else if i1 = 0 then some (true, ⟨0, if v0 ≤ threshold then forward else !forward⟩)
          else
            (Range.at track.times i0).bind fun tk0 =>
              (Range.at track.times i1).bind fun tk1 =>
                some (true, ⟨Lerp tk0 tk1 ((threshold - v0) / (v1 - v0)),
                  if v0 ≤ threshold then forward else !forward⟩)
      else some (false, edge) := by
  unfold DetectEdge
  rw [hv0, hv1]
  simp only [Option.bind_eq_bind, Option.some_bind]
  by_cases hr : v0 ≤ threshold ∧ v1 > threshold
  · have hne : v0 ≠ v1 := by
      intro h; rw [h] at hr; linarith [hr.1, hr.2]
    rw [if_pos hr, if_pos (Or.inl hr)]
    simp only [if_true, hr.1, hne, if_false]
    cases Range.at track.steps (i0 / 8) with
    | none => rfl
    | some byte =>
      simp only [Option.some_bind]
      split_ifs <;> rfl
  · by_cases hf : v0 > threshold ∧ v1 ≤ threshold
    · have hne : v0 ≠ v1 := by
        intro h; rw [h] at hf; linarith [hf.1, hf.2]
      have hn0 : ¬ v0 ≤ threshold := not_le.mpr hf.1
      rw [if_neg hr, if_pos hf, if_pos (Or.inr hf)]
      simp only [if_true, hn0, hne, if_false]
      cases Range.at track.steps (i0 / 8) with
      | none => rfl
      | some byte =>
        simp only [Option.some_bind]
        split_ifs <;> rfl
    · rw [if_neg hr, if_neg hf, if_neg (not_or.mpr ⟨hr, hf⟩)]
      rfl

/-- With every read within bounds, `DetectEdge` returns: it reports the crossings, with
their polarity, and leaves the edge as it is when there is none. -/
theorem DetectEdge_of_reads (track : FloatTrack) (i0 i1 : ℤ) (forward : Bool)
    (threshold : ℚ) (edge : Edge) (v0 v1 : ℚ) (byte : ℕ) (t0 t1 : ℚ)
    (hv0 : Range.at track.values i0 = some v0) (hv1 : Range.at track.values i1 = some v1)
    (hb : Range.at track.steps (i0 / 8) = some byte)
    (ht0 : Range.at track.times i0 = some t0) (ht1 : Range.at track.times i1 = some t1) :
    DetectEdge i0 i1 forward threshold track edge =
      if (v0 ≤ threshold ∧ v1 > threshold) ∨ (v0 > threshold ∧ v1 ≤ threshold) then
        some (true,
          ⟨if (byte &&& (1 <<< (i0.toNat &&& 7))) != 0 then t1
            else if i1 = 0 then 0 else Lerp t0 t1 ((threshold - v0) / (v1 - v0)),
            if v0 ≤ threshold then forward else !forward⟩)
      else some (false, edge) := by
  rw [DetectEdge_of_values track i0 i1 forward threshold edge v0 v1 hv0 hv1, hb, ht0, ht1]
  simp only [Option.some_bind]
  generalize (if v0 ≤ threshold then forward else !forward) = r
  split_ifs <;> rfl

/-- A result of `DetectEdge` comes with the two values that it has read. -/
theorem DetectEdge_values_of_some {track : FloatTrack} {i0 i1 : ℤ} {forward : Bool}
    {threshold : ℚ} {edge : Edge} {r : Bool × Edge}
    (h : DetectEdge i0 i1 forward threshold track edge = some r) :
    ∃ v0 v1, Range.at track.values i0 = some v0 ∧ Range.at track.values i1 = some v1 := by
  cases hv0 : Range.at track.values i0 with
  | none => simp [DetectEdge, hv0] at h
  | some v0 =>
    cases hv1 : Range.at track.values i1 with
    | none => simp [DetectEdge, hv0, hv1] at h
    | some v1 => exact ⟨v0, v1, rfl, rfl⟩

/-- A detection of `DetectEdge`: the two values are on both sides of the threshold, and the
time of the edge is the time of the second keyframe on a step, `0` for the pair that closes
the loop, and the interpolated time otherwise. -/
theorem DetectEdge_detected {track : FloatTrack} {i0 i1 : ℤ} {forward : Bool}
    {threshold : ℚ} {edge e : Edge} {v0 v1 : ℚ}
    (hv0 : Range.at track.values i0 = some v0) (hv1 : Range.at track.values i1 = some v1)
    (h : DetectEdge i0 i1 forward threshold track edge = some (true, e)) :
    ((v0 ≤ threshold ∧ v1 > threshold) ∨ (v0 > threshold ∧ v1 ≤ threshold)) ∧
      ∃ byte, Range.at track.steps (i0 / 8) = some byte ∧
        (if (byte &&& (1 <<< (i0.toNat &&& 7))) != 0 then
          Range.at track.times i1 = some e.time
        else if i1 = 0 then e.time = 0
        else ∃ t0 t1, Range.at track.times i0 = some t0 ∧ Range.at track.times i1 = some t1 ∧
          e.time = Lerp t0 t1 ((threshold - v0) / (v1 - v0))) := by
  rw [DetectEdge_of_values track i0 i1 forward threshold edge v0 v1 hv0 hv1] at h
  by_cases hc : (v0 ≤ threshold ∧ v1 > threshold) ∨ (v0 > threshold ∧ v1 ≤ threshold)
  · refine ⟨hc, ?_⟩
    rw [if_pos hc] at h
    cases hb : Range.at track.steps (i0 / 8) with
    | none => simp [hb] at h
    | some byte =>
      refine ⟨byte, rfl, ?_⟩
      rw [hb] at h
      simp only [Option.some_bind] at h
      by_cases hs : ((byte &&& (1 <<< (i0.toNat &&& 7))) != 0) = true
      · rw [if_pos hs] at h ⊢
        cases ht1 : Range.at track.times i1 with
        | none => simp [ht1] at h
        | some t1 =>
          simp only [ht1, Option.some_bind, Option.some.injEq, Prod.mk.injEq, true_and] at h
          rw [← h]
      · rw [if_neg hs] at h ⊢
        by_cases h1 : i1 = 0
        · rw [if_pos h1] at h ⊢
          simp only [Option.some.injEq, Prod.mk.injEq, true_and] at h
          rw [← h]
        · rw [if_neg h1] at h ⊢
          cases ht0 : Range.at track.times i0 with
          | none => simp [ht0] at h
          | some t0 =>
            cases ht1 : Range.at track.times i1 with
            | none => simp [ht0, ht1] at h
            | some t1 =>
              simp only [ht0, ht1, Option.some_bind, Option.some.injEq, Prod.mk.injEq,
                true_and] at h
              exact ⟨t0, t1, rfl, rfl, by rw [← h]⟩
  · rw [if_neg hc] at h
    simp at h

/-! ## The cursor of the generator -/

/-- The inner cursor of the forward loop never moves backward; after a yield it is at most
the number of keyframes and it is just after an index on which `DetectEdge` has reported a
crossing. -/
theorem forwardInner_cursor (from_ to_ threshold : ℚ) (track : FloatTrack) (outer : ℚ)
    (k : ℕ) : ∀ (inner : ℤ) (edge : Edge) (b : Bool) (inner' : ℤ) (e : Edge),
    ((track.times.length : ℤ) - inner).toNat = k →
    forwardInner from_ to_ threshold track outer inner edge = some (b, inner', e) →
    inner ≤ inner' ∧ (b = true → inner < inner' ∧ inner' ≤ track.times.length ∧
      ∃ edge1 e1, DetectEdge (if inner' - 1 = 0 then (track.times.length : ℤ) - 1
        else inner' - 1 - 1) (inner' - 1) true threshold track edge1 = some (true, e1)) := by
  induction k with
  | zero =>
    intro inner edge b inner' e hk h
    rw [forwardInner, if_neg (by omega)] at h
    simp only [Option.some.injEq, Prod.mk.injEq] at h
    obtain ⟨hb, hi, -⟩ := h
    subst hb hi
    exact ⟨le_refl _, fun h => by simp at h⟩
  | succ k ih =>
    intro inner edge b inner' e hk h
    have hlt : inner < (track.times.length : ℤ) := by omega
    have hrec : ∀ edge', forwardInner from_ to_ threshold track outer (inner + 1) edge' =
        some (b, inner', e) → inner ≤ inner' ∧ (b = true → inner < inner' ∧
          inner' ≤ track.times.length ∧
          ∃ edge1 e1, DetectEdge (if inner' - 1 = 0 then (track.times.length : ℤ) - 1
            else inner' - 1 - 1) (inner' - 1) true threshold track edge1 = some (true, e1)) := by
      intro edge' h'
      have := ih (inner + 1) edge' b inner' e (by omega) h'
      exact ⟨by omega, fun hb => ⟨by have := (this.2 hb).1; omega, (this.2 hb).2⟩⟩
    rw [forwardInner, if_pos hlt] at h
    simp only at h
    cases hd : DetectEdge (if inner = 0 then (track.times.length : ℤ) - 1 else inner - 1) inner
        true threshold track edge with
    | none => simp [hd] at h
    | some r =>
      obtain ⟨d, e1⟩ := r
      rw [hd] at h
      cases d with
      | false => exact hrec _ h
      | true =>
        simp only at h
        split_ifs at h with hacc
        · simp only [Option.some.injEq, Prod.mk.injEq] at h
          obtain ⟨hb, hi, -⟩ := h
          subst hb hi
          refine ⟨by omega, fun _ => ⟨by omega, by omega, edge, e1, ?_⟩⟩
          rw [show inner + 1 - 1 = inner by ring]
          exact hd
        · split at h
          · simp at h
          · split_ifs at h with hbrk
            · simp only [Option.some.injEq, Prod.mk.injEq] at h
              obtain ⟨hb, hi, -⟩ := h
              subst hb hi
              exact ⟨le_refl _, fun h => by simp at h⟩
            · exact hrec _ h

/-- The inner cursor of the backward loop never moves forward; after a yield it is at least
`-1` and it is just before an index on which `DetectEdge` has reported a crossing. -/
theorem backwardInner_cursor (from_ to_ threshold : ℚ) (track : FloatTrack) (outer : ℚ)
    (k : ℕ) : ∀ (inner : ℤ) (edge : Edge) (b : Bool) (inner' : ℤ) (e : Edge),
    (inner + 1).toNat = k →
    backwardInner from_ to_ threshold track outer inner edge = some (b, inner', e) →
    inner' ≤ inner ∧ (b = true → inner' < inner ∧ -1 ≤ inner' ∧
      ∃ edge1 e1, DetectEdge (if inner' + 1 = 0 then (track.times.length : ℤ) - 1
        else inner' + 1 - 1) (inner' + 1) false threshold track edge1 = some (true, e1)) := by
  induction k with
  | zero =>
    intro inner edge b inner' e hk h
    rw [backwardInner, if_neg (by omega)] at h
    simp only [Option.some.injEq, Prod.mk.injEq] at h
    obtain ⟨hb, hi, -⟩ := h
    subst hb hi
    exact ⟨le_refl _, fun h => by simp at h⟩
  | succ k ih =>
    intro inner edge b inner' e hk h
    have hge : inner ≥ 0 := by omega
    rw [backwardInner, if_pos hge] at h
    simp only at h
    have hrec : ∀ edge', backwardInner from_ to_ threshold track outer (inner - 1) edge' =
        some (b, inner', e) → inner' ≤ inner ∧ (b = true → inner' < inner ∧ -1 ≤ inner' ∧
          ∃ edge1 e1, DetectEdge (if inner' + 1 = 0 then (track.times.length : ℤ) - 1
            else inner' + 1 - 1) (inner' + 1) false threshold track edge1 = some (true, e1)) := by
      intro edge' h'
      have := ih (inner - 1) edge' b inner' e (by omega) h'
      exact ⟨by omega, fun hb => ⟨by have := (this.2 hb).1; omega, (this.2 hb).2⟩⟩
    have hbreak : ∀ edge', (match Range.at track.times inner with
        | none => none
        | some t =>
          if t + outer - 1 ≤ to_ then some (false, inner, edge')
          else backwardInner from_ to_ threshold track outer (inner - 1) edge') =
        some (b, inner', e) → inner' ≤ inner ∧ (b = true → inner' < inner ∧ -1 ≤ inner' ∧
          ∃ edge1 e1, DetectEdge (if inner' + 1 = 0 then (track.times.length : ℤ) - 1
            else inner' + 1 - 1) (inner' + 1) false threshold track edge1 = some (true, e1)) := by
      intro edge' h'
      split at h'
      · simp at h'
      · split_ifs at h' with hbrk
        · simp only [Option.some.injEq, Prod.mk.injEq] at h'
          obtain ⟨hb, hi, -⟩ := h'
          subst hb hi
          exact ⟨le_refl _, fun h => by simp at h⟩
        · exact hrec _ h'
    cases hd : DetectEdge (if inner = 0 then (track.times.length : ℤ) - 1 else inner - 1) inner
        false threshold track edge with
    | none => simp [hd] at h
    | some r =>
      obtain ⟨d, e1⟩ := r
      rw [hd] at h
      cases d with
      | false =>
        simp only [Bool.false_eq_true, false_and, if_false] at h
        exact hbreak _ h
      | true =>
        simp only [if_true, true_and] at h
        split_ifs at h with hacc
        · simp only [Option.some.injEq, Prod.mk.injEq] at h
          obtain ⟨hb, hi, -⟩ := h
          subst hb hi
          refine ⟨by omega, fun _ => ⟨by omega, by omega, edge, e1, ?_⟩⟩
          rw [show inner - 1 + 1 = inner by ring]
          exact hd
        · exact hbreak _ h

theorem Range.at_of_lt {α : Type} (r : List α) (i : ℤ) (h0 : 0 ≤ i) (h1 : i < r.length) :
    ∃ x, Range.at r i = some x := by
  have : i.toNat < r.length := by omega
  exact ⟨r[i.toNat], by simp [Range.at, h0, this]⟩

/-- `DetectEdge` returns on every pair of keyframe indices within bounds. -/
theorem DetectEdge_total {track : FloatTrack} (hs : track.Sized) (i0 i1 : ℤ)
    (h0 : 0 ≤ i0) (h0' : i0 < track.times.length) (h1 : 0 ≤ i1)
    (h1' : i1 < track.times.length) (forward : Bool) (threshold : ℚ) (edge : Edge) :
    ∃ r, DetectEdge i0 i1 forward threshold track edge = some r := by
  obtain ⟨hv, hst⟩ := hs
  obtain ⟨v0, hv0⟩ := Range.at_of_lt track.values i0 h0 (by omega)
  obtain ⟨v1, hv1⟩ := Range.at_of_lt track.values i1 h1 (by omega)
  obtain ⟨byte, hb⟩ := Range.at_of_lt track.steps (i0 / 8) (by omega) (by omega)
  obtain ⟨t0, ht0⟩ := Range.at_of_lt track.times i0 h0 h0'
  obtain ⟨t1, ht1⟩ := Range.at_of_lt track.times i1 h1 h1'
  rw [DetectEdge_of_reads track i0 i1 forward threshold edge v0 v1 byte t0 t1 hv0 hv1 hb ht0
    ht1]
  by_cases hc : (v0 ≤ threshold ∧ v1 > threshold) ∨ (v0 > threshold ∧ v1 ≤ threshold)
  · rw [if_pos hc]; exact ⟨_, rfl⟩
  · rw [if_neg hc]; exact ⟨_, rfl⟩

/-- The inner loop of the forward branch reads within bounds from every cursor `inner ≥ 0`. -/
theorem forwardInner_total {track : FloatTrack} (hs : track.Sized) (from_ to_ threshold : ℚ)
    (outer : ℚ) (k : ℕ) : ∀ (inner : ℤ) (edge : Edge),
    ((track.times.length : ℤ) - inner).toNat = k → 0 ≤ inner →
    ∃ r, forwardInner from_ to_ threshold track outer inner edge = some r := by
  induction k with
  | zero =>
    intro inner edge hk _
    rw [forwardInner, if_neg (by omega)]
    exact ⟨_, rfl⟩
  | succ k ih =>
    intro inner edge hk h0
    have hlt : inner < (track.times.length : ℤ) := by omega
    rw [forwardInner, if_pos hlt]
    simp only
    obtain ⟨r, hr⟩ := DetectEdge_total hs (if inner = 0 then (track.times.length : ℤ) - 1
      else inner - 1) inner (by split_ifs <;> omega) (by split_ifs <;> omega) h0 hlt true
      threshold edge
    obtain ⟨t, ht⟩ := Range.at_of_lt track.times inner h0 hlt
    rw [hr]
    obtain ⟨d, e⟩ := r
    cases d with
    | false => exact ih (inner + 1) e (by omega) (by omega)
    | true =>
      simp only [ht]
      split_ifs
      · exact ⟨_, rfl⟩
      · exact ⟨_, rfl⟩
      · exact ih (inner + 1) _ (by omega) (by omega)

/-- The inner loop of the backward branch reads within bounds from every cursor
`inner < N`. -/
theorem backwardInner_total {track : FloatTrack} (hs : track.Sized) (from_ to_ threshold : ℚ)
    (outer : ℚ) (k : ℕ) : ∀ (inner : ℤ) (edge : Edge),
    (inner + 1).toNat = k → inner < track.times.length →
    ∃ r, backwardInner from_ to_ threshold track outer inner edge = some r := by
  induction k with
  | zero =>
    intro inner edge hk _
    rw [backwardInner, if_neg (by omega)]
    exact ⟨_, rfl⟩
  | succ k ih =>
    intro inner edge hk hlt
    have h0 : inner ≥ 0 := by omega
    rw [backwardInner, if_pos h0]
    simp only
    obtain ⟨r, hr⟩ := DetectEdge_total hs (if inner = 0 then (track.times.length : ℤ) - 1
      else inner - 1) inner (by split_ifs <;> omega) (by split_ifs <;> omega) h0 hlt false
      threshold edge
    obtain ⟨t, ht⟩ := Range.at_of_lt track.times inner h0 hlt
    rw [hr]
    obtain ⟨d, e⟩ := r
    simp only [ht]
    cases d with
    | false =>
      simp only [Bool.false_eq_true, false_and, if_false]
      split_ifs
      · exact ⟨_, rfl⟩
      · exact ih (inner - 1) _ (by omega) (by omega)
    | true =>
      simp only [if_true, true_and]
      split_ifs
      · exact ⟨_, rfl⟩
      · exact ⟨_, rfl⟩
      · exact ih (inner - 1) _ (by omega) (by omega)

/-- The state after a forward `operator++` from a cursor `inner ≥ 0`: the end position, or
a cursor `1 ≤ inner' ≤ N` in a cycle before `to_`, a whole number of cycles after the
starting one, and after `inner` when the cycle is the same. -/
theorem forwardOuter_state (from_ to_ threshold : ℚ) (track : FloatTrack) (n : ℕ) :
    ∀ (outer : ℚ) (inner : ℤ) (edge : Edge) (it : Iterator), (⌈to_ - outer⌉).toNat = n →
    0 ≤ inner → forwardOuter from_ to_ threshold track outer inner edge = some it →
    it = ⟨to_, 0, it.edge_⟩ ∨
      (1 ≤ it.inner_ ∧ it.inner_ ≤ track.times.length ∧ it.outer_ < to_ ∧
        (∃ k : ℕ, it.outer_ = outer + k ∧ (k = 0 → inner < it.inner_)) ∧
        ∃ edge1 e1, DetectEdge (if it.inner_ - 1 = 0 then (track.times.length : ℤ) - 1
          else it.inner_ - 1 - 1) (it.inner_ - 1) true threshold track edge1 =
            some (true, e1)) := by
  induction n using Nat.strong_induction_on with
  | _ n ih =>
    intro outer inner edge it hn h0 h
    rw [forwardOuter] at h
    by_cases hlt : outer < to_
    · rw [if_pos hlt] at h
      cases hfi : forwardInner from_ to_ threshold track outer inner edge with
      | none => simp [hfi] at h
      | some r =>
        obtain ⟨b, inner', e⟩ := r
        rw [hfi] at h
        cases b with
        | true =>
          simp only [Option.some.injEq] at h
          subst h
          have hc := (forwardInner_cursor from_ to_ threshold track outer _ inner edge true
            inner' e rfl hfi).2 rfl
          exact Or.inr ⟨by simp only; omega, hc.2.1, hlt, ⟨0, by simp, fun _ => hc.1⟩, hc.2.2⟩
        | false =>
          simp only at h
          have h1 : ⌈to_ - (outer + 1)⌉ = ⌈to_ - outer⌉ - 1 := by
            rw [show to_ - (outer + 1) = (to_ - outer) - 1 by ring, Int.ceil_sub_one]
          have h2 : 0 < ⌈to_ - outer⌉ := Int.ceil_pos.mpr (by linarith)
          rcases ih _ (by omega) (outer + 1) 0 e it rfl (le_refl _) h with hend | hy
          · exact Or.inl hend
          · obtain ⟨hy1, hy2, hy3, ⟨k, hk, -⟩, hy4⟩ := hy
            refine Or.inr ⟨hy1, hy2, hy3,
              ⟨k + 1, ?_, fun hk0 => absurd hk0 (Nat.succ_ne_zero k)⟩, hy4⟩
            rw [hk]; push_cast; ring
    · rw [if_neg hlt] at h
      simp only [Option.some.injEq] at h
      subst h
      exact Or.inl rfl

/-- The state after a backward `operator++` from a cursor `inner < N`: the end position, or
a cursor `-1 ≤ inner' < N - 1` with an outer cursor after `to_`, a whole number of cycles
before the starting one, and before `inner` when the cycle is the same. -/
theorem backwardOuter_state (from_ to_ threshold : ℚ) (track : FloatTrack) (n : ℕ) :
    ∀ (outer : ℚ) (inner : ℤ) (edge : Edge) (it : Iterator), (⌈outer - to_⌉).toNat = n →
    inner < track.times.length →
    backwardOuter from_ to_ threshold track outer inner edge = some it →
    it = ⟨to_, 0, it.edge_⟩ ∨
      (-1 ≤ it.inner_ ∧ it.inner_ < (track.times.length : ℤ) - 1 ∧ it.outer_ > to_ ∧
        (∃ k : ℕ, it.outer_ = outer - k ∧ (k = 0 → it.inner_ < inner)) ∧
        ∃ edge1 e1, DetectEdge (if it.inner_ + 1 = 0 then (track.times.length : ℤ) - 1
          else it.inner_ + 1 - 1) (it.inner_ + 1) false threshold track edge1 =
            some (true, e1)) := by
  induction n using Nat.strong_induction_on with
  | _ n ih =>
    intro outer inner edge it hn h0 h
    rw [backwardOuter] at h
    by_cases hlt : outer > to_
    · rw [if_pos hlt] at h
      cases hfi : backwardInner from_ to_ threshold track outer inner edge with
      | none => simp [hfi] at h
      | some r =>
        obtain ⟨b, inner', e⟩ := r
        rw [hfi] at h
        cases b with
        | true =>
          simp only [Option.some.injEq] at h
          subst h
          have hc := (backwardInner_cursor from_ to_ threshold track outer _ inner edge true
            inner' e rfl hfi).2 rfl
          exact Or.inr ⟨hc.2.1, by simp only; omega, hlt, ⟨0, by simp, fun _ => hc.1⟩, hc.2.2⟩
        | false =>
          simp only at h
          have h1 : ⌈outer - 1 - to_⌉ = ⌈outer - to_⌉ - 1 := by
            rw [show outer - 1 - to_ = (outer - to_) - 1 by ring, Int.ceil_sub_one]
          have h2 : 0 < ⌈outer - to_⌉ := Int.ceil_pos.mpr (by linarith)
          rcases ih _ (by omega) (outer - 1) _ e it rfl (by omega) h with hend | hy
          · exact Or.inl hend
          · obtain ⟨hy1, hy2, hy3, ⟨k, hk, -⟩, hy4⟩ := hy
            refine Or.inr ⟨hy1, hy2, hy3,
              ⟨k + 1, ?_, fun hk0 => absurd hk0 (Nat.succ_ne_zero k)⟩, hy4⟩
            rw [hk]; push_cast; ring
    · rw [if_neg hlt] at h
      simp only [Option.some.injEq] at h
      subst h
      exact Or.inl rfl

/-- A forward `operator++` reads within bounds from every cursor `inner ≥ 0`. -/
theorem forwardOuter_total {track : FloatTrack} (hs : track.Sized) (from_ to_ threshold : ℚ)
    (n : ℕ) : ∀ (outer : ℚ) (inner : ℤ) (edge : Edge), (⌈to_ - outer⌉).toNat = n →
    0 ≤ inner → ∃ it, forwardOuter from_ to_ threshold track outer inner edge = some it := by
  induction n using Nat.strong_induction_on with
  | _ n ih =>
    intro outer inner edge hn h0
    rw [forwardOuter]
    by_cases hlt : outer < to_
    · rw [if_pos hlt]
      obtain ⟨r, hr⟩ := forwardInner_total hs from_ to_ threshold outer _ inner edge rfl h0
      obtain ⟨b, inner', e⟩ := r
      rw [hr]
      cases b with
      | true => exact ⟨_, rfl⟩
      | false =>
        have h1 : ⌈to_ - (outer + 1)⌉ = ⌈to_ - outer⌉ - 1 := by
          rw [show to_ - (outer + 1) = (to_ - outer) - 1 by ring, Int.ceil_sub_one]
        have h2 : 0 < ⌈to_ - outer⌉ := Int.ceil_pos.mpr (by linarith)
        exact ih _ (by omega) (outer + 1) 0 e rfl (le_refl _)
    · rw [if_neg hlt]
      exact ⟨_, rfl⟩

/-- A backward `operator++` reads within bounds from every cursor `inner < N`. -/
theorem backwardOuter_total {track : FloatTrack} (hs : track.Sized)
    (from_ to_ threshold : ℚ) (n : ℕ) : ∀ (outer : ℚ) (inner : ℤ) (edge : Edge),
    (⌈outer - to_⌉).toNat = n → inner < track.times.length →
    ∃ it, backwardOuter from_ to_ threshold track outer inner edge = some it := by
  induction n using Nat.strong_induction_on with
  | _ n ih =>
    intro outer inner edge hn h0
    rw [backwardOuter]
    by_cases hlt : outer > to_
    · rw [if_pos hlt]
      obtain ⟨r, hr⟩ := backwardInner_total hs from_ to_ threshold outer _ inner edge rfl h0
      obtain ⟨b, inner', e⟩ := r
      rw [hr]
      cases b with
      | true => exact ⟨_, rfl⟩
      | false =>
        have h1 : ⌈outer - 1 - to_⌉ = ⌈outer - to_⌉ - 1 := by
          rw [show outer - 1 - to_ = (outer - to_) - 1 by ring, Int.ceil_sub_one]
        have h2 : 0 < ⌈outer - to_⌉ := Int.ceil_pos.mpr (by linarith)
        exact ih _ (by omega) (outer - 1) _ e rfl (by omega)
    · rw [if_neg hlt]
      exact ⟨_, rfl⟩

theorem Iterator.neEnd_end (to_ : ℚ) (e : Edge) : Iterator.neEnd to_ ⟨to_, 0, e⟩ = false := by
  simp [Iterator.neEnd]

/-- From a cursor within bounds, `operator++` returns, and the cursor that it leaves is
within bounds unless it is the end position. -/
theorem Iterator.next_total {track : FloatTrack} (hs : track.Sized) (from_ to_ threshold : ℚ)
    (it : Iterator) (hin : Iterator.InBounds from_ to_ track it) :
    ∃ it', Iterator.next from_ to_ threshold track it = some it' ∧
      (Iterator.neEnd to_ it' = true → Iterator.InBounds from_ to_ track it') := by
  unfold Iterator.InBounds at hin ⊢
  unfold Iterator.next
  by_cases hdir : to_ > from_
  · rw [if_pos hdir] at hin ⊢
    obtain ⟨it', h⟩ := forwardOuter_total hs from_ to_ threshold _ it.outer_ it.inner_ it.edge_
      rfl hin
    refine ⟨it', h, fun hne => ?_⟩
    rw [if_pos hdir]
    rcases forwardOuter_state from_ to_ threshold track _ it.outer_ it.inner_ it.edge_ it' rfl
      hin h with hend | hy
    · rw [hend, Iterator.neEnd_end] at hne
      exact absurd hne (by simp)
    · omega
  · rw [if_neg hdir] at hin ⊢
    obtain ⟨it', h⟩ := backwardOuter_total hs from_ to_ threshold _ it.outer_ it.inner_ it.edge_
      rfl hin
    refine ⟨it', h, fun hne => ?_⟩
    rw [if_neg hdir]
    rcases backwardOuter_state from_ to_ threshold track _ it.outer_ it.inner_ it.edge_ it' rfl
      hin h with hend | hy
    · rw [hend, Iterator.neEnd_end] at hne
      exact absurd hne (by simp)
    · omega

/-- The constructor of the iterator returns, and the cursor that it leaves is within bounds
unless it is the end position. -/
theorem Iterator.begin_total {track : FloatTrack} (hs : track.Sized)
    (from_ to_ threshold : ℚ) (edge0 : Edge) :
    ∃ it, Iterator.begin from_ to_ threshold track edge0 = some it ∧
      (Iterator.neEnd to_ it = true → Iterator.InBounds from_ to_ track it) := by
  unfold Iterator.begin
  by_cases hdir : to_ > from_
  · simp only [if_pos hdir]
    exact Iterator.next_total hs from_ to_ threshold _ (by simp [Iterator.InBounds, hdir])
  · simp only [if_neg hdir]
    exact Iterator.next_total hs from_ to_ threshold _ (by simp [Iterator.InBounds, hdir])

/-- The loop of `Run` returns from every cursor within bounds. -/
theorem RunLoop_total {track : FloatTrack} (hs : track.Sized) (from_ to_ threshold : ℚ)
    (k : ℕ) : ∀ (it : Iterator) (mem : List Edge) (pos : ℕ), mem.length - pos = k →
    (Iterator.neEnd to_ it = true → Iterator.InBounds from_ to_ track it) →
    ∃ r, RunLoop from_ to_ threshold track it mem pos = some r := by
  induction k with
  | zero =>
    intro it mem pos hk _
    rw [RunLoop]
    split_ifs
    · omega
    · exact ⟨_, rfl⟩
    · exact ⟨_, rfl⟩
  | succ k ih =>
    intro it mem pos hk hin
    rw [RunLoop]
    by_cases hne : Iterator.neEnd to_ it = true
    · rw [if_pos hne, if_pos (by omega)]
      obtain ⟨it', h, hin'⟩ := Iterator.next_total hs from_ to_ threshold it (hin hne)
      rw [h]
      exact ih it' _ (pos + 1) (by simp only [List.length_set]; omega) hin'
    · rw [if_neg hne]
      exact ⟨_, rfl⟩

/-- `Run` returns for every query, every threshold and every capacity. -/
theorem Run_total {track : FloatTrack} (hs : track.Sized) (from_ to_ threshold : ℚ)
    (mem : List Edge) (edge0 : Edge) :
    ∃ r out, Run ⟨from_, to_, threshold, some track, some mem⟩ edge0 = some (r, some out) := by
  by_cases heq : from_ = to_
  · exact ⟨true, [], by simp [Run, Validate, heq]⟩
  · obtain ⟨it, hb, hin⟩ := Iterator.begin_total hs from_ to_ threshold edge0
    obtain ⟨r, hr⟩ := RunLoop_total hs from_ to_ threshold _ it mem 0 rfl hin
    obtain ⟨r1, r2⟩ := r
    exact ⟨r1, r2, by simp [Run, Validate, heq, hb, hr]⟩

/-- No crossing is detected between a keyframe and itself. -/
theorem DetectEdge_same_index (track : FloatTrack) (i : ℤ) (forward : Bool) (threshold : ℚ)
    (edge e : Edge) : DetectEdge i i forward threshold track edge ≠ some (true, e) := by
  intro h
  obtain ⟨v0, v1, hv0, hv1⟩ := DetectEdge_values_of_some h
  have hc := (DetectEdge_detected hv0 hv1 h).1
  rw [hv0] at hv1
  cases hv1
  rcases hc with ⟨h0, h1⟩ | ⟨h0, h1⟩
  · exact absurd h0 (not_le.mpr h1)
  · exact absurd h1 (not_le.mpr h0)

/-- With a single keyframe, `operator++` leads to the end position. -/
theorem Iterator.next_single {track : FloatTrack} (hN : track.times.length = 1)
    (from_ to_ threshold : ℚ) (it it' : Iterator) (hin : Iterator.InBounds from_ to_ track it)
    (h : Iterator.next from_ to_ threshold track it = some it') :
    it' = ⟨to_, 0, it'.edge_⟩ := by
  unfold Iterator.InBounds at hin
  unfold Iterator.next at h
  by_cases hdir : to_ > from_
  · rw [if_pos hdir] at hin h
    rcases forwardOuter_state from_ to_ threshold track _ it.outer_ it.inner_ it.edge_ it' rfl
      hin h with hend | ⟨h1, h2, -, -, edge1, e1, hd⟩
    · exact hend
    · have hi : it'.inner_ = 1 := by omega
      rw [hi, hN] at hd
      simp only [sub_self, if_true, Nat.cast_one] at hd
      exact absurd hd (DetectEdge_same_index track 0 true threshold edge1 e1)
  · rw [if_neg hdir] at hin h
    rcases backwardOuter_state from_ to_ threshold track _ it.outer_ it.inner_ it.edge_ it' rfl
      hin h with hend | ⟨h1, h2, -, -, edge1, e1, hd⟩
    · exact hend
    · have hi : it'.inner_ = -1 := by omega
      rw [hi, hN] at hd
      simp only [neg_add_cancel, if_true, Nat.cast_one, sub_self] at hd
      exact absurd hd (DetectEdge_same_index track 0 false threshold edge1 e1)

/-- With a single keyframe, `Run` outputs no edge. -/
theorem Run_single {track : FloatTrack} (hs : track.Sized) (hN : track.times.length = 1)
    (from_ to_ threshold : ℚ) (hne : from_ ≠ to_) (mem : List Edge) (edge0 : Edge) :
    Run ⟨from_, to_, threshold, some track, some mem⟩ edge0 = some (true, some []) := by
  obtain ⟨it, hb, -⟩ := Iterator.begin_total hs from_ to_ threshold edge0
  have hend : it = ⟨to_, 0, it.edge_⟩ := by
    unfold Iterator.begin at hb
    by_cases hdir : to_ > from_
    · simp only [if_pos hdir] at hb
      exact Iterator.next_single hN from_ to_ threshold _ it
        (by simp [Iterator.InBounds, hdir]) hb
    · simp only [if_neg hdir] at hb
      exact Iterator.next_single hN from_ to_ threshold _ it
        (by simp [Iterator.InBounds, hdir]) hb
  have hp : Iterator.Produces from_ to_ threshold track it [] := by
    rw [hend]
    exact Iterator.neEnd_end to_ _
  rw [Run_of_produces from_ to_ threshold track mem edge0 hne it [] hb hp]
  simp

/-- The generator that yields the edges `l` is at the end after as many calls of
`operator++` as there are edges, and not before. -/
theorem Iterator.advance_of_produces (from_ to_ threshold : ℚ) (track : FloatTrack)
    (l : List Edge) : ∀ (it : Iterator), Iterator.Produces from_ to_ threshold track it l →
    (∃ itEnd, Iterator.advance from_ to_ threshold track l.length it = some itEnd ∧
      Iterator.neEnd to_ itEnd = false) ∧
    ∀ m, m < l.length → ∃ it', Iterator.advance from_ to_ threshold track m it = some it' ∧
      Iterator.neEnd to_ it' = true := by
  induction l with
  | nil =>
    intro it hp
    exact ⟨⟨it, rfl, hp⟩, fun m hm => absurd hm (by simp)⟩
  | cons e l ih =>
    intro it hp
    obtain ⟨hne, -, it', hnext, hp'⟩ := hp
    obtain ⟨⟨itEnd, h1, h2⟩, h3⟩ := ih it' hp'
    refine ⟨⟨itEnd, ?_, h2⟩, fun m hm => ?_⟩
    · simp only [List.length_cons, Iterator.advance, hnext, Option.some_bind]
      exact h1
    · cases m with
      | zero => exact ⟨it, rfl, hne⟩
      | succ m =>
        obtain ⟨it'', h4, h5⟩ := h3 m (by simpa using hm)
        exact ⟨it'', by simp only [Iterator.advance, hnext, Option.some_bind]; exact h4, h5⟩

/-- A read that returns is within bounds. -/
theorem Range.at_lt {α : Type} {r : List α} {i : ℤ} {x : α} (h : Range.at r i = some x) :
    0 ≤ i ∧ i < r.length := by
  unfold Range.at at h
  split_ifs at h with h0
  have := (List.getElem?_eq_some_iff.mp h).1
  exact ⟨h0, by omega⟩

/-! ## The naive enumeration -/

theorem FloatTrack.cycleEdges_length_le (track : FloatTrack) (threshold : ℚ) (forward : Bool)
    (c : ℤ) : (track.cycleEdges threshold forward c).length ≤ track.times.length := by
  unfold FloatTrack.cycleEdges
  exact le_trans (List.length_filterMap_le _ _) (by simp)

theorem FloatTrack.allEdges_length_le (track : FloatTrack) (threshold : ℚ) (forward : Bool)
    (n : ℕ) : ∀ (lo : ℤ),
    (track.allEdges threshold forward lo n).length ≤ track.times.length * n := by
  induction n with
  | zero => intro lo; simp [FloatTrack.allEdges_zero]
  | succ n ih =>
    intro lo
    rw [FloatTrack.allEdges_succ, List.length_append, Nat.mul_succ]
    have h1 := track.cycleEdges_length_le threshold forward lo
    have h2 := ih (lo + 1)
    omega

/-- A forward query yields at most one edge per keyframe and per cycle. -/
theorem FloatTrack.forwardEdges_length_le (track : FloatTrack) (threshold a b : ℚ) :
    (track.forwardEdges threshold a b).length ≤
      track.times.length * (⌈b⌉ - ⌊a⌋).toNat := by
  unfold FloatTrack.forwardEdges
  exact le_trans (List.length_filter_le _ _) (track.allEdges_length_le threshold true _ _)

/-- The edges that the generator yields from a state are determined by this state. -/
theorem Iterator.produces_unique (from_ to_ threshold : ℚ) (track : FloatTrack)
    (l : List Edge) : ∀ (it : Iterator) (l' : List Edge),
    Iterator.Produces from_ to_ threshold track it l →
    Iterator.Produces from_ to_ threshold track it l' → l = l' := by
  induction l with
  | nil =>
    intro it l' h h'
    cases l' with
    | nil => rfl
    | cons e' l' =>
      have h1 : Iterator.neEnd to_ it = false := h
      have h2 : Iterator.neEnd to_ it = true := h'.1
      rw [h1] at h2
      exact absurd h2 (by simp)
  | cons e l ih =>
    intro it l' h h'
    cases l' with
    | nil =>
      have h1 : Iterator.neEnd to_ it = false := h'
      have h2 : Iterator.neEnd to_ it = true := h.1
      rw [h1] at h2
      exact absurd h2 (by simp)
    | cons e' l' =>
      obtain ⟨-, he, it1, hn1, hp1⟩ := h
      obtain ⟨-, he', it2, hn2, hp2⟩ := h'
      rw [hn1] at hn2
      cases hn2
      rw [← he, ← he', ih it1 l' hp1 hp2]

/-- The generator of a query on a well-formed curve yields the edges of the query. -/
theorem Iterator.begin_produces_edges {track : FloatTrack} (hw : track.WellFormed)
    (from_ to_ threshold : ℚ) (edge0 : Edge) :
    (from_ < to_ → ∃ it, Iterator.begin from_ to_ threshold track edge0 = some it ∧
      Iterator.Produces from_ to_ threshold track it (track.forwardEdges threshold from_ to_)) ∧
    (to_ < from_ → ∃ it, Iterator.begin from_ to_ threshold track edge0 = some it ∧
      Iterator.Produces from_ to_ threshold track it
        (track.backwardEdges threshold from_ to_)) := by
  constructor
  · intro h
    have hfl : ((⌊from_⌋ : ℤ) : ℚ) < to_ := lt_of_le_of_lt (Int.floor_le from_) h
    obtain ⟨it, h1, h2⟩ :=
      forwardOuter_produces hw from_ to_ threshold h _ ⌊from_⌋ rfl _ 0 edge0 rfl
    rw [← track.forwardRest_zero threshold from_ to_ ⌊from_⌋ hfl] at h2
    refine ⟨it, ?_, h2⟩
    simp only [Iterator.begin, gt_iff_lt, h, if_true, Iterator.next]
    simpa using h1
  · intro h
    have hfl : ⌊to_⌋ ≤ ⌊from_⌋ := Int.floor_mono (le_of_lt h)
    obtain ⟨it, h1, h2⟩ := backwardOuter_produces hw from_ to_ threshold h _ ⌊from_⌋ rfl
      track.times.length edge0 (le_refl _)
    rw [← track.backwardRest_full threshold from_ to_ ⌊from_⌋ hfl] at h2
    refine ⟨it, ?_, h2⟩
    simp only [Iterator.begin, gt_iff_lt, not_lt.mpr (le_of_lt h), if_false, Iterator.next]
    exact h1

/-- The number of edges of a query on a well-formed curve is at most the number of
keyframes times the number of cycles that the query meets. -/
theorem FloatTrack.edges_length_le {track : FloatTrack} (hw : track.WellFormed)
    (threshold from_ to_ : ℚ) :
    (from_ < to_ → ((track.forwardEdges threshold from_ to_).length : ℤ) ≤
      (track.times.length : ℤ) * (⌈max from_ to_⌉ - ⌊min from_ to_⌋)) ∧
    (to_ < from_ → ((track.backwardEdges threshold from_ to_).length : ℤ) ≤
      (track.times.length : ℤ) * (⌈max from_ to_⌉ - ⌊min from_ to_⌋)) := by
  have key : ∀ a b : ℚ, a < b → ((track.forwardEdges threshold a b).length : ℤ) ≤
      (track.times.length : ℤ) * (⌈b⌉ - ⌊a⌋) := by
    intro a b hab
    have h3 : ⌊a⌋ < ⌈b⌉ := Int.lt_ceil.mpr (lt_of_le_of_lt (Int.floor_le a) hab)
    have h4 : (((⌈b⌉ - ⌊a⌋).toNat : ℕ) : ℤ) = ⌈b⌉ - ⌊a⌋ := Int.toNat_of_nonneg (by omega)
    have h5 := track.forwardEdges_length_le threshold a b
    rw [← h4]
    exact_mod_cast h5
  constructor
  · intro h
    rw [min_eq_left h.le, max_eq_right h.le]
    exact key from_ to_ h
  · intro h
    rw [min_eq_right h.le, max_eq_left h.le, track.backwardEdges_eq hw threshold to_ from_ h,
      List.length_reverse, List.length_map]
    exact key to_ from_ h

/-- An edge yielded by the inner loop of a backward query passed the test of the loop. -/
theorem backwardInner_accept (from_ to_ threshold : ℚ) (track : FloatTrack) (outer : ℚ)
    (k : ℕ) : ∀ (inner : ℤ) (edge : Edge) (inner' : ℤ) (e : Edge),
    (inner + 1).toNat = k →
    backwardInner from_ to_ threshold track outer inner edge = some (true, inner', e) →
    e.time ≥ to_ ∧ (e.time < from_ ∨ from_ ≥ outer) := by
  induction k with
  | zero =>
    intro inner edge inner' e hk h
    rw [backwardInner, if_neg (by omega)] at h
    simp at h
  | succ k ih =>
    intro inner edge inner' e hk h
    have hge : inner ≥ 0 := by omega
    rw [backwardInner, if_pos hge] at h
    simp only at h
    have hbreak : ∀ edge', (match Range.at track.times inner with
        | none => none
        | some t =>
          if t + outer - 1 ≤ to_ then some (false, inner, edge')
          else backwardInner from_ to_ threshold track outer (inner - 1) edge') =
        some (true, inner', e) → e.time ≥ to_ ∧ (e.time < from_ ∨ from_ ≥ outer) := by
      intro edge' h'
      split at h'
      · simp at h'
      · split_ifs at h' with hbrk
        · simp at h'
        · exact ih (inner - 1) edge' inner' e (by omega) h'
    cases hd : DetectEdge (if inner = 0 then (track.times.length : ℤ) - 1 else inner - 1) inner
        false threshold track edge with
    | none => simp [hd] at h
    | some r =>
      obtain ⟨d, e1⟩ := r
      rw [hd] at h
      cases d with
      | false =>
        simp only [Bool.false_eq_true, false_and, if_false] at h
        exact hbreak _ h
      | true =>
        simp only [if_true, true_and] at h
        split_ifs at h with hacc
        · simp only [Option.some.injEq, Prod.mk.injEq, true_and] at h
          obtain ⟨-, he⟩ := h
          subst he
          exact hacc
        · exact hbreak _ h

/-- The generator of a query with `from_ = to_` is at the end position from the start. -/
theorem Iterator.begin_of_eq {track : FloatTrack} (hs : track.Sized)
    (from_ threshold : ℚ) (edge0 : Edge) :
    ∃ e, Iterator.begin from_ from_ threshold track edge0 = some ⟨from_, 0, e⟩ := by
  have hlt : ((⌊from_⌋ : ℤ) : ℚ) + 1 > from_ := Int.lt_floor_add_one from_
  simp only [Iterator.begin, gt_iff_lt, lt_irrefl, if_false, Iterator.next]
  rw [backwardOuter, if_pos hlt]
  obtain ⟨r, hr⟩ := backwardInner_total hs from_ from_ threshold ((⌊from_⌋ : ℤ) + 1) _
    ((track.times.length : ℤ) - 1) edge0 rfl (by omega)
  obtain ⟨b, i, e⟩ := r
  rw [hr]
  cases b with
  | true =>
    have h := backwardInner_accept from_ from_ threshold track _ _ _ edge0 i e rfl hr
    rcases h.2 with h2 | h2
    · exact absurd h.1 (not_le.mpr h2)
    · exact absurd h2 (not_le.mpr hlt)
  | false =>
    simp only
    rw [backwardOuter, if_neg (by simpa using Int.floor_le from_)]
    exact ⟨e, rfl⟩

/-! ## Properties of the code with binary32 rounding -/

/-- Values of the rounding: the `float` literals `0.1f`, `0.09f`, `0.7f` and `1.f / 3.f`,
the ties at `2 ^ 24 + 1` and `2 ^ 24 + 3`, a value that is a `float`, a negative value, and
two ties between subnormal values. -/
theorem binary32.round_values :
    binary32.round (1 / 10) = 13421773 / 134217728 ∧
      binary32.round (9 / 100) = 3019899 / 33554432 ∧
      binary32.round (7 / 10) = 11744051 / 16777216 ∧
      binary32.round (1 / 3) = 11184811 / 33554432 ∧
      binary32.round 16777217 = 16777216 ∧
      binary32.round 16777219 = 16777220 ∧
      binary32.round (11744051 / 16777216) = 11744051 / 16777216 ∧
      binary32.round (-7 / 10) = -11744051 / 16777216 ∧
      binary32.round (binary32.pow2 (-150)) = 0 ∧
      binary32.round (3 * binary32.pow2 (-150)) = binary32.pow2 (-148) := by
  refine ⟨?_, ?_, ?_, ?_, ?_, ?_, ?_, ?_, ?_, ?_⟩ <;> decide!

/-- The result of `binary32.DetectEdge` once the two values are read. -/
theorem binary32.DetectEdge_rounded (track : FloatTrack) (i0 i1 : ℤ) (forward : Bool)
    (threshold : ℚ) (edge : Edge) (v0 v1 : ℚ)
    (hv0 : Range.at track.values i0 = some v0) (hv1 : Range.at track.values i1 = some v1) :
    binary32.DetectEdge i0 i1 forward threshold track edge =
      if (v0 ≤ threshold ∧ v1 > threshold) ∨ (v0 > threshold ∧ v1 ≤ threshold) then
        (Range.at track.steps (i0 / 8)).bind fun byte =>
          if (byte &&& (1 <<< (i0.toNat &&& 7))) != 0 then
            (Range.at track.times i1).bind fun t =>
              some (true, ⟨t, if v0 ≤ threshold then forward else !forward⟩)
          else if i1 = 0 then some (true, ⟨0, if v0 ≤ threshold then forward else !forward⟩)
          else
            (Range.at track.times i0).bind fun tk0 =>
              (Range.at track.times i1).bind fun tk1 =>
                some (true, ⟨binary32.Lerp tk0 tk1
                    (binary32.div (binary32.sub threshold v0) (binary32.sub v1 v0)),
                  if v0 ≤ threshold then forward else !forward⟩)
      else some (false, edge) := by
  unfold binary32.DetectEdge
  rw [hv0, hv1]
  simp only [Option.bind_eq_bind, Option.some_bind]
  by_cases hr : v0 ≤ threshold ∧ v1 > threshold
  · have hne : v0 ≠ v1 := by
      intro h; rw [h] at hr; linarith [hr.1, hr.2]
    rw [if_pos hr, if_pos (Or.inl hr)]
    simp only [if_true, hr.1, hne, if_false]
    cases Range.at track.steps (i0 / 8) with
    | none => rfl
    | some byte =>
      simp only [Option.some_bind]
      split_ifs <;> rfl
  · by_cases hf : v0 > threshold ∧ v1 ≤ threshold
    · have hne : v0 ≠ v1 := by
        intro h; rw [h] at hf; linarith [hf.1, hf.2]
      have hn0 : ¬ v0 ≤ threshold := not_le.mpr hf.1
      rw [if_neg hr, if_pos hf, if_pos (Or.inr hf)]
      simp only [if_true, hn0, hne, if_false]
      cases Range.at track.steps (i0 / 8) with
      | none => rfl
      | some byte =>
        simp only [Option.some_bind]
        split_ifs <;> rfl
    · rw [if_neg hr, if_neg hf, if_neg (not_or.mpr ⟨hr, hf⟩)]
      rfl

/-- An edge yielded by the inner loop of a forward query is not before `from`, whatever the
rounding. -/
theorem binary32.forwardInner_time (from_ to_ threshold : ℚ) (track : FloatTrack) (outer : ℚ)
    (k : ℕ) : ∀ (inner : ℤ) (edge : Edge) (inner' : ℤ) (e : Edge),
    ((track.times.length : ℤ) - inner).toNat = k →
    binary32.forwardInner from_ to_ threshold track outer inner edge = some (true, inner', e) →
    from_ ≤ e.time := by
  induction k with
  | zero =>
    intro inner edge inner' e hk h
    rw [binary32.forwardInner, if_neg (by omega)] at h
    simp at h
  | succ k ih =>
    intro inner edge inner' e hk h
    have hlt : inner < (track.times.length : ℤ) := by omega
    rw [binary32.forwardInner, if_pos hlt] at h
    simp only at h
    cases hd : binary32.DetectEdge (if inner = 0 then (track.times.length : ℤ) - 1
        else inner - 1) inner true threshold track edge with
    | none => simp [hd] at h
    | some r =>
      obtain ⟨d, e1⟩ := r
      rw [hd] at h
      cases d with
      | false => exact ih (inner + 1) _ inner' e (by omega) h
      | true =>
        simp only at h
        split_ifs at h with hacc
        · simp only [Option.some.injEq, Prod.mk.injEq, true_and] at h
          obtain ⟨-, he⟩ := h
          subst he
          exact hacc.1
        · split at h
          · simp at h
          · split_ifs at h with hbrk
            · simp at h
            · exact ih (inner + 1) _ inner' e (by omega) h

/-- An edge yielded by the inner loop of a backward query is not before `to`, whatever the
rounding. -/
theorem binary32.backwardInner_time (from_ to_ threshold : ℚ) (track : FloatTrack)
    (outer : ℚ) (k : ℕ) : ∀ (inner : ℤ) (edge : Edge) (inner' : ℤ) (e : Edge),
    (inner + 1).toNat = k →
    binary32.backwardInner from_ to_ threshold track outer inner edge =
      some (true, inner', e) →
    to_ ≤ e.time := by
  induction k with
  | zero =>
    intro inner edge inner' e hk h
    rw [binary32.backwardInner, if_neg (by omega)] at h
    simp at h
  | succ k ih =>
    intro inner edge inner' e hk h
    have hge : inner ≥ 0 := by omega
    rw [binary32.backwardInner, if_pos hge] at h
    simp only at h
    have hbreak : ∀ edge', (match Range.at track.times inner with
        | none => none
        | some t =>
          if binary32.sub (binary32.add t outer) 1 ≤ to_ then some (false, inner, edge')
          else binary32.backwardInner from_ to_ threshold track outer (inner - 1) edge') =
        some (true, inner', e) → to_ ≤ e.time := by
      intro edge' h'
      split at h'
      · simp at h'
      · split_ifs at h' with hbrk
        · simp at h'
        · exact ih (inner - 1) edge' inner' e (by omega) h'
    cases hd : binary32.DetectEdge (if inner = 0 then (track.times.length : ℤ) - 1
        else inner - 1) inner false threshold track edge with
    | none => simp [hd] at h
    | some r =>
      obtain ⟨d, e1⟩ := r
      rw [hd] at h
      cases d with
      | false =>
        simp only [Bool.false_eq_true, false_and, if_false] at h
        exact hbreak _ h
      | true =>
        simp only [if_true, true_and] at h
        split_ifs at h with hacc
        · simp only [Option.some.injEq, Prod.mk.injEq, true_and] at h
          obtain ⟨-, he⟩ := h
          subst he
          exact hacc.1
        · exact hbreak _ h

/-- The outer loop of a forward query leaves the end position or an edge that is not before
`from`. -/
theorem binary32.forwardOuter_time (from_ to_ threshold : ℚ) (track : FloatTrack)
    (fuel : ℕ) : ∀ (outer : ℚ) (inner : ℤ) (edge : Edge) (it : Iterator),
    binary32.forwardOuter from_ to_ threshold track fuel outer inner edge = some it →
    Iterator.neEnd to_ it = true → from_ ≤ it.edge_.time := by
  induction fuel with
  | zero =>
    intro outer inner edge it h
    simp [binary32.forwardOuter] at h
  | succ fuel ih =>
    intro outer inner edge it h hne
    rw [binary32.forwardOuter] at h
    split_ifs at h with hlt
    · cases hfi : binary32.forwardInner from_ to_ threshold track outer inner edge with
      | none => simp [hfi] at h
      | some r =>
        obtain ⟨b, inner', e⟩ := r
        rw [hfi] at h
        cases b with
        | true =>
          simp only [Option.some.injEq] at h
          subst h
          exact binary32.forwardInner_time from_ to_ threshold track outer _ inner edge inner'
            e rfl hfi
        | false => exact ih _ _ _ it h hne
    · simp only [Option.some.injEq] at h
      subst h
      rw [Iterator.neEnd_end] at hne
      exact absurd hne (by simp)

/-- The outer loop of a backward query leaves the end position or an edge that is not
before `to`. -/
theorem binary32.backwardOuter_time (from_ to_ threshold : ℚ) (track : FloatTrack)
    (fuel : ℕ) : ∀ (outer : ℚ) (inner : ℤ) (edge : Edge) (it : Iterator),
    binary32.backwardOuter from_ to_ threshold track fuel outer inner edge = some it →
    Iterator.neEnd to_ it = true → to_ ≤ it.edge_.time := by
  induction fuel with
  | zero =>
    intro outer inner edge it h
    simp [binary32.backwardOuter] at h
  | succ fuel ih =>
    intro outer inner edge it h hne
    rw [binary32.backwardOuter] at h
    split_ifs at h with hlt
    · cases hfi : binary32.backwardInner from_ to_ threshold track outer inner edge with
      | none => simp [hfi] at h
      | some r =>
        obtain ⟨b, inner', e⟩ := r
        rw [hfi] at h
        cases b with
        | true =>
          simp only [Option.some.injEq] at h
          subst h
          exact binary32.backwardInner_time from_ to_ threshold track outer _ inner edge inner'
            e rfl hfi
        | false => exact ih _ _ _ it h hne
    · simp only [Option.some.injEq] at h
      subst h
      rw [Iterator.neEnd_end] at hne
      exact absurd hne (by simp)

/-- The edge of a position that `operator++` leaves before the end is not before the near
end of the query, whatever the rounding. -/
theorem binary32.next_time (fuel : ℕ) (from_ to_ threshold : ℚ) (track : FloatTrack)
    (it it' : Iterator) (h : binary32.next fuel from_ to_ threshold track it = some it')
    (hne : Iterator.neEnd to_ it' = true) : min from_ to_ ≤ it'.edge_.time := by
  unfold binary32.next at h
  split_ifs at h with hdir
  · rw [min_eq_left (le_of_lt hdir)]
    exact binary32.forwardOuter_time from_ to_ threshold track fuel _ _ _ it' h hne
  · rw [min_eq_right (not_lt.mp hdir)]
    exact binary32.backwardOuter_time from_ to_ threshold track fuel _ _ _ it' h hne

theorem binary32.begin_time (fuel : ℕ) (from_ to_ threshold : ℚ) (track : FloatTrack)
    (edge0 : Edge) (it : Iterator)
    (h : binary32.begin fuel from_ to_ threshold track edge0 = some it)
    (hne : Iterator.neEnd to_ it = true) : min from_ to_ ≤ it.edge_.time := by
  unfold binary32.begin at h
  simp only at h
  split_ifs at h with hdir
  · exact binary32.next_time fuel from_ to_ threshold track _ it h hne
  · exact binary32.next_time fuel from_ to_ threshold track _ it h hne

/-- The edges that the loop of `Run` writes are the edges of the positions before the end:
none is before the near end of the query, whatever the rounding. -/
theorem binary32.RunLoop_time (fuel : ℕ) (from_ to_ threshold : ℚ) (track : FloatTrack)
    (k : ℕ) : ∀ (it : Iterator) (mem : List Edge) (pos : ℕ) (out : List Edge),
    mem.length - pos = k → pos ≤ mem.length →
    (Iterator.neEnd to_ it = true → min from_ to_ ≤ it.edge_.time) →
    (∀ e ∈ mem.take pos, min from_ to_ ≤ e.time) →
    binary32.RunLoop fuel from_ to_ threshold track it mem pos = some (true, out) →
    ∀ e ∈ out, min from_ to_ ≤ e.time := by
  induction k with
  | zero =>
    intro it mem pos out hk hpos hit hmem h
    rw [binary32.RunLoop] at h
    split_ifs at h with hne hlt
    · omega
    · simp at h
    · simp only [Option.some.injEq, Prod.mk.injEq, true_and] at h
      rw [← h]
      exact hmem
  | succ k ih =>
    intro it mem pos out hk hpos hit hmem h
    rw [binary32.RunLoop] at h
    split_ifs at h with hne hlt
    · cases hn : binary32.next fuel from_ to_ threshold track it with
      | none => simp [hn] at h
      | some it' =>
        rw [hn] at h
        simp only at h
        refine ih it' (mem.set pos it.edge_) (pos + 1) out ?_ ?_ ?_ ?_ h
        · simp only [List.length_set]; omega
        · simp only [List.length_set]; omega
        · exact binary32.next_time fuel from_ to_ threshold track it it' hn
        · rw [take_succ_set it.edge_ mem pos hlt]
          intro e he
          rcases List.mem_append.mp he with he | he
          · exact hmem e he
          · rw [List.mem_singleton] at he
            rw [he]
            exact hit hne
    · simp at h
    · simp only [Option.some.injEq, Prod.mk.injEq, true_and] at h
      rw [← h]
      exact hmem

/-- No edge that `Run` outputs is before the near end of the query, whatever the
rounding. -/
theorem binary32.Run_time (fuel : ℕ) (from_ to_ threshold : ℚ) (track : FloatTrack)
    (mem : List Edge) (edge0 : Edge) (out : List Edge)
    (h : binary32.Run fuel ⟨from_, to_, threshold, some track, some mem⟩ edge0 =
      some (true, some out)) :
    ∀ e ∈ out, min from_ to_ ≤ e.time := by
  simp only [binary32.Run, Validate, Option.isSome_some, Bool.and_self, Bool.not_true,
    Bool.false_eq_true, if_false] at h
  split_ifs at h with heq
  · simp only [Option.some.injEq, Prod.mk.injEq, true_and] at h
    rw [← h]
    simp
  · cases hb : binary32.begin fuel from_ to_ threshold track edge0 with
    | none => simp [hb] at h
    | some it =>
      rw [hb] at h
      simp only at h
      cases hl : binary32.RunLoop fuel from_ to_ threshold track it mem 0 with
      | none => simp [hl] at h
      | some r =>
        obtain ⟨r1, r2⟩ := r
        rw [hl] at h
        simp only [Option.some.injEq, Prod.mk.injEq] at h
        obtain ⟨h1, h2⟩ := h
        subst h1 h2
        exact binary32.RunLoop_time fuel from_ to_ threshold track _ it mem 0 r2 rfl
          (Nat.zero_le _) (binary32.begin_time fuel from_ to_ threshold track edge0 it hb)
          (by simp) hl

/-! ## The rounding to binary32 -/

theorem binary32.log2_eq_log : ∀ (fuel n : ℕ), n ≤ fuel → binary32.log2 fuel n = Nat.log 2 n := by
  intro fuel
  induction fuel with
  | zero =>
    intro n hn
    have : n = 0 := by omega
    subst this
    simp [binary32.log2]
  | succ fuel ih =>
    intro n hn
    rw [binary32.log2]
    split_ifs with h2
    · rw [ih (n / 2) (by omega), Nat.log_of_one_lt_of_le (by norm_num) h2]
    · rw [Nat.log_of_lt (by omega)]

theorem binary32.pow2_eq_zpow (e : ℤ) : binary32.pow2 e = (2 : ℚ) ^ e := by
  unfold binary32.pow2
  split_ifs with h
  · obtain ⟨n, rfl⟩ := Int.eq_ofNat_of_zero_le h
    simp
  · obtain ⟨n, hn⟩ := Int.eq_ofNat_of_zero_le (show 0 ≤ -e by omega)
    have he : e = -(n : ℤ) := by omega
    subst he
    simp

theorem binary32.pow2_pos (e : ℤ) : 0 < binary32.pow2 e := by
  rw [binary32.pow2_eq_zpow]
  positivity

theorem binary32.ulp_pos (x : ℚ) : 0 < binary32.ulp x := binary32.pow2_pos _

/-- The exponent of `x ≠ 0` is the exponent of a power of two that is at most `|x|`. -/
theorem binary32.pow2_exponent_le (x : ℚ) (hx : x ≠ 0) :
    binary32.pow2 (binary32.exponent x) ≤ |x| := by
  have hp : 1 ≤ x.num.natAbs := Nat.one_le_iff_ne_zero.mpr (by simpa using hx)
  have hq : 1 ≤ x.den := x.den_pos
  have habs : |x| = (x.num.natAbs : ℚ) / (x.den : ℚ) := by
    rw [Rat.abs_def, Rat.divInt_eq_div, Nat.cast_natAbs, Int.cast_abs, Nat.cast_natAbs,
      Int.cast_abs]
    simp
  have hqpos : (0 : ℚ) < x.den := by exact_mod_cast hq
  unfold binary32.exponent
  simp only
  split_ifs with h
  · rw [habs, le_div_iff₀ hqpos]
    exact h
  · rw [binary32.log2_eq_log _ _ (le_refl _), binary32.log2_eq_log _ _ (le_refl _),
      binary32.pow2_eq_zpow, habs, le_div_iff₀ hqpos]
    have h1 : (2 : ℚ) ^ (Nat.log 2 x.num.natAbs) ≤ x.num.natAbs := by
      exact_mod_cast Nat.pow_log_le_self 2 (by omega)
    have h2 : (x.den : ℚ) < (2 : ℚ) ^ (Nat.log 2 x.den + 1) := by
      exact_mod_cast Nat.lt_pow_succ_log_self (by norm_num) x.den
    have h3 : (2 : ℚ) ^ ((Nat.log 2 x.num.natAbs : ℤ) - (Nat.log 2 x.den : ℤ) - 1) =
        (2 : ℚ) ^ (Nat.log 2 x.num.natAbs) / (2 : ℚ) ^ (Nat.log 2 x.den + 1) := by
      rw [show ((Nat.log 2 x.num.natAbs : ℤ) - (Nat.log 2 x.den : ℤ) - 1) =
        (Nat.log 2 x.num.natAbs : ℤ) - ((Nat.log 2 x.den + 1 : ℕ) : ℤ) by push_cast; ring,
        zpow_sub₀ (by norm_num), zpow_natCast, zpow_natCast]
    rw [h3, div_mul_eq_mul_div, div_le_iff₀ (by positivity)]
    calc (2 : ℚ) ^ (Nat.log 2 x.num.natAbs) * x.den
        ≤ x.num.natAbs * x.den := by gcongr
      _ ≤ x.num.natAbs * (2 : ℚ) ^ (Nat.log 2 x.den + 1) := by
          apply mul_le_mul_of_nonneg_left h2.le
          exact_mod_cast Nat.zero_le _

/-- The result of the rounding, as a multiple of the distance of the values. -/
theorem binary32.round_eq (x : ℚ) (hx : x ≠ 0) :
    ∃ m : ℤ, binary32.round x = m * binary32.ulp x ∧
      ⌊x / binary32.ulp x⌋ ≤ m ∧ m ≤ ⌊x / binary32.ulp x⌋ + 1 ∧
      (m = ⌊x / binary32.ulp x⌋ + 1 → 1 / 2 ≤ x / binary32.ulp x - ⌊x / binary32.ulp x⌋) := by
  unfold binary32.round
  rw [if_neg hx]
  simp only
  split_ifs with h1 h2 h3
  · exact ⟨_, rfl, le_refl _, by omega, fun h => by omega⟩
  · exact ⟨_, rfl, by omega, le_refl _, fun _ => h2.le⟩
  · exact ⟨_, rfl, le_refl _, by omega, fun h => by omega⟩
  · exact ⟨_, rfl, by omega, le_refl _, fun _ => not_lt.mp h1⟩

theorem binary32.round_nonneg (x : ℚ) (hx : 0 ≤ x) : 0 ≤ binary32.round x := by
  by_cases h0 : x = 0
  · simp [binary32.round, h0]
  · obtain ⟨m, hm, hlo, -, -⟩ := binary32.round_eq x h0
    rw [hm]
    have hu := binary32.ulp_pos x
    have : (0 : ℤ) ≤ ⌊x / binary32.ulp x⌋ := Int.floor_nonneg.mpr (div_nonneg hx hu.le)
    have hm0 : (0 : ℚ) ≤ m := by exact_mod_cast le_trans this hlo
    exact mul_nonneg hm0 hu.le

theorem binary32.round_nonpos (x : ℚ) (hx : x ≤ 0) : binary32.round x ≤ 0 := by
  by_cases h0 : x = 0
  · simp [binary32.round, h0]
  · obtain ⟨m, hm, -, hhi, hup⟩ := binary32.round_eq x h0
    rw [hm]
    have hu := binary32.ulp_pos x
    have hq : x / binary32.ulp x ≤ 0 := div_nonpos_of_nonpos_of_nonneg hx hu.le
    have hfl : ⌊x / binary32.ulp x⌋ ≤ 0 := by
      have := Int.floor_le (x / binary32.ulp x)
      have h1 : ((⌊x / binary32.ulp x⌋ : ℤ) : ℚ) ≤ 0 := le_trans this hq
      exact_mod_cast h1
    have hm0 : m ≤ 0 := by
      by_contra hcon
      have hm1 : m = ⌊x / binary32.ulp x⌋ + 1 := by omega
      have hfl0 : ⌊x / binary32.ulp x⌋ = 0 := by omega
      have := hup hm1
      rw [hfl0] at this
      simp only [Int.cast_zero, sub_zero] at this
      linarith
    have hm0' : (m : ℚ) ≤ 0 := by exact_mod_cast hm0
    exact mul_nonpos_of_nonpos_of_nonneg hm0' hu.le

/-- A value on the grid of `x` is rounded to itself. -/
theorem binary32.round_of_grid (x : ℚ) (z : ℤ) (hz : x = z * binary32.ulp x) :
    binary32.round x = x := by
  by_cases h0 : x = 0
  · simp [binary32.round, h0]
  · have hu := binary32.ulp_pos x
    have hq : x / binary32.ulp x = z := by
      rw [eq_comm, eq_div_iff hu.ne']
      exact hz.symm
    unfold binary32.round
    rw [if_neg h0]
    simp only [hq, Int.floor_intCast, sub_self]
    rw [if_pos (by norm_num)]
    exact hz.symm

theorem binary32.ulp_eq_zpow (x : ℚ) :
    binary32.ulp x = (2 : ℚ) ^ (max (binary32.exponent x) (-126) - 23) := by
  unfold binary32.ulp
  exact binary32.pow2_eq_zpow _

/-- A value of magnitude less than `2 ^ 24` has an exponent of 23 at most. -/
theorem binary32.exponent_le (x : ℚ) (hx : x ≠ 0) (e : ℤ) (h : |x| < (2 : ℚ) ^ e) :
    binary32.exponent x < e := by
  have h1 := binary32.pow2_exponent_le x hx
  rw [binary32.pow2_eq_zpow] at h1
  have h2 : (2 : ℚ) ^ binary32.exponent x < (2 : ℚ) ^ e := lt_of_le_of_lt h1 h
  exact (zpow_lt_zpow_iff_right₀ (by norm_num : (1 : ℚ) < 2)).mp h2

/-- An integer is on the grid of every value whose exponent is 23 at most. -/
theorem binary32.int_on_grid (x : ℚ) (c : ℤ) (h : binary32.exponent x ≤ 23) :
    ∃ z : ℤ, (c : ℚ) = z * binary32.ulp x := by
  rw [binary32.ulp_eq_zpow]
  have hk : max (binary32.exponent x) (-126) - 23 ≤ 0 := by
    have : max (binary32.exponent x) (-126) ≤ 23 := max_le h (by norm_num)
    omega
  obtain ⟨j, hj⟩ := Int.eq_ofNat_of_zero_le (show 0 ≤ -(max (binary32.exponent x) (-126) - 23)
    by omega)
  have hkj : max (binary32.exponent x) (-126) - 23 = -(j : ℤ) := by omega
  refine ⟨c * 2 ^ j, ?_⟩
  rw [hkj, zpow_neg, zpow_natCast]
  push_cast
  field_simp

/-- The integers up to `2 ^ 24` in magnitude are `float` values: the sums `outer_ + 1.f`
and the differences `outer_ - 1.f` are exact on them. -/
theorem binary32.round_int (n : ℤ) (h : |n| ≤ 16777216) : binary32.round (n : ℚ) = n := by
  by_cases h0 : (n : ℚ) = 0
  · simp [binary32.round, h0]
  · have habs : |(n : ℚ)| ≤ (2 : ℚ) ^ (24 : ℤ) := by
      have : ((|n| : ℤ) : ℚ) ≤ 16777216 := by exact_mod_cast h
      rw [Int.cast_abs] at this
      norm_num
      exact this
    by_cases hlt : |(n : ℚ)| < (2 : ℚ) ^ (24 : ℤ)
    · have he := binary32.exponent_le _ h0 24 hlt
      obtain ⟨z, hz⟩ := binary32.int_on_grid (n : ℚ) n (by omega)
      exact binary32.round_of_grid _ z hz
    · have heq : |(n : ℚ)| = (2 : ℚ) ^ (24 : ℤ) := le_antisymm habs (not_lt.mp hlt)
      have hn : n = 16777216 ∨ n = -16777216 := by
        have h1 : ((|n| : ℤ) : ℚ) = 16777216 := by
          rw [Int.cast_abs, heq]; norm_num
        have h2 : |n| = 16777216 := by exact_mod_cast h1
        rcases abs_cases n with ⟨h3, -⟩ | ⟨h3, -⟩ <;> omega
      rcases hn with hn | hn <;> subst hn <;> decide!

/-- A value that is at least the integer `c` is rounded to a value that is at least `c`,
for `c` of magnitude less than `2 ^ 24`. -/
theorem binary32.round_ge_int (c : ℤ) (hc1 : -16777216 < c) (hc2 : c < 16777216) (x : ℚ)
    (hx : (c : ℚ) ≤ x) : (c : ℚ) ≤ binary32.round x := by
  by_cases h0 : x = 0
  · rw [h0] at hx
    simp [binary32.round, h0, hx]
  · obtain ⟨m, hm, hlo, -, -⟩ := binary32.round_eq x h0
    have hu := binary32.ulp_pos x
    by_cases he : binary32.exponent x ≤ 23
    · obtain ⟨z, hz⟩ := binary32.int_on_grid x c he
      have hzq : (z : ℚ) ≤ x / binary32.ulp x := by
        rw [le_div_iff₀ hu, ← hz]
        exact hx
      have hzm : z ≤ m := le_trans (Int.le_floor.mpr hzq) hlo
      rw [hm, hz]
      have : (z : ℚ) ≤ m := by exact_mod_cast hzm
      exact mul_le_mul_of_nonneg_right this hu.le
    · have he' : 24 ≤ binary32.exponent x := by omega
      have h1 := binary32.pow2_exponent_le x h0
      rw [binary32.pow2_eq_zpow] at h1
      have h24 : (2 : ℚ) ^ (24 : ℤ) ≤ (2 : ℚ) ^ binary32.exponent x :=
        (zpow_le_zpow_iff_right₀ (by norm_num : (1 : ℚ) < 2)).mpr he'
      have hbig : (16777216 : ℚ) ≤ |x| := by
        have := le_trans h24 h1
        norm_num at this
        exact this
      have hc2' : (c : ℚ) < 16777216 := by exact_mod_cast hc2
      have hc1' : (-16777216 : ℚ) < c := by exact_mod_cast hc1
      have hxpos : 0 < x := by
        by_contra hneg
        have hxle : x ≤ 0 := not_lt.mp hneg
        rw [abs_of_nonpos hxle] at hbig
        linarith
      rw [abs_of_pos hxpos] at h1
      have hmax : max (binary32.exponent x) (-126) = binary32.exponent x := max_eq_left (by omega)
      have hue : binary32.ulp x = (2 : ℚ) ^ (binary32.exponent x - 23) := by
        rw [binary32.ulp_eq_zpow, hmax]
      have hq : ((8388608 : ℤ) : ℚ) ≤ x / binary32.ulp x := by
        rw [le_div_iff₀ hu, hue]
        have : ((8388608 : ℤ) : ℚ) * (2 : ℚ) ^ (binary32.exponent x - 23) =
            (2 : ℚ) ^ binary32.exponent x := by
          rw [zpow_sub₀ (by norm_num)]
          norm_num
          field_simp
        rw [this]
        exact h1
      have hm8 : (8388608 : ℤ) ≤ m := le_trans (Int.le_floor.mpr hq) hlo
      have hm8' : (8388608 : ℚ) ≤ m := by exact_mod_cast hm8
      rw [hm, hue]
      have hpow : (2 : ℚ) ≤ (2 : ℚ) ^ (binary32.exponent x - 23) := by
        have : (2 : ℚ) ^ (1 : ℤ) ≤ (2 : ℚ) ^ (binary32.exponent x - 23) :=
          (zpow_le_zpow_iff_right₀ (by norm_num : (1 : ℚ) < 2)).mpr (by omega)
        simpa using this
      nlinarith

/-! ## The generator with binary32 rounding, on the cycles below `2 ^ 24` -/

/-- A result of `binary32.DetectEdge` comes with the two values that it has read. -/
theorem binary32.DetectEdge_reads {track : FloatTrack} {i0 i1 : ℤ} {forward : Bool}
    {threshold : ℚ} {edge : Edge} {r : Bool × Edge}
    (h : binary32.DetectEdge i0 i1 forward threshold track edge = some r) :
    ∃ v0 v1, Range.at track.values i0 = some v0 ∧ Range.at track.values i1 = some v1 := by
  cases hv0 : Range.at track.values i0 with
  | none => simp [binary32.DetectEdge, hv0] at h
  | some v0 =>
    cases hv1 : Range.at track.values i1 with
    | none => simp [binary32.DetectEdge, hv0, hv1] at h
    | some v1 => exact ⟨v0, v1, rfl, rfl⟩

/-- With binary32 rounding too, `DetectEdge` returns on every pair of keyframe indices
within bounds. -/
theorem binary32.DetectEdge_returns {track : FloatTrack} (hs : track.Sized) (i0 i1 : ℤ)
    (h0 : 0 ≤ i0) (h0' : i0 < track.times.length) (h1 : 0 ≤ i1)
    (h1' : i1 < track.times.length) (forward : Bool) (threshold : ℚ) (edge : Edge) :
    ∃ r, binary32.DetectEdge i0 i1 forward threshold track edge = some r := by
  obtain ⟨hv, hst⟩ := hs
  obtain ⟨v0, hv0⟩ := Range.at_of_lt track.values i0 h0 (by omega)
  obtain ⟨v1, hv1⟩ := Range.at_of_lt track.values i1 h1 (by omega)
  obtain ⟨byte, hb⟩ := Range.at_of_lt track.steps (i0 / 8) (by omega) (by omega)
  obtain ⟨t0, ht0⟩ := Range.at_of_lt track.times i0 h0 h0'
  obtain ⟨t1, ht1⟩ := Range.at_of_lt track.times i1 h1 h1'
  rw [binary32.DetectEdge_rounded track i0 i1 forward threshold edge v0 v1 hv0 hv1, hb, ht0,
    ht1]
  simp only [Option.some_bind]
  by_cases hc : (v0 ≤ threshold ∧ v1 > threshold) ∨ (v0 > threshold ∧ v1 ≤ threshold)
  · rw [if_pos hc]
    by_cases hstep : ((byte &&& (1 <<< (i0.toNat &&& 7))) != 0) = true
    · rw [if_pos hstep]; exact ⟨_, rfl⟩
    · rw [if_neg hstep]
      by_cases hi : i1 = 0
      · rw [if_pos hi]; exact ⟨_, rfl⟩
      · rw [if_neg hi]; exact ⟨_, rfl⟩
  · rw [if_neg hc]; exact ⟨_, rfl⟩

/-- The rounded quotient `alpha` of a crossing is not negative. -/
theorem binary32.alpha_nonneg {v0 v1 threshold : ℚ}
    (hc : (v0 ≤ threshold ∧ v1 > threshold) ∨ (v0 > threshold ∧ v1 ≤ threshold)) :
    0 ≤ binary32.div (binary32.sub threshold v0) (binary32.sub v1 v0) := by
  unfold binary32.div binary32.sub
  apply binary32.round_nonneg
  rcases hc with ⟨h0, h1⟩ | ⟨h0, h1⟩
  · exact div_nonneg (binary32.round_nonneg _ (by linarith))
      (binary32.round_nonneg _ (by linarith))
  · exact div_nonneg_of_nonpos (binary32.round_nonpos _ (by linarith))
      (binary32.round_nonpos _ (by linarith))

/-- On a well-formed curve the local time of a crossing that `binary32.DetectEdge` reports
on the pair before the keyframe `i1` is not negative. -/
theorem binary32.DetectEdge_time_nonneg {track : FloatTrack} (hw : track.WellFormed)
    (i1 : ℤ) (forward : Bool) (threshold : ℚ) (edge e : Edge)
    (h : binary32.DetectEdge (if i1 = 0 then (track.times.length : ℤ) - 1 else i1 - 1) i1
      forward threshold track edge = some (true, e)) :
    0 ≤ e.time := by
  obtain ⟨v0, v1, hv0, hv1⟩ := binary32.DetectEdge_reads h
  have hb1 := Range.at_lt hv1
  rw [hw.2.1] at hb1
  obtain ⟨n, hn⟩ := Int.eq_ofNat_of_zero_le hb1.1
  subst hn
  have hnlt : n < track.times.length := by exact_mod_cast hb1.2
  generalize hi0 : (if (n : ℤ) = 0 then (track.times.length : ℤ) - 1 else (n : ℤ) - 1) = i0
    at h hv0
  rw [binary32.DetectEdge_rounded track _ _ forward threshold edge v0 v1 hv0 hv1] at h
  by_cases hc : (v0 ≤ threshold ∧ v1 > threshold) ∨ (v0 > threshold ∧ v1 ≤ threshold)
  · rw [if_pos hc] at h
    cases hb : Range.at track.steps (i0 / 8) with
    | none =>
      rw [hb] at h
      simp at h
    | some byte =>
      rw [hb, Option.some_bind, Range.at_eq_getD track.times n hnlt, Option.some_bind] at h
      by_cases hstep : ((byte &&& (1 <<< (i0.toNat &&& 7))) != 0) = true
      · rw [if_pos hstep] at h
        simp only [Option.some.injEq, Prod.mk.injEq, true_and] at h
        rw [← h]
        exact hw.times_nonneg hnlt
      · rw [if_neg hstep] at h
        by_cases hi : (n : ℤ) = 0
        · rw [if_pos hi] at h
          simp only [Option.some.injEq, Prod.mk.injEq, true_and] at h
          rw [← h]
        · rw [if_neg hi] at h hi0
          have hn1 : 1 ≤ n := by omega
          have hcast : i0 = ((n - 1 : ℕ) : ℤ) := by omega
          rw [hcast, Range.at_eq_getD track.times (n - 1) (by omega)] at h
          simp only [Option.some_bind, Option.some.injEq, Prod.mk.injEq, true_and] at h
          rw [← h]
          have ht0 : 0 ≤ track.times.getD (n - 1) 0 := hw.times_nonneg (by omega)
          have hle : track.times.getD (n - 1) 0 ≤ track.times.getD n 0 :=
            hw.times_le (by omega) hnlt
          unfold binary32.Lerp binary32.add binary32.mul binary32.sub
          apply binary32.round_nonneg
          apply add_nonneg _ ht0
          apply binary32.round_nonneg
          apply mul_nonneg
          · exact binary32.round_nonneg _ (by linarith)
          · exact binary32.alpha_nonneg hc
  · rw [if_neg hc] at h
    simp at h

/-- With binary32 rounding too, the inner loop of the forward branch returns from every
cursor `0 ≤ inner ≤ N`, and a yield leaves the cursor further, `N` at most. -/
theorem binary32.forwardInner_step {track : FloatTrack} (hs : track.Sized)
    (from_ to_ threshold : ℚ) (outer : ℚ) (k : ℕ) : ∀ (inner : ℤ) (edge : Edge),
    ((track.times.length : ℤ) - inner).toNat = k → 0 ≤ inner →
    inner ≤ track.times.length →
    ∃ b inner' e, binary32.forwardInner from_ to_ threshold track outer inner edge =
        some (b, inner', e) ∧
      (b = true → inner < inner' ∧ inner' ≤ track.times.length) := by
  induction k with
  | zero =>
    intro inner edge hk _ _
    rw [binary32.forwardInner, if_neg (by omega)]
    exact ⟨false, inner, edge, rfl, fun h => by simp at h⟩
  | succ k ih =>
    intro inner edge hk h0 hN
    have hlt : inner < (track.times.length : ℤ) := by omega
    rw [binary32.forwardInner, if_pos hlt]
    simp only
    obtain ⟨r, hr⟩ := binary32.DetectEdge_returns hs (if inner = 0 then
      (track.times.length : ℤ) - 1 else inner - 1) inner (by split_ifs <;> omega)
      (by split_ifs <;> omega) h0 hlt true threshold edge
    obtain ⟨t, ht⟩ := Range.at_of_lt track.times inner h0 hlt
    have hrec : ∀ edge', ∃ b inner' e,
        binary32.forwardInner from_ to_ threshold track outer (inner + 1) edge' =
          some (b, inner', e) ∧
        (b = true → inner < inner' ∧ inner' ≤ track.times.length) := by
      intro edge'
      obtain ⟨b, inner', e, h1, h2⟩ := ih (inner + 1) edge' (by omega) (by omega) (by omega)
      exact ⟨b, inner', e, h1, fun hb => ⟨by have := (h2 hb).1; omega, (h2 hb).2⟩⟩
    rw [hr]
    obtain ⟨d, e⟩ := r
    cases d with
    | false => exact hrec e
    | true =>
      simp only [ht]
      split_ifs
      · exact ⟨true, inner + 1, _, rfl, fun _ => ⟨by omega, by omega⟩⟩
      · exact ⟨false, inner, _, rfl, fun h => by simp at h⟩
      · exact hrec _

/-- With binary32 rounding too, the inner loop of the backward branch returns from every
cursor `-1 ≤ inner < N`; a yield leaves the cursor before, `-1` at least, and its edge is
the edge of a crossing that passed the acceptance test. -/
theorem binary32.backwardInner_step {track : FloatTrack} (hs : track.Sized)
    (from_ to_ threshold : ℚ) (outer : ℚ) (k : ℕ) : ∀ (inner : ℤ) (edge : Edge),
    (inner + 1).toNat = k → -1 ≤ inner → inner < track.times.length →
    ∃ b inner' e, binary32.backwardInner from_ to_ threshold track outer inner edge =
        some (b, inner', e) ∧
      (b = true → -1 ≤ inner' ∧ inner' < inner ∧
        (e.time < from_ ∨ from_ ≥ outer) ∧
        ∃ (i1 : ℤ) (edge1 e1 : Edge),
          binary32.DetectEdge (if i1 = 0 then (track.times.length : ℤ) - 1 else i1 - 1) i1
            false threshold track edge1 = some (true, e1) ∧
          e.time = binary32.add e1.time (binary32.sub outer 1)) := by
  induction k with
  | zero =>
    intro inner edge hk _ _
    rw [binary32.backwardInner, if_neg (by omega)]
    exact ⟨false, inner, edge, rfl, fun h => by simp at h⟩
  | succ k ih =>
    intro inner edge hk hm1 hlt
    have h0 : inner ≥ 0 := by omega
    rw [binary32.backwardInner, if_pos h0]
    simp only
    obtain ⟨r, hr⟩ := binary32.DetectEdge_returns hs (if inner = 0 then
      (track.times.length : ℤ) - 1 else inner - 1) inner (by split_ifs <;> omega)
      (by split_ifs <;> omega) h0 hlt false threshold edge
    obtain ⟨t, ht⟩ := Range.at_of_lt track.times inner h0 hlt
    have hrec : ∀ edge', ∃ b inner' e,
        binary32.backwardInner from_ to_ threshold track outer (inner - 1) edge' =
          some (b, inner', e) ∧
        (b = true → -1 ≤ inner' ∧ inner' < inner ∧
          (e.time < from_ ∨ from_ ≥ outer) ∧
          ∃ (i1 : ℤ) (edge1 e1 : Edge),
            binary32.DetectEdge (if i1 = 0 then (track.times.length : ℤ) - 1 else i1 - 1) i1
              false threshold track edge1 = some (true, e1) ∧
            e.time = binary32.add e1.time (binary32.sub outer 1)) := by
      intro edge'
      obtain ⟨b, inner', e, h1, h2⟩ := ih (inner - 1) edge' (by omega) (by omega) (by omega)
      exact ⟨b, inner', e, h1, fun hb =>
        ⟨(h2 hb).1, by have := (h2 hb).2.1; omega, (h2 hb).2.2⟩⟩
    rw [hr]
    obtain ⟨d, e⟩ := r
    simp only [ht]
    cases d with
    | false =>
      simp only [Bool.false_eq_true, false_and, if_false]
      split_ifs
      · exact ⟨false, inner, _, rfl, fun h => by simp at h⟩
      · exact hrec _
    | true =>
      simp only [if_true, true_and]
      split_ifs with hacc
      · exact ⟨true, inner - 1, _, rfl, fun _ => ⟨by omega, by omega, hacc.2,
          inner, edge, e, hr, rfl⟩⟩
      · exact ⟨false, inner, _, rfl, fun h => by simp at h⟩
      · exact hrec _

/-- With binary32 rounding, the outer loop of the forward branch on the integer cycles
below `2 ^ 24`, where `outer_ += 1.f` is exact: with enough fuel it returns, at the end
position or at a cursor with fewer edges to come. -/
theorem binary32.forwardOuter_progress {track : FloatTrack} (hs : track.Sized)
    (from_ to_ threshold : ℚ) (hto : to_ < 16777216) (fuel : ℕ) :
    ∀ (c : ℤ) (inner : ℤ) (edge : Edge), -16777216 ≤ c → 0 ≤ inner →
    inner ≤ track.times.length → (⌈to_⌉ - c).toNat < fuel →
    ∃ it, binary32.forwardOuter from_ to_ threshold track fuel (c : ℚ) inner edge = some it ∧
      (it = ⟨to_, 0, it.edge_⟩ ∨
        ∃ c' : ℤ, it.outer_ = (c' : ℚ) ∧ c ≤ c' ∧ (c' : ℚ) < to_ ∧ 0 ≤ it.inner_ ∧
          it.inner_ ≤ track.times.length ∧
          (track.times.length : ℤ) * (⌈to_⌉ - c') - it.inner_ <
            (track.times.length : ℤ) * (⌈to_⌉ - c) - inner) := by
  induction fuel with
  | zero =>
    intro c inner edge _ _ _ hf
    omega
  | succ fuel ih =>
    intro c inner edge hc h0 hN hf
    rw [binary32.forwardOuter]
    by_cases hlt : (c : ℚ) < to_
    · rw [if_pos hlt]
      obtain ⟨b, inner', e, hfi, hy⟩ := binary32.forwardInner_step hs from_ to_ threshold
        (c : ℚ) _ inner edge rfl h0 hN
      rw [hfi]
      cases b with
      | true =>
        have := hy rfl
        exact ⟨_, rfl, Or.inr ⟨c, rfl, le_refl _, hlt, by simp only; omega,
          by simp only; omega, by simp only; omega⟩⟩
      | false =>
        simp only
        have hc2 : c < 16777216 := by
          have : (c : ℚ) < 16777216 := lt_trans hlt hto
          exact_mod_cast this
        have hadd : binary32.add (c : ℚ) 1 = ((c + 1 : ℤ) : ℚ) := by
          unfold binary32.add
          rw [show (c : ℚ) + 1 = ((c + 1 : ℤ) : ℚ) by push_cast; ring]
          exact binary32.round_int (c + 1) (abs_le.mpr ⟨by omega, by omega⟩)
        have hceil : c < ⌈to_⌉ := Int.lt_ceil.mpr hlt
        rw [hadd]
        obtain ⟨it, hit, hcase⟩ := ih (c + 1) 0 e (by omega) (le_refl _) (by omega) (by omega)
        refine ⟨it, hit, ?_⟩
        rcases hcase with hend | ⟨c', h1, h2, h3, h4, h5, h6⟩
        · exact Or.inl hend
        · refine Or.inr ⟨c', h1, by omega, h3, h4, h5, ?_⟩
          have hmul : (track.times.length : ℤ) * (⌈to_⌉ - (c + 1)) =
              (track.times.length : ℤ) * (⌈to_⌉ - c) - track.times.length := by ring
          rw [hmul] at h6
          omega
    · rw [if_neg hlt]
      exact ⟨_, rfl, Or.inl rfl⟩

/-- With binary32 rounding, the outer loop of the backward branch on the integer cycles
up to `2 ^ 24`, where `outer_ -= 1.f` is exact: with enough fuel it returns, at the end
position or at a cursor with fewer edges to come. -/
theorem binary32.backwardOuter_progress {track : FloatTrack} (hs : track.Sized)
    (from_ to_ threshold : ℚ) (hto : -16777216 < to_) (fuel : ℕ) :
    ∀ (c : ℤ) (inner : ℤ) (edge : Edge), c ≤ 16777216 → -1 ≤ inner →
    inner < track.times.length → (c - ⌊to_⌋).toNat < fuel →
    ∃ it, binary32.backwardOuter from_ to_ threshold track fuel (c : ℚ) inner edge = some it ∧
      (it = ⟨to_, 0, it.edge_⟩ ∨
        ∃ c' : ℤ, it.outer_ = (c' : ℚ) ∧ c' ≤ c ∧ (c' : ℚ) > to_ ∧ -1 ≤ it.inner_ ∧
          it.inner_ < track.times.length ∧
          (track.times.length : ℤ) * (c' - ⌊to_⌋ - 1) + it.inner_ <
            (track.times.length : ℤ) * (c - ⌊to_⌋ - 1) + inner) := by
  induction fuel with
  | zero =>
    intro c inner edge _ _ _ hf
    omega
  | succ fuel ih =>
    intro c inner edge hc h0 hN hf
    rw [binary32.backwardOuter]
    by_cases hlt : (c : ℚ) > to_
    · rw [if_pos hlt]
      obtain ⟨b, inner', e, hfi, hy⟩ := binary32.backwardInner_step hs from_ to_ threshold
        (c : ℚ) _ inner edge rfl h0 hN
      rw [hfi]
      cases b with
      | true =>
        have := hy rfl
        exact ⟨_, rfl, Or.inr ⟨c, rfl, le_refl _, hlt, by simp only; omega,
          by simp only; omega, by simp only; omega⟩⟩
      | false =>
        simp only
        have hc2 : -16777216 < c := by
          have : (-16777216 : ℚ) < c := lt_trans hto hlt
          exact_mod_cast this
        have hsub : binary32.sub (c : ℚ) 1 = ((c - 1 : ℤ) : ℚ) := by
          unfold binary32.sub
          rw [show (c : ℚ) - 1 = ((c - 1 : ℤ) : ℚ) by push_cast; ring]
          exact binary32.round_int (c - 1) (abs_le.mpr ⟨by omega, by omega⟩)
        have hfloor : ⌊to_⌋ < c := Int.floor_lt.mpr hlt
        rw [hsub]
        obtain ⟨it, hit, hcase⟩ := ih (c - 1) ((track.times.length : ℤ) - 1) e (by omega)
          (by omega) (by omega) (by omega)
        refine ⟨it, hit, ?_⟩
        rcases hcase with hend | ⟨c', h1, h2, h3, h4, h5, h6⟩
        · exact Or.inl hend
        · refine Or.inr ⟨c', h1, by omega, h3, h4, h5, ?_⟩
          have hmul : (track.times.length : ℤ) * (c - 1 - ⌊to_⌋ - 1) =
              (track.times.length : ℤ) * (c - ⌊to_⌋ - 1) - track.times.length := by ring
          rw [hmul] at h6
          omega
    · rw [if_neg hlt]
      exact ⟨_, rfl, Or.inl rfl⟩

/-- In the cycle of a backward query that starts at the integer `from`, no edge is
accepted, with binary32 rounding too: its time is rounded to a value that is not before
`from`. -/
theorem binary32.backwardInner_first {track : FloatTrack} (hw : track.WellFormed)
    (to_ threshold : ℚ) (f : ℤ) (hf1 : -16777216 < f) (hf2 : f < 16777216)
    (inner : ℤ) (edge : Edge) (h0 : -1 ≤ inner) (hN : inner < track.times.length) :
    ∃ inner' e, binary32.backwardInner (f : ℚ) to_ threshold track ((f + 1 : ℤ) : ℚ) inner
      edge = some (false, inner', e) := by
  have hs : track.Sized := ⟨hw.2.1, hw.2.2.1⟩
  obtain ⟨b, inner', e, hfi, hy⟩ := binary32.backwardInner_step hs (f : ℚ) to_ threshold
    ((f + 1 : ℤ) : ℚ) _ inner edge rfl h0 hN
  cases b with
  | false => exact ⟨inner', e, hfi⟩
  | true =>
    exfalso
    obtain ⟨-, -, hacc, i1, edge1, e1, hd, ht⟩ := hy rfl
    have hsub : binary32.sub ((f + 1 : ℤ) : ℚ) 1 = (f : ℚ) := by
      unfold binary32.sub
      rw [show ((f + 1 : ℤ) : ℚ) - 1 = (f : ℚ) by push_cast; ring]
      exact binary32.round_int f (abs_le.mpr ⟨by omega, by omega⟩)
    have hnn := binary32.DetectEdge_time_nonneg hw i1 false threshold edge1 e1 hd
    have hge : (f : ℚ) ≤ e.time := by
      rw [ht, hsub]
      unfold binary32.add
      exact binary32.round_ge_int f hf1 hf2 _ (by linarith)
    rcases hacc with h | h
    · exact absurd hge (not_le.mpr h)
    · have : (f : ℚ) ≥ (f : ℚ) + 1 := by
        have h' := h
        push_cast at h'
        exact h'
      linarith

/-- The loop of `Run` with binary32 rounding, for a generator whose positions before the
end have a measure that `operator++` decreases: the loop returns `true` after less than
`n` edges from a position of measure less than `n`, when the output has room for them. -/
theorem binary32.RunLoop_bounded (fuel : ℕ) (from_ to_ threshold : ℚ) (track : FloatTrack)
    (I : Iterator → Prop) (μ : Iterator → ℤ)
    (hI : ∀ it, I it → 0 ≤ μ it ∧ Iterator.neEnd to_ it = true ∧
      ∃ it', binary32.next fuel from_ to_ threshold track it = some it' ∧
        (it' = ⟨to_, 0, it'.edge_⟩ ∨ (I it' ∧ μ it' < μ it)))
    (n : ℕ) : ∀ (it : Iterator) (mem : List Edge) (pos : ℕ),
    (it = ⟨to_, 0, it.edge_⟩ ∨ (I it ∧ μ it < n)) → pos + n ≤ mem.length →
    ∃ out, binary32.RunLoop fuel from_ to_ threshold track it mem pos = some (true, out) ∧
      out.length ≤ pos + n := by
  have hend : ∀ (it : Iterator) (mem : List Edge) (pos : ℕ) (k : ℕ),
      it = ⟨to_, 0, it.edge_⟩ → pos + k ≤ mem.length →
      ∃ out, binary32.RunLoop fuel from_ to_ threshold track it mem pos = some (true, out) ∧
        out.length ≤ pos + k := by
    intro it mem pos k hit hpos
    rw [binary32.RunLoop, hit, Iterator.neEnd_end]
    simp only [Bool.false_eq_true, if_false]
    exact ⟨_, rfl, by rw [List.length_take]; omega⟩
  induction n with
  | zero =>
    intro it mem pos hcase hpos
    rcases hcase with hit | ⟨hi, hlt⟩
    · exact hend it mem pos 0 hit hpos
    · have := (hI it hi).1
      omega
  | succ n ih =>
    intro it mem pos hcase hpos
    rcases hcase with hit | ⟨hi, hlt⟩
    · exact hend it mem pos (n + 1) hit hpos
    · obtain ⟨h0, hne, it', hnext, hcase'⟩ := hI it hi
      rw [binary32.RunLoop, if_pos hne, if_pos (by omega), hnext]
      simp only
      have hcase'' : it' = ⟨to_, 0, it'.edge_⟩ ∨ (I it' ∧ μ it' < n) := by
        rcases hcase' with h | ⟨h1, h2⟩
        · exact Or.inl h
        · exact Or.inr ⟨h1, by omega⟩
      obtain ⟨out, hout, hlen⟩ := ih it' (mem.set pos it.edge_) (pos + 1) hcase''
        (by simp only [List.length_set]; omega)
      exact ⟨out, hout, by omega⟩

/-- The end of `Run` once the generator is known to be exhausted within the bound. -/
theorem binary32.Run_of_bounded (fuel : ℕ) (from_ to_ threshold : ℚ) (track : FloatTrack)
    (hne : from_ ≠ to_) (mem : List Edge) (edge0 : Edge) (bound : ℤ) (hb : 0 ≤ bound)
    (hcap : bound ≤ mem.length)
    (I : Iterator → Prop) (μ : Iterator → ℤ)
    (hI : ∀ it, I it → 0 ≤ μ it ∧ Iterator.neEnd to_ it = true ∧
      ∃ it', binary32.next fuel from_ to_ threshold track it = some it' ∧
        (it' = ⟨to_, 0, it'.edge_⟩ ∨ (I it' ∧ μ it' < μ it)))
    (it0 : Iterator) (hbegin : binary32.begin fuel from_ to_ threshold track edge0 = some it0)
    (h0 : it0 = ⟨to_, 0, it0.edge_⟩ ∨ (I it0 ∧ μ it0 < bound)) :
    ∃ out, binary32.Run fuel ⟨from_, to_, threshold, some track, some mem⟩ edge0 =
        some (true, some out) ∧ (out.length : ℤ) ≤ bound := by
  have h0' : it0 = ⟨to_, 0, it0.edge_⟩ ∨ (I it0 ∧ μ it0 < (bound.toNat : ℕ)) := by
    rcases h0 with h | ⟨h1, h2⟩
    · exact Or.inl h
    · exact Or.inr ⟨h1, by omega⟩
  obtain ⟨out, hout, hlen⟩ := binary32.RunLoop_bounded fuel from_ to_ threshold track I μ hI
    bound.toNat it0 mem 0 h0' (by omega)
  refine ⟨out, ?_, by omega⟩
  simp only [binary32.Run, Validate, Option.isSome_some, Bool.and_self, Bool.not_true,
    Bool.false_eq_true, if_false, hne, hbegin, hout]

/-- With binary32 rounding, on a well-formed curve with `N` keyframes and for a query with
`from ≠ to` whose two ends are less than `2 ^ 24` in magnitude, `Run` succeeds, with
enough fuel, on every output that has room for `N * (ceil max - floor min)` edges, and this
number bounds the number of edges of its output. -/
theorem binary32.Run_capacity {track : FloatTrack} (hw : track.WellFormed)
    (from_ to_ threshold : ℚ) (hne : from_ ≠ to_)
    (hf1 : -16777216 < from_) (hf2 : from_ < 16777216)
    (ht1 : -16777216 < to_) (ht2 : to_ < 16777216)
    (fuel : ℕ) (hfuel : (⌈max from_ to_⌉ - ⌊min from_ to_⌋).toNat + 1 < fuel)
    (mem : List Edge)
    (hcap : (track.times.length : ℤ) * (⌈max from_ to_⌉ - ⌊min from_ to_⌋) ≤ mem.length)
    (edge0 : Edge) :
    ∃ out, binary32.Run fuel ⟨from_, to_, threshold, some track, some mem⟩ edge0 =
        some (true, some out) ∧
      (out.length : ℤ) ≤ (track.times.length : ℤ) * (⌈max from_ to_⌉ - ⌊min from_ to_⌋) := by
  have hs : track.Sized := ⟨hw.2.1, hw.2.2.1⟩
  rcases lt_or_gt_of_ne hne with hdir | hdir
  · -- forward
    rw [min_eq_left hdir.le, max_eq_right hdir.le] at hfuel hcap ⊢
    have hfl : (-16777216 : ℤ) ≤ ⌊from_⌋ := Int.le_floor.mpr (by push_cast; linarith)
    have hflc : ⌊from_⌋ < ⌈to_⌉ := Int.lt_ceil.mpr (lt_of_le_of_lt (Int.floor_le from_) hdir)
    have hbound : 0 ≤ (track.times.length : ℤ) * (⌈to_⌉ - ⌊from_⌋) :=
      mul_nonneg (by omega) (by omega)
    obtain ⟨it0, hit0, hcase0⟩ := binary32.forwardOuter_progress hs from_ to_ threshold ht2
      fuel ⌊from_⌋ 0 edge0 hfl (le_refl _) (by omega) (by omega)
    refine binary32.Run_of_bounded fuel from_ to_ threshold track hne mem edge0 _ hbound hcap
      (fun it => ∃ c : ℤ, it.outer_ = (c : ℚ) ∧ ⌊from_⌋ ≤ c ∧ (c : ℚ) < to_ ∧
        0 ≤ it.inner_ ∧ it.inner_ ≤ track.times.length)
      (fun it => (track.times.length : ℤ) * (⌈to_⌉ - ⌊it.outer_⌋) - it.inner_)
      ?_ it0 ?_ ?_
    · rintro it ⟨c, hc, hc1, hc2, hi0, hiN⟩
      have hcc : c < ⌈to_⌉ := Int.lt_ceil.mpr hc2
      refine ⟨?_, ?_, ?_⟩
      · simp only [hc, Int.floor_intCast]
        have : (track.times.length : ℤ) * 1 ≤ (track.times.length : ℤ) * (⌈to_⌉ - c) :=
          mul_le_mul_of_nonneg_left (by omega) (by omega)
        omega
      · simp only [Iterator.neEnd, bne_iff_ne, ne_eq, Bool.or_eq_true]
        right
        rw [hc]
        exact ne_of_lt hc2
      · obtain ⟨it', hit', hcase⟩ := binary32.forwardOuter_progress hs from_ to_ threshold
          ht2 fuel c it.inner_ it.edge_ (by omega) hi0 hiN (by omega)
        refine ⟨it', ?_, ?_⟩
        · simp only [binary32.next, gt_iff_lt, hdir, if_true, hc]
          exact hit'
        · rcases hcase with hend | ⟨c', h1, h2, h3, h4, h5, h6⟩
          · exact Or.inl hend
          · refine Or.inr ⟨⟨c', h1, by omega, h3, h4, h5⟩, ?_⟩
            simp only [h1, hc, Int.floor_intCast]
            exact h6
    · simp only [binary32.begin, gt_iff_lt, hdir, if_true, binary32.next]
      exact hit0
    · rcases hcase0 with hend | ⟨c', h1, h2, h3, h4, h5, h6⟩
      · exact Or.inl hend
      · refine Or.inr ⟨⟨c', h1, h2, h3, h4, h5⟩, ?_⟩
        simp only [h1, Int.floor_intCast]
        omega
  · -- backward
    have hdir' : to_ < from_ := hdir
    rw [min_eq_right hdir'.le, max_eq_left hdir'.le] at hfuel hcap ⊢
    have hflt : (-16777216 : ℤ) ≤ ⌊to_⌋ := Int.le_floor.mpr (by push_cast; linarith)
    have hflf : ⌊from_⌋ < 16777216 := by
      have : ((⌊from_⌋ : ℤ) : ℚ) < 16777216 := lt_of_le_of_lt (Int.floor_le from_) hf2
      exact_mod_cast this
    have hmono : ⌊to_⌋ ≤ ⌊from_⌋ := Int.floor_mono hdir'.le
    have hfc : ⌊from_⌋ ≤ ⌈from_⌉ := Int.floor_le_ceil from_
    have hcf : ⌈from_⌉ ≤ ⌊from_⌋ + 1 := Int.ceil_le_floor_add_one from_
    have hltc : ⌊to_⌋ < ⌈from_⌉ := Int.lt_ceil.mpr (lt_of_le_of_lt (Int.floor_le to_) hdir')
    have hbound : 0 ≤ (track.times.length : ℤ) * (⌈from_⌉ - ⌊to_⌋) :=
      mul_nonneg (by omega) (by omega)
    have hadd : binary32.add ((⌊from_⌋ : ℤ) : ℚ) 1 = ((⌊from_⌋ + 1 : ℤ) : ℚ) := by
      unfold binary32.add
      rw [show ((⌊from_⌋ : ℤ) : ℚ) + 1 = ((⌊from_⌋ + 1 : ℤ) : ℚ) by push_cast; ring]
      exact binary32.round_int _ (abs_le.mpr ⟨by omega, by omega⟩)
    have hnot : ¬ to_ > from_ := not_lt.mpr hdir'.le
    -- the first call of `operator++`
    have hfirst : ∃ it0, binary32.backwardOuter from_ to_ threshold track fuel
        ((⌊from_⌋ + 1 : ℤ) : ℚ) ((track.times.length : ℤ) - 1) edge0 = some it0 ∧
        (it0 = ⟨to_, 0, it0.edge_⟩ ∨
          ∃ c' : ℤ, it0.outer_ = (c' : ℚ) ∧ c' ≤ ⌊from_⌋ + 1 ∧ (c' : ℚ) > to_ ∧
            -1 ≤ it0.inner_ ∧ it0.inner_ < track.times.length ∧
            (track.times.length : ℤ) * (c' - ⌊to_⌋ - 1) + it0.inner_ + 1 <
              (track.times.length : ℤ) * (⌈from_⌉ - ⌊to_⌋)) := by
      by_cases hint : ((⌊from_⌋ : ℤ) : ℚ) = from_
      · -- `from` is an integer: its cycle yields no edge
        have hceil : ⌈from_⌉ = ⌊from_⌋ := by
          rw [← hint]
          simp
        obtain ⟨fuel', hfuel'⟩ : ∃ fuel', fuel = fuel' + 1 := ⟨fuel - 1, by omega⟩
        have hgt : (((⌊from_⌋ + 1 : ℤ) : ℤ) : ℚ) > to_ := by
          push_cast
          rw [hint]
          linarith
        have hfl1 : (-16777216 : ℤ) < ⌊from_⌋ := by
          have : (-16777216 : ℚ) < ((⌊from_⌋ : ℤ) : ℚ) := by rw [hint]; exact hf1
          exact_mod_cast this
        obtain ⟨inner', e, hin⟩ := binary32.backwardInner_first hw to_ threshold ⌊from_⌋
          hfl1 hflf ((track.times.length : ℤ) - 1) edge0 (by omega) (by omega)
        rw [hint] at hin
        have hsub : binary32.sub ((⌊from_⌋ + 1 : ℤ) : ℚ) 1 = ((⌊from_⌋ : ℤ) : ℚ) := by
          unfold binary32.sub
          rw [show ((⌊from_⌋ + 1 : ℤ) : ℚ) - 1 = ((⌊from_⌋ : ℤ) : ℚ) by push_cast; ring]
          exact binary32.round_int _ (abs_le.mpr ⟨by omega, by omega⟩)
        obtain ⟨it0, hit0, hcase0⟩ := binary32.backwardOuter_progress hs from_ to_ threshold
          ht1 fuel' ⌊from_⌋ ((track.times.length : ℤ) - 1) e (by omega) (by omega) (by omega)
          (by omega)
        refine ⟨it0, ?_, ?_⟩
        · rw [hfuel', binary32.backwardOuter, if_pos hgt, hin]
          simp only
          rw [hsub]
          exact hit0
        · rcases hcase0 with hend | ⟨c', h1, h2, h3, h4, h5, h6⟩
          · exact Or.inl hend
          · refine Or.inr ⟨c', h1, by omega, h3, h4, h5, ?_⟩
            have hmul : (track.times.length : ℤ) * (⌊from_⌋ - ⌊to_⌋ - 1) =
                (track.times.length : ℤ) * (⌊from_⌋ - ⌊to_⌋) - track.times.length := by ring
            rw [hceil]
            rw [hmul] at h6
            omega
      · -- `from` is not an integer
        have hlt : ((⌊from_⌋ : ℤ) : ℚ) < from_ :=
          lt_of_le_of_ne (Int.floor_le from_) hint
        have hceil : ⌈from_⌉ = ⌊from_⌋ + 1 := by
          have := Int.lt_ceil.mpr hlt
          omega
        obtain ⟨it0, hit0, hcase0⟩ := binary32.backwardOuter_progress hs from_ to_ threshold
          ht1 fuel (⌊from_⌋ + 1) ((track.times.length : ℤ) - 1) edge0 (by omega) (by omega)
          (by omega) (by omega)
        refine ⟨it0, hit0, ?_⟩
        rcases hcase0 with hend | ⟨c', h1, h2, h3, h4, h5, h6⟩
        · exact Or.inl hend
        · refine Or.inr ⟨c', h1, h2, h3, h4, h5, ?_⟩
          have hmul : (track.times.length : ℤ) * (⌊from_⌋ + 1 - ⌊to_⌋ - 1) =
              (track.times.length : ℤ) * (⌊from_⌋ + 1 - ⌊to_⌋) - track.times.length := by ring
          rw [hceil]
          rw [hmul] at h6
          omega
    obtain ⟨it0, hit0, hcase0⟩ := hfirst
    refine binary32.Run_of_bounded fuel from_ to_ threshold track hne mem edge0 _ hbound hcap
      (fun it => ∃ c : ℤ, it.outer_ = (c : ℚ) ∧ c ≤ ⌊from_⌋ + 1 ∧ (c : ℚ) > to_ ∧
        -1 ≤ it.inner_ ∧ it.inner_ < track.times.length)
      (fun it => (track.times.length : ℤ) * (⌊it.outer_⌋ - ⌊to_⌋ - 1) + it.inner_ + 1)
      ?_ it0 ?_ ?_
    · rintro it ⟨c, hc, hc1, hc2, hi0, hiN⟩
      have hcc : ⌊to_⌋ < c := Int.floor_lt.mpr hc2
      refine ⟨?_, ?_, ?_⟩
      · simp only [hc, Int.floor_intCast]
        have : 0 ≤ (track.times.length : ℤ) * (c - ⌊to_⌋ - 1) :=
          mul_nonneg (by omega) (by omega)
        omega
      · simp only [Iterator.neEnd, bne_iff_ne, ne_eq, Bool.or_eq_true]
        right
        rw [hc]
        exact ne_of_gt hc2
      · obtain ⟨it', hit', hcase⟩ := binary32.backwardOuter_progress hs from_ to_ threshold
          ht1 fuel c it.inner_ it.edge_ (by omega) hi0 hiN (by omega)
        refine ⟨it', ?_, ?_⟩
        · simp only [binary32.next, gt_iff_lt, if_neg (not_lt.mpr hdir'.le), hc]
          exact hit'
        · rcases hcase with hend | ⟨c', h1, h2, h3, h4, h5, h6⟩
          · exact Or.inl hend
          · refine Or.inr ⟨⟨c', h1, by omega, h3, h4, h5⟩, ?_⟩
            simp only [h1, hc, Int.floor_intCast]
            omega
    · simp only [binary32.begin, gt_iff_lt, if_neg (not_lt.mpr hdir'.le), binary32.next, hadd]
      exact hit0
    · rcases hcase0 with hend | ⟨c', h1, h2, h3, h4, h5, h6⟩
      · exact Or.inl hend
      · refine Or.inr ⟨⟨c', h1, h2, h3, h4, h5⟩, ?_⟩
        simp only [h1, Int.floor_intCast]
        exact h6

/-! ## The rounding to binary32 is monotone -/

/-- The magnitude of `x ≠ 0` is less than the power of two of its exponent plus one. -/
theorem binary32.lt_pow2_exponent (x : ℚ) (hx : x ≠ 0) :
    |x| < binary32.pow2 (binary32.exponent x + 1) := by
  have hp : 1 ≤ x.num.natAbs := Nat.one_le_iff_ne_zero.mpr (by simpa using hx)
  have hq : 1 ≤ x.den := x.den_pos
  have habs : |x| = (x.num.natAbs : ℚ) / (x.den : ℚ) := by
    rw [Rat.abs_def, Rat.divInt_eq_div, Nat.cast_natAbs, Int.cast_abs, Nat.cast_natAbs,
      Int.cast_abs]
    simp
  have hqpos : (0 : ℚ) < x.den := by exact_mod_cast hq
  have h1 : (x.num.natAbs : ℚ) < (2 : ℚ) ^ (Nat.log 2 x.num.natAbs + 1) := by
    exact_mod_cast Nat.lt_pow_succ_log_self (by norm_num) x.num.natAbs
  have h2 : (2 : ℚ) ^ (Nat.log 2 x.den) ≤ (x.den : ℚ) := by
    exact_mod_cast Nat.pow_log_le_self 2 (by omega)
  unfold binary32.exponent
  simp only
  split_ifs with h
  · rw [binary32.log2_eq_log _ _ (le_refl _), binary32.log2_eq_log _ _ (le_refl _),
      binary32.pow2_eq_zpow, habs, div_lt_iff₀ hqpos]
    have h3 : (2 : ℚ) ^ ((Nat.log 2 x.num.natAbs : ℤ) - (Nat.log 2 x.den : ℤ) + 1) =
        (2 : ℚ) ^ (Nat.log 2 x.num.natAbs + 1) / (2 : ℚ) ^ (Nat.log 2 x.den) := by
      rw [show ((Nat.log 2 x.num.natAbs : ℤ) - (Nat.log 2 x.den : ℤ) + 1) =
        ((Nat.log 2 x.num.natAbs + 1 : ℕ) : ℤ) - ((Nat.log 2 x.den : ℕ) : ℤ) by push_cast; ring,
        zpow_sub₀ (by norm_num), zpow_natCast, zpow_natCast]
    rw [h3, div_mul_eq_mul_div, lt_div_iff₀ (by positivity)]
    calc (x.num.natAbs : ℚ) * (2 : ℚ) ^ (Nat.log 2 x.den)
        ≤ x.num.natAbs * x.den := by
          apply mul_le_mul_of_nonneg_left h2
          exact_mod_cast Nat.zero_le _
      _ < (2 : ℚ) ^ (Nat.log 2 x.num.natAbs + 1) * x.den := by
          apply mul_lt_mul_of_pos_right h1 hqpos
  · rw [show binary32.log2 x.num.natAbs x.num.natAbs - (binary32.log2 x.den x.den : ℤ) - 1 + 1 =
      (binary32.log2 x.num.natAbs x.num.natAbs : ℤ) - (binary32.log2 x.den x.den : ℤ) by ring,
      habs, div_lt_iff₀ hqpos]
    exact not_le.mp h

/-- The rounding of `x ≠ 0` chooses the multiple below when `x` is nearer to it, and the
multiple above when `x` is nearer to that one. -/
theorem binary32.round_spec (x : ℚ) (hx : x ≠ 0) :
    ∃ m : ℤ, binary32.round x = m * binary32.ulp x ∧
      (m = ⌊x / binary32.ulp x⌋ ∨ m = ⌊x / binary32.ulp x⌋ + 1) ∧
      (m = ⌊x / binary32.ulp x⌋ + 1 → 1 / 2 ≤ x / binary32.ulp x - ⌊x / binary32.ulp x⌋) ∧
      (m = ⌊x / binary32.ulp x⌋ → x / binary32.ulp x - ⌊x / binary32.ulp x⌋ ≤ 1 / 2) := by
  unfold binary32.round
  rw [if_neg hx]
  simp only
  split_ifs with h1 h2 h3
  · exact ⟨_, rfl, Or.inl rfl, fun h => by omega, fun _ => h1.le⟩
  · exact ⟨_, rfl, Or.inr rfl, fun _ => h2.le, fun h => by omega⟩
  · exact ⟨_, rfl, Or.inl rfl, fun h => by omega, fun _ => not_lt.mp h2⟩
  · exact ⟨_, rfl, Or.inr rfl, fun _ => not_lt.mp h1, fun h => by omega⟩

/-- A value of the grid of `x` that is at most `x` is at most the rounding of `x`. -/
theorem binary32.le_round_of_grid (x c : ℚ) (z : ℤ) (hz : c = z * binary32.ulp x)
    (hc : c ≤ x) : c ≤ binary32.round x := by
  by_cases h0 : x = 0
  · simp [binary32.round, h0]
    rw [h0] at hc
    exact hc
  · obtain ⟨m, hm, hlo, -, -⟩ := binary32.round_eq x h0
    have hu := binary32.ulp_pos x
    have hzq : (z : ℚ) ≤ x / binary32.ulp x := by
      rw [le_div_iff₀ hu, ← hz]
      exact hc
    have hzm : z ≤ m := le_trans (Int.le_floor.mpr hzq) hlo
    rw [hm, hz]
    have : (z : ℚ) ≤ m := by exact_mod_cast hzm
    exact mul_le_mul_of_nonneg_right this hu.le

/-- A value of the grid of `x` that is at least `x` is at least the rounding of `x`. -/
theorem binary32.round_le_of_grid (x c : ℚ) (z : ℤ) (hz : c = z * binary32.ulp x)
    (hc : x ≤ c) : binary32.round x ≤ c := by
  by_cases h0 : x = 0
  · simp [binary32.round, h0]
    rw [h0] at hc
    exact hc
  · obtain ⟨m, hm, hcase, hup, -⟩ := binary32.round_spec x h0
    have hu := binary32.ulp_pos x
    have hzq : x / binary32.ulp x ≤ (z : ℚ) := by
      rw [div_le_iff₀ hu, ← hz]
      exact hc
    have hfl : ⌊x / binary32.ulp x⌋ ≤ z := by
      have h1 : ((⌊x / binary32.ulp x⌋ : ℤ) : ℚ) ≤ z := le_trans (Int.floor_le _) hzq
      exact_mod_cast h1
    have hmz : m ≤ z := by
      rcases hcase with h | h
      · omega
      · have hr := hup h
        have hne : ⌊x / binary32.ulp x⌋ ≠ z := by
          intro heq
          rw [heq] at hr
          linarith
        omega
    rw [hm, hz]
    have : (m : ℚ) ≤ z := by exact_mod_cast hmz
    exact mul_le_mul_of_nonneg_right this hu.le

/-- The rounding is at most half a distance above. -/
theorem binary32.round_le_add (x : ℚ) : binary32.round x ≤ x + binary32.ulp x / 2 := by
  by_cases h0 : x = 0
  · simp [binary32.round, h0]
    exact div_nonneg (binary32.ulp_pos 0).le (by norm_num)
  · obtain ⟨m, hm, hcase, hup, -⟩ := binary32.round_spec x h0
    have hu := binary32.ulp_pos x
    have hq : x = x / binary32.ulp x * binary32.ulp x := by
      field_simp
    have hfl := Int.floor_le (x / binary32.ulp x)
    rw [hm]
    rcases hcase with h | h
    · rw [h]
      nlinarith
    · have hr := hup h
      rw [h]
      push_cast
      nlinarith

/-- The distance of the values below 1 is `2 ^ (-24)` at most. -/
theorem binary32.ulp_le_of_lt_one (x : ℚ) (hx : |x| < 1) :
    binary32.ulp x ≤ 1 / 16777216 := by
  by_cases h0 : x = 0
  · rw [h0]
    decide!
  · have he := binary32.exponent_le x h0 0 (by simpa using hx)
    rw [binary32.ulp_eq_zpow]
    have hk : max (binary32.exponent x) (-126) - 23 ≤ -24 := by
      have : max (binary32.exponent x) (-126) ≤ -1 := max_le (by omega) (by norm_num)
      omega
    have : (2 : ℚ) ^ (max (binary32.exponent x) (-126) - 23) ≤ (2 : ℚ) ^ (-24 : ℤ) :=
      (zpow_le_zpow_iff_right₀ (by norm_num : (1 : ℚ) < 2)).mpr hk
    refine le_trans this ?_
    norm_num

/-- A power of two with an exponent that is at least the exponent of the distance of the
values about `x` is on the grid of `x`. -/
theorem binary32.zpow_on_grid (x : ℚ) (e : ℤ)
    (h : max (binary32.exponent x) (-126) - 23 ≤ e) :
    ∃ z : ℤ, (2 : ℚ) ^ e = z * binary32.ulp x := by
  obtain ⟨j, hj⟩ := Int.eq_ofNat_of_zero_le
    (show 0 ≤ e - (max (binary32.exponent x) (-126) - 23) by omega)
  refine ⟨2 ^ j, ?_⟩
  rw [binary32.ulp_eq_zpow]
  push_cast
  rw [← zpow_natCast, ← zpow_add₀ (by norm_num : (2 : ℚ) ≠ 0), ← hj]
  congr 1
  ring

theorem binary32.round_zero : binary32.round 0 = 0 := by
  simp [binary32.round]

/-- The rounding is monotone on the values with the same grid. -/
theorem binary32.round_mono_grid (x y : ℚ) (hx : x ≠ 0) (hy : y ≠ 0) (hxy : x ≤ y)
    (hu : binary32.ulp x = binary32.ulp y) : binary32.round x ≤ binary32.round y := by
  obtain ⟨mx, hmx, hcx, hupx, -⟩ := binary32.round_spec x hx
  obtain ⟨my, hmy, hcy, -, hdny⟩ := binary32.round_spec y hy
  have hpos := binary32.ulp_pos y
  rw [hu] at hmx hcx hupx
  have hq : x / binary32.ulp y ≤ y / binary32.ulp y := div_le_div_of_nonneg_right hxy hpos.le
  have hfl : ⌊x / binary32.ulp y⌋ ≤ ⌊y / binary32.ulp y⌋ := Int.floor_mono hq
  by_cases hm : mx ≤ my
  · rw [hmx, hmy]
    have : (mx : ℚ) ≤ my := by exact_mod_cast hm
    exact mul_le_mul_of_nonneg_right this hpos.le
  · have h1 : mx = ⌊x / binary32.ulp y⌋ + 1 := by
      rcases hcx with h | h <;> rcases hcy with h' | h' <;> omega
    have h2 : my = ⌊y / binary32.ulp y⌋ := by
      rcases hcx with h | h <;> rcases hcy with h' | h' <;> omega
    have h3 : ⌊x / binary32.ulp y⌋ = ⌊y / binary32.ulp y⌋ := by omega
    have hrx := hupx h1
    have hry := hdny h2
    rw [h3] at hrx
    have heq : x / binary32.ulp y = y / binary32.ulp y := le_antisymm hq (by linarith)
    have hxy' : x = y := by
      have := congrArg (fun t => t * binary32.ulp y) heq
      simpa [div_mul_cancel₀ _ hpos.ne'] using this
    rw [hxy']

/-- The rounding to binary32 is monotone. -/
theorem binary32.round_mono (x y : ℚ) (hxy : x ≤ y) :
    binary32.round x ≤ binary32.round y := by
  by_cases hx : x = 0
  · rw [hx, binary32.round_zero]
    exact binary32.round_nonneg y (by rw [hx] at hxy; exact hxy)
  by_cases hy : y = 0
  · rw [hy, binary32.round_zero]
    exact binary32.round_nonpos x (by rw [hy] at hxy; exact hxy)
  have hlx := binary32.pow2_exponent_le x hx
  have hly := binary32.pow2_exponent_le y hy
  have hux := binary32.lt_pow2_exponent x hx
  have huy := binary32.lt_pow2_exponent y hy
  rw [binary32.pow2_eq_zpow] at hlx hly hux huy
  rcases lt_trichotomy (max (binary32.exponent x) (-126)) (max (binary32.exponent y) (-126))
    with hk | hk | hk
  · -- `y` is in a binade above the binade of `x`
    have hey : max (binary32.exponent y) (-126) = binary32.exponent y := by
      rcases max_cases (binary32.exponent y) (-126) with ⟨h, -⟩ | ⟨h, -⟩
      · exact h
      · have := le_max_right (binary32.exponent x) (-126)
        omega
    have hex : binary32.exponent x < binary32.exponent y := by
      have := le_max_left (binary32.exponent x) (-126)
      omega
    have hP : (2 : ℚ) ^ (binary32.exponent x + 1) ≤ (2 : ℚ) ^ binary32.exponent y :=
      (zpow_le_zpow_iff_right₀ (by norm_num : (1 : ℚ) < 2)).mpr (by omega)
    have hxP : |x| < (2 : ℚ) ^ binary32.exponent y := lt_of_lt_of_le hux hP
    have hypos : 0 < y := by
      by_contra hneg
      have hy0 : y ≤ 0 := not_lt.mp hneg
      have hx0 : x ≤ 0 := le_trans hxy hy0
      rw [abs_of_nonpos hx0] at hxP
      rw [abs_of_nonpos hy0] at hly
      linarith
    rw [abs_of_pos hypos] at hly
    obtain ⟨z1, hz1⟩ := binary32.zpow_on_grid x (binary32.exponent y) (by omega)
    obtain ⟨z2, hz2⟩ := binary32.zpow_on_grid y (binary32.exponent y) (by omega)
    exact le_trans
      (binary32.round_le_of_grid x _ z1 hz1 (le_trans (le_abs_self x) hxP.le))
      (binary32.le_round_of_grid y _ z2 hz2 hly)
  · have hu : binary32.ulp x = binary32.ulp y := by
      rw [binary32.ulp_eq_zpow, binary32.ulp_eq_zpow, hk]
    exact binary32.round_mono_grid x y hx hy hxy hu
  · -- `x` is in a binade above (in magnitude) the binade of `y`
    have hex' : max (binary32.exponent x) (-126) = binary32.exponent x := by
      rcases max_cases (binary32.exponent x) (-126) with ⟨h, -⟩ | ⟨h, -⟩
      · exact h
      · have := le_max_right (binary32.exponent y) (-126)
        omega
    have hey : binary32.exponent y < binary32.exponent x := by
      have := le_max_left (binary32.exponent y) (-126)
      omega
    have hP : (2 : ℚ) ^ (binary32.exponent y + 1) ≤ (2 : ℚ) ^ binary32.exponent x :=
      (zpow_le_zpow_iff_right₀ (by norm_num : (1 : ℚ) < 2)).mpr (by omega)
    have hyP : |y| < (2 : ℚ) ^ binary32.exponent x := lt_of_lt_of_le huy hP
    have hxneg : x < 0 := by
      by_contra hneg
      have hx0 : 0 ≤ x := not_lt.mp hneg
      have hy0 : 0 ≤ y := le_trans hx0 hxy
      rw [abs_of_nonneg hx0] at hlx
      rw [abs_of_nonneg hy0] at hyP
      linarith
    rw [abs_of_neg hxneg] at hlx
    obtain ⟨z1, hz1⟩ := binary32.zpow_on_grid x (binary32.exponent x) (by omega)
    obtain ⟨z2, hz2⟩ := binary32.zpow_on_grid y (binary32.exponent x) (by omega)
    have hg1 : -(2 : ℚ) ^ binary32.exponent x = ((-z1 : ℤ) : ℚ) * binary32.ulp x := by
      rw [hz1]; push_cast; ring
    have hg2 : -(2 : ℚ) ^ binary32.exponent x = ((-z2 : ℤ) : ℚ) * binary32.ulp y := by
      rw [hz2]; push_cast; ring
    exact le_trans
      (binary32.round_le_of_grid x _ (-z1) hg1 (by linarith))
      (binary32.le_round_of_grid y _ (-z2) hg2 (by linarith [neg_abs_le y]))

/-! ## The times of the edges with binary32 rounding -/

/-- The rounded quotient `alpha` of a crossing is at most 1. -/
theorem binary32.alpha_le_one {v0 v1 threshold : ℚ}
    (hc : (v0 ≤ threshold ∧ v1 > threshold) ∨ (v0 > threshold ∧ v1 ≤ threshold)) :
    binary32.div (binary32.sub threshold v0) (binary32.sub v1 v0) ≤ 1 := by
  unfold binary32.div binary32.sub
  have hone : binary32.round 1 = 1 := by decide!
  rw [← hone]
  apply binary32.round_mono
  rcases hc with ⟨h0, h1⟩ | ⟨h0, h1⟩
  · have hA : 0 ≤ binary32.round (threshold - v0) := binary32.round_nonneg _ (by linarith)
    have hAB : binary32.round (threshold - v0) ≤ binary32.round (v1 - v0) :=
      binary32.round_mono _ _ (by linarith)
    by_cases hB : binary32.round (v1 - v0) = 0
    · rw [hB, div_zero]
      norm_num
    · have hBpos : 0 < binary32.round (v1 - v0) :=
        lt_of_le_of_ne (le_trans hA hAB) (Ne.symm hB)
      rw [div_le_one hBpos]
      exact hAB
  · have hA : binary32.round (threshold - v0) ≤ 0 := binary32.round_nonpos _ (by linarith)
    have hBA : binary32.round (v1 - v0) ≤ binary32.round (threshold - v0) :=
      binary32.round_mono _ _ (by linarith)
    by_cases hB : binary32.round (v1 - v0) = 0
    · rw [hB, div_zero]
      norm_num
    · have hBneg : binary32.round (v1 - v0) < 0 := lt_of_le_of_ne (le_trans hBA hA) hB
      rw [div_le_one_of_neg hBneg]
      exact hBA

/-- The rounded `math::Lerp` between two times of `[0, 1)`, at a fraction of `[0, 1]`, is
at most 1. -/
theorem binary32.Lerp_le_one {t0 t1 alpha : ℚ} (h0 : 0 ≤ t0) (h01 : t0 ≤ t1) (h1 : t1 < 1)
    (ha0 : 0 ≤ alpha) (ha1 : alpha ≤ 1) : binary32.Lerp t0 t1 alpha ≤ 1 := by
  unfold binary32.Lerp binary32.add binary32.mul binary32.sub
  have hone : binary32.round 1 = 1 := by decide!
  have htie : binary32.round (1 + 1 / 16777216) = 1 := by decide!
  have hd0 : 0 ≤ t1 - t0 := by linarith
  have hd1 : |t1 - t0| < 1 := by rw [abs_of_nonneg hd0]; linarith
  have hD0 : 0 ≤ binary32.round (t1 - t0) := binary32.round_nonneg _ hd0
  have hD1 : binary32.round (t1 - t0) ≤ 1 := by
    rw [← hone]
    exact binary32.round_mono _ _ (by linarith)
  have hDe : binary32.round (t1 - t0) ≤ t1 - t0 + 1 / 33554432 := by
    have := binary32.round_le_add (t1 - t0)
    have hu := binary32.ulp_le_of_lt_one (t1 - t0) hd1
    linarith
  have hx0 : 0 ≤ binary32.round (t1 - t0) * alpha := mul_nonneg hD0 ha0
  have hxD : binary32.round (t1 - t0) * alpha ≤ binary32.round (t1 - t0) := by
    nlinarith
  rw [← htie]
  apply binary32.round_mono
  by_cases hx1 : binary32.round (t1 - t0) * alpha < 1
  · have hu := binary32.ulp_le_of_lt_one (binary32.round (t1 - t0) * alpha)
      (by rw [abs_of_nonneg hx0]; exact hx1)
    have := binary32.round_le_add (binary32.round (t1 - t0) * alpha)
    linarith
  · have hxe : binary32.round (t1 - t0) * alpha = 1 :=
      le_antisymm (le_trans hxD hD1) (not_lt.mp hx1)
    rw [hxe, hone]
    have hD : (1 : ℚ) ≤ binary32.round (t1 - t0) := by rw [← hxe]; exact hxD
    linarith

/-- On a well-formed curve the local time of a crossing that `binary32.DetectEdge` reports
on the pair before the keyframe `i1` is at most 1. -/
theorem binary32.DetectEdge_time_le_one {track : FloatTrack} (hw : track.WellFormed)
    (i1 : ℤ) (forward : Bool) (threshold : ℚ) (edge e : Edge)
    (h : binary32.DetectEdge (if i1 = 0 then (track.times.length : ℤ) - 1 else i1 - 1) i1
      forward threshold track edge = some (true, e)) :
    e.time ≤ 1 := by
  obtain ⟨v0, v1, hv0, hv1⟩ := binary32.DetectEdge_reads h
  have hb1 := Range.at_lt hv1
  rw [hw.2.1] at hb1
  obtain ⟨n, hn⟩ := Int.eq_ofNat_of_zero_le hb1.1
  subst hn
  have hnlt : n < track.times.length := by exact_mod_cast hb1.2
  generalize hi0 : (if (n : ℤ) = 0 then (track.times.length : ℤ) - 1 else (n : ℤ) - 1) = i0
    at h hv0
  rw [binary32.DetectEdge_rounded track _ _ forward threshold edge v0 v1 hv0 hv1] at h
  by_cases hc : (v0 ≤ threshold ∧ v1 > threshold) ∨ (v0 > threshold ∧ v1 ≤ threshold)
  · rw [if_pos hc] at h
    cases hb : Range.at track.steps (i0 / 8) with
    | none =>
      rw [hb] at h
      simp at h
    | some byte =>
      rw [hb, Option.some_bind, Range.at_eq_getD track.times n hnlt, Option.some_bind] at h
      by_cases hstep : ((byte &&& (1 <<< (i0.toNat &&& 7))) != 0) = true
      · rw [if_pos hstep] at h
        simp only [Option.some.injEq, Prod.mk.injEq, true_and] at h
        rw [← h]
        exact (hw.times_lt_one hnlt).le
      · rw [if_neg hstep] at h
        by_cases hi : (n : ℤ) = 0
        · rw [if_pos hi] at h
          simp only [Option.some.injEq, Prod.mk.injEq, true_and] at h
          rw [← h]
          norm_num
        · rw [if_neg hi] at h hi0
          have hn1 : 1 ≤ n := by omega
          have hcast : i0 = ((n - 1 : ℕ) : ℤ) := by omega
          rw [hcast, Range.at_eq_getD track.times (n - 1) (by omega)] at h
          simp only [Option.some_bind, Option.some.injEq, Prod.mk.injEq, true_and] at h
          rw [← h]
          exact binary32.Lerp_le_one (hw.times_nonneg (by omega)) (hw.times_le (by omega) hnlt)
            (hw.times_lt_one hnlt) (binary32.alpha_nonneg hc) (binary32.alpha_le_one hc)
  · rw [if_neg hc] at h
    simp at h

/-- An edge yielded by the inner loop of a forward query passed the acceptance test, and
its time is the rounded sum of the cycle and of the local time of a crossing. -/
theorem binary32.forwardInner_accepted (from_ to_ threshold : ℚ) (track : FloatTrack)
    (outer : ℚ) (k : ℕ) : ∀ (inner : ℤ) (edge : Edge) (inner' : ℤ) (e : Edge),
    ((track.times.length : ℤ) - inner).toNat = k →
    binary32.forwardInner from_ to_ threshold track outer inner edge = some (true, inner', e) →
    (e.time < to_ ∨ to_ ≥ binary32.add 1 outer) ∧
      ∃ (i1 : ℤ) (edge1 e1 : Edge),
        binary32.DetectEdge (if i1 = 0 then (track.times.length : ℤ) - 1 else i1 - 1) i1
          true threshold track edge1 = some (true, e1) ∧
        e.time = binary32.add e1.time outer := by
  induction k with
  | zero =>
    intro inner edge inner' e hk h
    rw [binary32.forwardInner, if_neg (by omega)] at h
    simp at h
  | succ k ih =>
    intro inner edge inner' e hk h
    have hlt : inner < (track.times.length : ℤ) := by omega
    rw [binary32.forwardInner, if_pos hlt] at h
    simp only at h
    cases hd : binary32.DetectEdge (if inner = 0 then (track.times.length : ℤ) - 1
        else inner - 1) inner true threshold track edge with
    | none => simp [hd] at h
    | some r =>
      obtain ⟨d, e1⟩ := r
      rw [hd] at h
      cases d with
      | false => exact ih (inner + 1) _ inner' e (by omega) h
      | true =>
        simp only at h
        split_ifs at h with hacc
        · simp only [Option.some.injEq, Prod.mk.injEq, true_and] at h
          obtain ⟨-, he⟩ := h
          subst he
          exact ⟨hacc.2, inner, edge, e1, hd, rfl⟩
        · split at h
          · simp at h
          · split_ifs at h with hbrk
            · simp at h
            · exact ih (inner + 1) _ inner' e (by omega) h

/-- An edge yielded by the inner loop of a backward query passed the acceptance test, and
its time is the rounded sum of the cycle and of the local time of a crossing. -/
theorem binary32.backwardInner_accepted (from_ to_ threshold : ℚ) (track : FloatTrack)
    (outer : ℚ) (k : ℕ) : ∀ (inner : ℤ) (edge : Edge) (inner' : ℤ) (e : Edge),
    (inner + 1).toNat = k →
    binary32.backwardInner from_ to_ threshold track outer inner edge =
      some (true, inner', e) →
    (e.time < from_ ∨ from_ ≥ outer) ∧
      ∃ (i1 : ℤ) (edge1 e1 : Edge),
        binary32.DetectEdge (if i1 = 0 then (track.times.length : ℤ) - 1 else i1 - 1) i1
          false threshold track edge1 = some (true, e1) ∧
        e.time = binary32.add e1.time (binary32.sub outer 1) := by
  induction k with
  | zero =>
    intro inner edge inner' e hk h
    rw [binary32.backwardInner, if_neg (by omega)] at h
    simp at h
  | succ k ih =>
    intro inner edge inner' e hk h
    have hge : inner ≥ 0 := by omega
    rw [binary32.backwardInner, if_pos hge] at h
    simp only at h
    have hbreak : ∀ edge', (match Range.at track.times inner with
        | none => none
        | some t =>
          if binary32.sub (binary32.add t outer) 1 ≤ to_ then some (false, inner, edge')
          else binary32.backwardInner from_ to_ threshold track outer (inner - 1) edge') =
        some (true, inner', e) →
        (e.time < from_ ∨ from_ ≥ outer) ∧
          ∃ (i1 : ℤ) (edge1 e1 : Edge),
            binary32.DetectEdge (if i1 = 0 then (track.times.length : ℤ) - 1 else i1 - 1) i1
              false threshold track edge1 = some (true, e1) ∧
            e.time = binary32.add e1.time (binary32.sub outer 1) := by
      intro edge' h'
      split at h'
      · simp at h'
      · split_ifs at h' with hbrk
        · simp at h'
        · exact ih (inner - 1) edge' inner' e (by omega) h'
    cases hd : binary32.DetectEdge (if inner = 0 then (track.times.length : ℤ) - 1
        else inner - 1) inner false threshold track edge with
    | none => simp [hd] at h
    | some r =>
      obtain ⟨d, e1⟩ := r
      rw [hd] at h
      cases d with
      | false =>
        simp only [Bool.false_eq_true, false_and, if_false] at h
        exact hbreak _ h
      | true =>
        simp only [if_true, true_and] at h
        split_ifs at h with hacc
        · simp only [Option.some.injEq, Prod.mk.injEq, true_and] at h
          obtain ⟨-, he⟩ := h
          subst he
          exact ⟨hacc.2, inner, edge, e1, hd, rfl⟩
        · exact hbreak _ h

/-- On a well-formed curve an edge yielded by the inner loop of a forward query is not
after `to`, with binary32 rounding too. -/
theorem binary32.forwardInner_le {track : FloatTrack} (hw : track.WellFormed)
    (from_ to_ threshold : ℚ) (outer : ℚ) (inner : ℤ) (edge : Edge) (inner' : ℤ) (e : Edge)
    (h : binary32.forwardInner from_ to_ threshold track outer inner edge =
      some (true, inner', e)) : e.time ≤ to_ := by
  obtain ⟨hacc, i1, edge1, e1, hd, ht⟩ := binary32.forwardInner_accepted from_ to_ threshold
    track outer _ inner edge inner' e rfl h
  rcases hacc with hlt | hge
  · exact hlt.le
  · have h1 := binary32.DetectEdge_time_le_one hw i1 true threshold edge1 e1 hd
    refine le_trans ?_ hge
    rw [ht]
    unfold binary32.add
    exact binary32.round_mono _ _ (by linarith)

/-- On a well-formed curve an edge yielded by the inner loop of a backward query in an
integer cycle up to `2 ^ 24` is not after `from`, with binary32 rounding too. -/
theorem binary32.backwardInner_le {track : FloatTrack} (hw : track.WellFormed)
    (from_ to_ threshold : ℚ) (c : ℤ) (hc1 : -16777216 < c) (hc2 : c ≤ 16777216)
    (inner : ℤ) (edge : Edge) (inner' : ℤ) (e : Edge)
    (h : binary32.backwardInner from_ to_ threshold track (c : ℚ) inner edge =
      some (true, inner', e)) : e.time ≤ from_ := by
  obtain ⟨hacc, i1, edge1, e1, hd, ht⟩ := binary32.backwardInner_accepted from_ to_ threshold
    track (c : ℚ) _ inner edge inner' e rfl h
  rcases hacc with hlt | hge
  · exact hlt.le
  · have h1 := binary32.DetectEdge_time_le_one hw i1 false threshold edge1 e1 hd
    have hsub : binary32.sub (c : ℚ) 1 = ((c - 1 : ℤ) : ℚ) := by
      unfold binary32.sub
      rw [show (c : ℚ) - 1 = ((c - 1 : ℤ) : ℚ) by push_cast; ring]
      exact binary32.round_int (c - 1) (abs_le.mpr ⟨by omega, by omega⟩)
    have hc : binary32.round (c : ℚ) = c :=
      binary32.round_int c (abs_le.mpr ⟨by omega, by omega⟩)
    refine le_trans ?_ hge
    rw [ht, hsub]
    unfold binary32.add
    rw [← hc]
    apply binary32.round_mono
    push_cast
    linarith

/-- On a well-formed curve the outer loop of a forward query leaves the end position or an
edge that is not after `to`, with binary32 rounding too. -/
theorem binary32.forwardOuter_le {track : FloatTrack} (hw : track.WellFormed)
    (from_ to_ threshold : ℚ) (fuel : ℕ) :
    ∀ (outer : ℚ) (inner : ℤ) (edge : Edge) (it : Iterator),
    binary32.forwardOuter from_ to_ threshold track fuel outer inner edge = some it →
    Iterator.neEnd to_ it = true → it.edge_.time ≤ to_ := by
  induction fuel with
  | zero =>
    intro outer inner edge it h
    simp [binary32.forwardOuter] at h
  | succ fuel ih =>
    intro outer inner edge it h hne
    rw [binary32.forwardOuter] at h
    split_ifs at h with hlt
    · cases hfi : binary32.forwardInner from_ to_ threshold track outer inner edge with
      | none => simp [hfi] at h
      | some r =>
        obtain ⟨b, inner', e⟩ := r
        rw [hfi] at h
        cases b with
        | true =>
          simp only [Option.some.injEq] at h
          subst h
          exact binary32.forwardInner_le hw from_ to_ threshold outer inner edge inner' e hfi
        | false => exact ih _ _ _ it h hne
    · simp only [Option.some.injEq] at h
      subst h
      rw [Iterator.neEnd_end] at hne
      exact absurd hne (by simp)

/-- On a well-formed curve the outer loop of a backward query from an integer cycle up to
`2 ^ 24` leaves the end position, or an integer cycle and an edge that is not after `from`,
with binary32 rounding too. -/
theorem binary32.backwardOuter_le {track : FloatTrack} (hw : track.WellFormed)
    (from_ to_ threshold : ℚ) (hto : -16777216 < to_) (fuel : ℕ) :
    ∀ (c : ℤ) (inner : ℤ) (edge : Edge) (it : Iterator), c ≤ 16777216 →
    binary32.backwardOuter from_ to_ threshold track fuel (c : ℚ) inner edge = some it →
    Iterator.neEnd to_ it = true →
    (∃ c' : ℤ, it.outer_ = (c' : ℚ) ∧ c' ≤ c) ∧ it.edge_.time ≤ from_ := by
  induction fuel with
  | zero =>
    intro c inner edge it _ h
    simp [binary32.backwardOuter] at h
  | succ fuel ih =>
    intro c inner edge it hc h hne
    rw [binary32.backwardOuter] at h
    split_ifs at h with hlt
    · have hc1 : -16777216 < c := by
        have : (-16777216 : ℚ) < c := lt_trans hto hlt
        exact_mod_cast this
      cases hfi : binary32.backwardInner from_ to_ threshold track (c : ℚ) inner edge with
      | none => simp [hfi] at h
      | some r =>
        obtain ⟨b, inner', e⟩ := r
        rw [hfi] at h
        cases b with
        | true =>
          simp only [Option.some.injEq] at h
          subst h
          exact ⟨⟨c, rfl, le_refl _⟩,
            binary32.backwardInner_le hw from_ to_ threshold c hc1 hc inner edge inner' e hfi⟩
        | false =>
          simp only at h
          have hsub : binary32.sub (c : ℚ) 1 = ((c - 1 : ℤ) : ℚ) := by
            unfold binary32.sub
            rw [show (c : ℚ) - 1 = ((c - 1 : ℤ) : ℚ) by push_cast; ring]
            exact binary32.round_int (c - 1) (abs_le.mpr ⟨by omega, by omega⟩)
          rw [hsub] at h
          obtain ⟨⟨c', h1, h2⟩, h3⟩ := ih (c - 1) _ _ it (by omega) h hne
          exact ⟨⟨c', h1, by omega⟩, h3⟩
    · simp only [Option.some.injEq] at h
      subst h
      rw [Iterator.neEnd_end] at hne
      exact absurd hne (by simp)

/-- The edges that the loop of `Run` writes are the edges of the positions before the end:
a property of these edges holds of every edge of the output. -/
theorem binary32.RunLoop_forall (fuel : ℕ) (from_ to_ threshold : ℚ) (track : FloatTrack)
    (J : Iterator → Prop) (P : Edge → Prop)
    (hJ : ∀ it it', J it → Iterator.neEnd to_ it = true →
      binary32.next fuel from_ to_ threshold track it = some it' → J it')
    (hP : ∀ it, J it → Iterator.neEnd to_ it = true → P it.edge_)
    (k : ℕ) : ∀ (it : Iterator) (mem : List Edge) (pos : ℕ) (out : List Edge),
    mem.length - pos = k → pos ≤ mem.length → J it → (∀ e ∈ mem.take pos, P e) →
    binary32.RunLoop fuel from_ to_ threshold track it mem pos = some (true, out) →
    ∀ e ∈ out, P e := by
  induction k with
  | zero =>
    intro it mem pos out hk hpos hit hmem h
    rw [binary32.RunLoop] at h
    split_ifs at h with hne hlt
    · omega
    · simp at h
    · simp only [Option.some.injEq, Prod.mk.injEq, true_and] at h
      rw [← h]
      exact hmem
  | succ k ih =>
    intro it mem pos out hk hpos hit hmem h
    rw [binary32.RunLoop] at h
    split_ifs at h with hne hlt
    · cases hn : binary32.next fuel from_ to_ threshold track it with
      | none => simp [hn] at h
      | some it' =>
        rw [hn] at h
        simp only at h
        refine ih it' (mem.set pos it.edge_) (pos + 1) out ?_ ?_ (hJ it it' hit hne hn) ?_ h
        · simp only [List.length_set]; omega
        · simp only [List.length_set]; omega
        · rw [take_succ_set it.edge_ mem pos hlt]
          intro e he
          rcases List.mem_append.mp he with he | he
          · exact hmem e he
          · rw [List.mem_singleton] at he
            rw [he]
            exact hP it hit hne
    · simp at h
    · simp only [Option.some.injEq, Prod.mk.injEq, true_and] at h
      rw [← h]
      exact hmem

/-- With binary32 rounding, on a well-formed curve, no edge that `Run` outputs is after the
far end of the query, for a forward query and for a backward query with `from < 2 ^ 24` and
`to > -2 ^ 24`, where the cycle cursor is exact. -/
theorem binary32.Run_le {track : FloatTrack} (hw : track.WellFormed)
    (from_ to_ threshold : ℚ)
    (hq : from_ < to_ ∨ (from_ < 16777216 ∧ -16777216 < to_))
    (fuel : ℕ) (mem : List Edge) (edge0 : Edge) (out : List Edge)
    (h : binary32.Run fuel ⟨from_, to_, threshold, some track, some mem⟩ edge0 =
      some (true, some out)) :
    ∀ e ∈ out, e.time ≤ max from_ to_ := by
  simp only [binary32.Run, Validate, Option.isSome_some, Bool.and_self, Bool.not_true,
    Bool.false_eq_true, if_false] at h
  split_ifs at h with heq
  · simp only [Option.some.injEq, Prod.mk.injEq, true_and] at h
    rw [← h]
    simp
  · cases hb : binary32.begin fuel from_ to_ threshold track edge0 with
    | none => simp [hb] at h
    | some it =>
      rw [hb] at h
      simp only at h
      cases hl : binary32.RunLoop fuel from_ to_ threshold track it mem 0 with
      | none => simp [hl] at h
      | some r =>
        obtain ⟨r1, r2⟩ := r
        rw [hl] at h
        simp only [Option.some.injEq, Prod.mk.injEq] at h
        obtain ⟨h1, h2⟩ := h
        subst h1 h2
        rcases lt_or_gt_of_ne heq with hdir | hdir
        · -- forward
          rw [max_eq_right hdir.le]
          refine binary32.RunLoop_forall fuel from_ to_ threshold track
            (fun it => Iterator.neEnd to_ it = true → it.edge_.time ≤ to_)
            (fun e => e.time ≤ to_) ?_ (fun it hJ hne => hJ hne) _ it mem 0 r2 rfl
            (Nat.zero_le _) ?_ (by simp) hl
          · intro it1 it2 _ _ hn hne2
            simp only [binary32.next, gt_iff_lt, hdir, if_true] at hn
            exact binary32.forwardOuter_le hw from_ to_ threshold fuel _ _ _ it2 hn hne2
          · intro hne0
            simp only [binary32.begin, gt_iff_lt, hdir, if_true, binary32.next] at hb
            exact binary32.forwardOuter_le hw from_ to_ threshold fuel _ _ _ it hb hne0
        · -- backward
          have hdir' : to_ < from_ := hdir
          obtain ⟨hf2, ht1⟩ : from_ < 16777216 ∧ -16777216 < to_ := by
            rcases hq with hq | hq
            · exact absurd hq (not_lt.mpr hdir'.le)
            · exact hq
          rw [max_eq_left hdir'.le]
          have hfl1 : (-16777216 : ℤ) ≤ ⌊from_⌋ := Int.le_floor.mpr (by push_cast; linarith)
          have hfl2 : ⌊from_⌋ < 16777216 := by
            have : ((⌊from_⌋ : ℤ) : ℚ) < 16777216 := lt_of_le_of_lt (Int.floor_le from_) hf2
            exact_mod_cast this
          have hadd : binary32.add ((⌊from_⌋ : ℤ) : ℚ) 1 = ((⌊from_⌋ + 1 : ℤ) : ℚ) := by
            unfold binary32.add
            rw [show ((⌊from_⌋ : ℤ) : ℚ) + 1 = ((⌊from_⌋ + 1 : ℤ) : ℚ) by push_cast; ring]
            exact binary32.round_int _ (abs_le.mpr ⟨by omega, by omega⟩)
          refine binary32.RunLoop_forall fuel from_ to_ threshold track
            (fun it => Iterator.neEnd to_ it = true →
              (∃ c : ℤ, it.outer_ = (c : ℚ) ∧ c ≤ ⌊from_⌋ + 1) ∧ it.edge_.time ≤ from_)
            (fun e => e.time ≤ from_) ?_ (fun it hJ hne => (hJ hne).2) _ it mem 0 r2 rfl
            (Nat.zero_le _) ?_ (by simp) hl
          · intro it1 it2 hJ1 hne1 hn hne2
            obtain ⟨⟨c, hc, hcle⟩, -⟩ := hJ1 hne1
            simp only [binary32.next, gt_iff_lt, if_neg (not_lt.mpr hdir'.le), hc] at hn
            obtain ⟨⟨c', h1, h2⟩, h3⟩ := binary32.backwardOuter_le hw from_ to_ threshold ht1
              fuel c _ _ it2 (by omega) hn hne2
            exact ⟨⟨c', h1, by omega⟩, h3⟩
          · intro hne0
            simp only [binary32.begin, gt_iff_lt, if_neg (not_lt.mpr hdir'.le), binary32.next,
              hadd] at hb
            obtain ⟨⟨c', h1, h2⟩, h3⟩ := binary32.backwardOuter_le hw from_ to_ threshold ht1
              fuel (⌊from_⌋ + 1) _ _ it (by omega) hb hne0
            exact ⟨⟨c', h1, h2⟩, h3⟩

/-- C4, as stated, fails with binary32 rounding: on a well-formed curve with a step edge at
the time `0.99999f`, the query `(1000, 1001)` outputs an edge at the time `1001 = to`: the
sum `0.99999f + 1000` is rounded to `1001`, and the allowance `to ≥ 1 + outer_` of the
acceptance test admits the edge. -/
theorem Run_time_in_range_counterexample :
    boundaryTrack.WellFormed ∧ (1000 : ℚ) ≠ 1001 ∧
      binary32.add (binary32.round (99999 / 100000)) 1000 = 1001 ∧
      binary32.Run 2 ⟨1000, 1001, 1 / 2, some boundaryTrack, some [⟨0, false⟩, ⟨0, false⟩]⟩
          ⟨0, false⟩ = some (true, some [⟨1000, false⟩, ⟨1001, true⟩]) ∧
      ¬ ∀ e ∈ ([⟨1000, false⟩, ⟨1001, true⟩] : List Edge),
        min (1000 : ℚ) 1001 ≤ e.time ∧ e.time < max (1000 : ℚ) 1001 :=
  ⟨by decide!, by norm_num, by decide!, by decide!,
    fun h => absurd (h ⟨1001, true⟩ (by simp)).2 (by norm_num)⟩

/-- C4, amended: for every curve, every threshold and every query with `from ≠ to`, the
time of every edge that `Run` outputs is at least `min from to`, with binary32 rounding
too; on a well-formed curve it is at most `max from to` with binary32 rounding, for every
forward query and for every backward query with `from < 2 ^ 24` and `to > -2 ^ 24` (the
allowance of the acceptance test admits an edge whose rounded time is `max from to`); and
in exact arithmetic (every `float` operation of the code computed without rounding), on a
well-formed curve, this time belongs to the half-open interval `[min from to, max from to)`,
in both directions: the allowance admits no edge out of it. -/
theorem Run_time_in_range (track : FloatTrack) (from_ to_ threshold : ℚ) (hne : from_ ≠ to_)
    (mem : List Edge) (edge0 : Edge) (out : List Edge) :
    (∀ fuel : ℕ,
      binary32.Run fuel ⟨from_, to_, threshold, some track, some mem⟩ edge0 =
        some (true, some out) →
      ∀ e ∈ out, min from_ to_ ≤ e.time) ∧
    (track.WellFormed → from_ < to_ ∨ (from_ < 16777216 ∧ -16777216 < to_) →
      ∀ fuel : ℕ,
      binary32.Run fuel ⟨from_, to_, threshold, some track, some mem⟩ edge0 =
        some (true, some out) →
      ∀ e ∈ out, e.time ≤ max from_ to_) ∧
    (track.WellFormed →
      Run ⟨from_, to_, threshold, some track, some mem⟩ edge0 = some (true, some out) →
      ∀ e ∈ out, min from_ to_ ≤ e.time ∧ e.time < max from_ to_) := by
  refine ⟨fun fuel h => binary32.Run_time fuel from_ to_ threshold track mem edge0 out h,
    fun hw hq fuel h => binary32.Run_le hw from_ to_ threshold hq fuel mem edge0 out h,
    fun hw hrun e he => ?_⟩
  rcases lt_or_gt_of_ne hne with h | h
  · rw [Run_forward_out hw h hrun] at he
    rw [min_eq_left h.le, max_eq_right h.le]
    exact FloatTrack.forwardEdges_mem he
  · rw [Run_backward_out hw h hrun, List.mem_reverse, List.mem_map] at he
    obtain ⟨e', he', hfl⟩ := he
    rw [min_eq_right h.le, max_eq_left h.le, ← hfl]
    have := FloatTrack.forwardEdges_mem he'
    exact this

/-- Instances of C4, amended: the backward query `(7/3, -3/2)` on the curve of the scenarios
in exact arithmetic, and the forward query `(1000, 1001)` on the curve with a step edge at
`0.99999f` with binary32 rounding, whose second edge is at the time `1001 = to`. -/
theorem Run_time_in_range_witness :
    (scenarioTrack.WellFormed ∧ (7/3 : ℚ) ≠ -3/2 ∧
      Run ⟨7/3, -3/2, 1/2, some scenarioTrack, some (List.replicate 8 ⟨0, false⟩)⟩ ⟨0, false⟩ =
        some (true, some [⟨17/8, false⟩, ⟨13/8, true⟩, ⟨9/8, false⟩, ⟨5/8, true⟩,
          ⟨1/8, false⟩, ⟨-3/8, true⟩, ⟨-7/8, false⟩, ⟨-11/8, true⟩]) ∧
      ∀ e ∈ ([⟨17/8, false⟩, ⟨13/8, true⟩, ⟨9/8, false⟩, ⟨5/8, true⟩,
          ⟨1/8, false⟩, ⟨-3/8, true⟩, ⟨-7/8, false⟩, ⟨-11/8, true⟩] : List Edge),
        min (7/3 : ℚ) (-3/2) ≤ e.time ∧ e.time < max (7/3 : ℚ) (-3/2)) ∧
    (boundaryTrack.WellFormed ∧ (1000 : ℚ) ≠ 1001 ∧
      ((1000 : ℚ) < 1001 ∨ ((1000 : ℚ) < 16777216 ∧ (-16777216 : ℚ) < 1001)) ∧
      binary32.Run 2 ⟨1000, 1001, 1/2, some boundaryTrack, some (List.replicate 2 ⟨0, false⟩)⟩
          ⟨0, false⟩ = some (true, some [⟨1000, false⟩, ⟨1001, true⟩]) ∧
      (∀ e ∈ ([⟨1000, false⟩, ⟨1001, true⟩] : List Edge), min (1000 : ℚ) 1001 ≤ e.time) ∧
      ∀ e ∈ ([⟨1000, false⟩, ⟨1001, true⟩] : List Edge), e.time ≤ max (1000 : ℚ) 1001) :=
  ⟨⟨by decide!, by norm_num, by decide!,
      (Run_time_in_range scenarioTrack (7/3) (-3/2) (1/2) (by norm_num)
        (List.replicate 8 ⟨0, false⟩) ⟨0, false⟩ _).2.2 (by decide!) (by decide!)⟩,
    by decide!, by norm_num, Or.inl (by norm_num), by decide!,
    (Run_time_in_range boundaryTrack 1000 1001 (1/2) (by norm_num)
      (List.replicate 2 ⟨0, false⟩) ⟨0, false⟩ _).1 2 (by decide!),
    (Run_time_in_range boundaryTrack 1000 1001 (1/2) (by norm_num)
      (List.replicate 2 ⟨0, false⟩) ⟨0, false⟩ _).2.1 (by decide!) (Or.inl (by norm_num)) 2
      (by decide!)⟩

/-- C5, overflow law: for a job with a track, an output range `mem` and `from ≠ to`, whose
generator yields the `k` edges `l` before it is exhausted, `Run` returns `false` when the
capacity of the output is less than `k`, and when it is at least `k`, `Run` returns `true`
and the output is exactly the `k` edges, in the order of their generation. The generator of
a well-formed curve does yield such a list of edges. -/
theorem Run_overflow_law (from_ to_ threshold : ℚ) (track : FloatTrack) (mem : List Edge)
    (edge0 : Edge) (hne : from_ ≠ to_) :
    (∀ (it : Iterator) (l : List Edge),
      Iterator.begin from_ to_ threshold track edge0 = some it →
      Iterator.Produces from_ to_ threshold track it l →
      (mem.length < l.length →
        Run ⟨from_, to_, threshold, some track, some mem⟩ edge0 =
          some (false, some (l.take mem.length))) ∧
      (l.length ≤ mem.length →
        Run ⟨from_, to_, threshold, some track, some mem⟩ edge0 = some (true, some l))) ∧
    (track.WellFormed → ∃ (it : Iterator) (l : List Edge),
      Iterator.begin from_ to_ threshold track edge0 = some it ∧
      Iterator.Produces from_ to_ threshold track it l) := by
  constructor
  · intro it l hbegin hprod
    rw [Run_of_produces from_ to_ threshold track mem edge0 hne it l hbegin hprod]
    constructor
    · intro h
      rw [if_neg (by omega)]
    · intro h
      rw [if_pos h]
  · intro hw
    exact Iterator.begin_produces hw from_ to_ threshold hne edge0

/-- Instance of C5: the generator of the query `(0, 1)` on the curve of the scenarios
yields two edges; `Run` fails with a capacity of one edge, and succeeds with a capacity of
three edges. -/
theorem Run_overflow_law_witness :
    (0 : ℚ) ≠ 1 ∧
      Iterator.begin 0 1 (1/2) scenarioTrack ⟨0, false⟩ = some ⟨0, 2, ⟨1/8, true⟩⟩ ∧
      Iterator.Produces 0 1 (1/2) scenarioTrack ⟨0, 2, ⟨1/8, true⟩⟩
        [⟨1/8, true⟩, ⟨5/8, false⟩] ∧
      Run ⟨0, 1, 1/2, some scenarioTrack, some [⟨0, false⟩]⟩ ⟨0, false⟩ =
        some (false, some [⟨1/8, true⟩]) ∧
      Run ⟨0, 1, 1/2, some scenarioTrack, some [⟨0, false⟩, ⟨0, false⟩, ⟨0, false⟩]⟩
        ⟨0, false⟩ = some (true, some [⟨1/8, true⟩, ⟨5/8, false⟩]) :=
  have hp : Iterator.Produces 0 1 (1/2) scenarioTrack ⟨0, 2, ⟨1/8, true⟩⟩
      [⟨1/8, true⟩, ⟨5/8, false⟩] :=
    ⟨by decide!, rfl, ⟨0, 4, ⟨5/8, false⟩⟩, by decide!,
      by decide!, rfl, ⟨1, 0, ⟨5/8, false⟩⟩, by decide!,
      show Iterator.neEnd 1 ⟨1, 0, ⟨5/8, false⟩⟩ = false by decide!⟩
  ⟨by norm_num, by decide!, hp,
    ((Run_overflow_law 0 1 (1/2) scenarioTrack [⟨0, false⟩] ⟨0, false⟩ (by norm_num)).1
      ⟨0, 2, ⟨1/8, true⟩⟩ [⟨1/8, true⟩, ⟨5/8, false⟩] (by decide!) hp).1 (by decide),
    ((Run_overflow_law 0 1 (1/2) scenarioTrack [⟨0, false⟩, ⟨0, false⟩, ⟨0, false⟩] ⟨0, false⟩
      (by norm_num)).1 ⟨0, 2, ⟨1/8, true⟩⟩ [⟨1/8, true⟩, ⟨5/8, false⟩] (by decide!) hp).2
      (by decide)⟩

/-- C6: on the curve of the scenarios, with the threshold `1/2`, the query `(0, 1)` and a
capacity of at least two edges, `Run` succeeds and outputs the rising edge of time `1/8`
then the falling edge of time `5/8`. -/
theorem Run_scenario_forward (mem : List Edge) (edge0 : Edge) (hcap : 2 ≤ mem.length) :
    Run ⟨0, 1, 1/2, some scenarioTrack, some mem⟩ edge0 =
      some (true, some [⟨1/8, true⟩, ⟨5/8, false⟩]) := by
  have hl : scenarioTrack.forwardEdges (1/2) 0 1 = [⟨1/8, true⟩, ⟨5/8, false⟩] := by decide!
  rw [Run_forward (by decide!) 0 1 (1/2) (by norm_num), hl, if_pos (by simpa using hcap)]

/-- Instance of C6: a capacity of two edges. -/
theorem Run_scenario_forward_witness :
    2 ≤ ([⟨7, true⟩, ⟨7, true⟩] : List Edge).length ∧
      Run ⟨0, 1, 1/2, some scenarioTrack, some [⟨7, true⟩, ⟨7, true⟩]⟩ ⟨7, true⟩ =
        some (true, some [⟨1/8, true⟩, ⟨5/8, false⟩]) :=
  ⟨by decide, Run_scenario_forward [⟨7, true⟩, ⟨7, true⟩] ⟨7, true⟩ (by decide)⟩

/-- C7: on the curve of the scenarios, with the threshold `1/2`, the backward query
`(1, 0)` and a capacity of at least two edges, `Run` succeeds and outputs the rising edge
of time `5/8` then the falling edge of time `1/8`. -/
theorem Run_scenario_backward (mem : List Edge) (edge0 : Edge) (hcap : 2 ≤ mem.length) :
    Run ⟨1, 0, 1/2, some scenarioTrack, some mem⟩ edge0 =
      some (true, some [⟨5/8, true⟩, ⟨1/8, false⟩]) := by
  have hl : scenarioTrack.backwardEdges (1/2) 1 0 = [⟨5/8, true⟩, ⟨1/8, false⟩] := by decide!
  rw [Run_backward (by decide!) 1 0 (1/2) (by norm_num), hl, if_pos (by simpa using hcap)]

/-- Instance of C7: a capacity of two edges. -/
theorem Run_scenario_backward_witness :
    2 ≤ ([⟨7, true⟩, ⟨7, true⟩] : List Edge).length ∧
      Run ⟨1, 0, 1/2, some scenarioTrack, some [⟨7, true⟩, ⟨7, true⟩]⟩ ⟨7, true⟩ =
        some (true, some [⟨5/8, true⟩, ⟨1/8, false⟩]) :=
  ⟨by decide, Run_scenario_backward [⟨7, true⟩, ⟨7, true⟩] ⟨7, true⟩ (by decide)⟩

/-- C9: for every job with a track and an output range, and with `from = to`, `Run`
returns `true` and leaves the output empty, whatever the curve (also one without any value
to read), the threshold and the capacity. -/
theorem Run_empty_query (job : FloatTrackTriggeringJob) (edge0 : Edge)
    (htrack : job.track.isSome = true) (hedges : job.edges.isSome = true)
    (heq : job.from_ = job.to_) : Run job edge0 = some (true, some []) := by
  obtain ⟨a, b, th, tr, ed⟩ := job
  cases tr with
  | none => simp at htrack
  | some tr =>
    cases ed with
    | none => simp at hedges
    | some mem =>
      simp only at heq
      simp [Run, Validate, heq]

/-- Instance of C9: a curve without values and an output of capacity zero. -/
theorem Run_empty_query_witness :
    Run ⟨5/2, 5/2, 1, some ⟨[0, 1/2], [], []⟩, some []⟩ ⟨0, false⟩ = some (true, some []) :=
  Run_empty_query ⟨5/2, 5/2, 1, some ⟨[0, 1/2], [], []⟩, some []⟩ ⟨0, false⟩ rfl rfl rfl

/-- C10: `Validate` returns `false` if and only if the track or the output range is absent,
and `Run` returns `false`, without any change of the output, whenever `Validate` returns
`false`. -/
theorem Validate_false_iff (job : FloatTrackTriggeringJob) (edge0 : Edge) :
    (Validate job = false ↔ job.track = none ∨ job.edges = none) ∧
      (Validate job = false → Run job edge0 = some (false, job.edges)) := by
  obtain ⟨a, b, th, tr, ed⟩ := job
  cases tr <;> cases ed <;> simp [Run, Validate]

/-- Instance of C10: a job without track. -/
theorem Validate_false_iff_witness :
    Validate ⟨0, 1, 0, none, some []⟩ = false ∧
      Run ⟨0, 1, 0, none, some []⟩ ⟨0, false⟩ = some (false, some []) :=
  ⟨((Validate_false_iff ⟨0, 1, 0, none, some []⟩ ⟨0, false⟩).1).mpr (Or.inl rfl),
    (Validate_false_iff ⟨0, 1, 0, none, some []⟩ ⟨0, false⟩).2
      (((Validate_false_iff ⟨0, 1, 0, none, some []⟩ ⟨0, false⟩).1).mpr (Or.inl rfl))⟩

/-- C11: on a keyframe pair `(i0, i1)` of values `v0`, `v1`, `DetectEdge` reports a crossing
if and only if exactly one of `v0 ≤ threshold` and `v1 ≤ threshold` holds; the `rising` flag
is `forward` when `v0 ≤ threshold < v1` and `!forward` when `v1 ≤ threshold < v0`. A value
equal to the threshold counts as below. -/
theorem DetectEdge_detected_iff (track : FloatTrack) (i0 i1 : ℤ) (forward : Bool)
    (threshold : ℚ) (edge : Edge) (v0 v1 : ℚ) (byte : ℕ) (t0 t1 : ℚ)
    (hv0 : Range.at track.values i0 = some v0) (hv1 : Range.at track.values i1 = some v1)
    (hb : Range.at track.steps (i0 / 8) = some byte)
    (ht0 : Range.at track.times i0 = some t0) (ht1 : Range.at track.times i1 = some t1) :
    ∃ d e, DetectEdge i0 i1 forward threshold track edge = some (d, e) ∧
      (d = true ↔ Xor' (v0 ≤ threshold) (v1 ≤ threshold)) ∧
      (v0 ≤ threshold ∧ threshold < v1 → d = true ∧ e.rising = forward) ∧
      (v1 ≤ threshold ∧ threshold < v0 → d = true ∧ e.rising = !forward) ∧
      (v0 = threshold ∧ threshold < v1 → d = true ∧ e.rising = forward) ∧
      (threshold < v0 ∧ v1 = threshold → d = true ∧ e.rising = !forward) := by
  rw [DetectEdge_of_reads track i0 i1 forward threshold edge v0 v1 byte t0 t1 hv0 hv1 hb ht0
    ht1]
  by_cases hr : v0 ≤ threshold ∧ v1 > threshold
  · have h1 : ¬ v1 ≤ threshold := not_le.mpr hr.2
    have hx : Xor' (v0 ≤ threshold) (v1 ≤ threshold) := Or.inl ⟨hr.1, h1⟩
    rw [if_pos (Or.inl hr), if_pos hr.1]
    exact ⟨true, _, rfl, ⟨fun _ => hx, fun _ => rfl⟩, fun _ => ⟨rfl, rfl⟩,
      fun h => absurd h.1 h1, fun _ => ⟨rfl, rfl⟩, fun h => absurd hr.1 (not_le.mpr h.1)⟩
  · by_cases hf : v0 > threshold ∧ v1 ≤ threshold
    · have h0 : ¬ v0 ≤ threshold := not_le.mpr hf.1
      have hx : Xor' (v0 ≤ threshold) (v1 ≤ threshold) := Or.inr ⟨hf.2, h0⟩
      rw [if_pos (Or.inr hf), if_neg h0]
      exact ⟨true, _, rfl, ⟨fun _ => hx, fun _ => rfl⟩, fun h => absurd h.1 h0,
        fun _ => ⟨rfl, rfl⟩, fun h => absurd (le_of_eq h.1) h0, fun _ => ⟨rfl, rfl⟩⟩
    · rw [if_neg (not_or.mpr ⟨hr, hf⟩)]
      have hnx : ¬ Xor' (v0 ≤ threshold) (v1 ≤ threshold) := by
        rintro (⟨h0, h1⟩ | ⟨h1, h0⟩)
        · exact hr ⟨h0, not_le.mp h1⟩
        · exact hf ⟨not_le.mp h0, h1⟩
      exact ⟨false, edge, rfl, ⟨fun h => by simp at h, fun h => absurd h hnx⟩,
        fun h => absurd h hr, fun h => absurd ⟨h.2, h.1⟩ hf,
        fun h => absurd ⟨le_of_eq h.1, h.2⟩ hr, fun h => absurd ⟨h.1, le_of_eq h.2⟩ hf⟩

/-- Instance of C11: the pair `(1, 2)` of the curve that touches the threshold, whose first
value is equal to the threshold: a rising edge is detected. -/
theorem DetectEdge_detected_iff_witness :
    Range.at touchTrack.values 1 = some 0 ∧ Range.at touchTrack.values 2 = some 1 ∧
      Range.at touchTrack.steps (1 / 8) = some 0 ∧
      Range.at touchTrack.times 1 = some (1/4) ∧ Range.at touchTrack.times 2 = some (1/2) ∧
      ∃ d e, DetectEdge 1 2 true 0 touchTrack ⟨0, false⟩ = some (d, e) ∧
        (d = true ↔ Xor' ((0 : ℚ) ≤ 0) ((1 : ℚ) ≤ 0)) ∧
        ((0 : ℚ) ≤ 0 ∧ (0 : ℚ) < 1 → d = true ∧ e.rising = true) ∧
        ((1 : ℚ) ≤ 0 ∧ (0 : ℚ) < 0 → d = true ∧ e.rising = !true) ∧
        ((0 : ℚ) = 0 ∧ (0 : ℚ) < 1 → d = true ∧ e.rising = true) ∧
        ((0 : ℚ) < 0 ∧ (1 : ℚ) = 0 → d = true ∧ e.rising = !true) :=
  ⟨by decide!, by decide!, by decide!, by decide!, by decide!,
    DetectEdge_detected_iff touchTrack 1 2 true 0 ⟨0, false⟩ 0 1 0 (1/4) (1/2)
      (by decide!) (by decide!) (by decide!) (by decide!) (by decide!)⟩

/-- C13: for a crossing detected on a pair `(i0, i1)` whose segment is a step (the step bit
of `i0` is set), the local time of the edge is `times[i1]`, for every `i1`, also for the
pair that closes the loop. -/
theorem DetectEdge_step_time (track : FloatTrack) (i0 i1 : ℤ) (forward : Bool)
    (threshold : ℚ) (edge e : Edge) (byte : ℕ)
    (hb : Range.at track.steps (i0 / 8) = some byte)
    (hstep : byte &&& (1 <<< (i0.toNat &&& 7)) ≠ 0)
    (hdet : DetectEdge i0 i1 forward threshold track edge = some (true, e)) :
    Range.at track.times i1 = some e.time := by
  obtain ⟨v0, v1, hv0, hv1⟩ := DetectEdge_values_of_some hdet
  obtain ⟨-, byte', hb', htime⟩ := DetectEdge_detected hv0 hv1 hdet
  rw [hb] at hb'
  cases hb'
  have hs : ((byte &&& (1 <<< (i0.toNat &&& 7))) != 0) = true := by simp [hstep]
  rw [if_pos hs] at htime
  exact htime

/-- Instance of C13: the pair `(1, 0)` that closes the loop of a curve with two keyframes,
whose last keyframe is a step: the edge is at the time `1/8` of the first keyframe. -/
theorem DetectEdge_step_time_witness :
    Range.at (⟨[1/8, 1/2], [0, 1], [2]⟩ : FloatTrack).steps (1 / 8) = some 2 ∧
      (2 : ℕ) &&& (1 <<< ((1 : ℤ).toNat &&& 7)) ≠ 0 ∧
      DetectEdge 1 0 true (1/2) ⟨[1/8, 1/2], [0, 1], [2]⟩ ⟨0, false⟩ =
        some (true, ⟨1/8, false⟩) ∧
      Range.at (⟨[1/8, 1/2], [0, 1], [2]⟩ : FloatTrack).times 0 =
        some (⟨1/8, false⟩ : Edge).time :=
  ⟨by decide!, by decide, by decide!,
    DetectEdge_step_time ⟨[1/8, 1/2], [0, 1], [2]⟩ 1 0 true (1/2) ⟨0, false⟩ ⟨1/8, false⟩ 2
      (by decide!) (by decide) (by decide!)⟩

/-- C14, as stated, fails: on the pair `(1, 0)` that closes the loop of a well-formed curve
whose last keyframe is a step, `DetectEdge` reports a crossing at the time `1/8` of the first
keyframe, not at `0`. -/
theorem DetectEdge_wrap_time_counterexample :
    FloatTrack.WellFormed ⟨[1/8, 1/2], [0, 1], [2]⟩ ∧
      ∃ e, DetectEdge 1 0 true (1/2) ⟨[1/8, 1/2], [0, 1], [2]⟩ ⟨0, false⟩ = some (true, e) ∧
        e.time ≠ 0 :=
  ⟨by decide!, ⟨1/8, false⟩, by decide!, by norm_num⟩

/-- C14, amended: for a crossing detected on a pair with `i1 = 0`, the pair that closes the
loop, the local time of the edge is `0` when the segment is not a step (the step bit of `i0`
is clear), and it is `times[0]` when the segment is a step. -/
theorem DetectEdge_wrap_time (track : FloatTrack) (i0 : ℤ) (forward : Bool)
    (threshold : ℚ) (edge e : Edge) (byte : ℕ)
    (hb : Range.at track.steps (i0 / 8) = some byte)
    (hdet : DetectEdge i0 0 forward threshold track edge = some (true, e)) :
    (byte &&& (1 <<< (i0.toNat &&& 7)) = 0 → e.time = 0) ∧
      (byte &&& (1 <<< (i0.toNat &&& 7)) ≠ 0 → Range.at track.times 0 = some e.time) := by
  obtain ⟨v0, v1, hv0, hv1⟩ := DetectEdge_values_of_some hdet
  obtain ⟨-, byte', hb', htime⟩ := DetectEdge_detected hv0 hv1 hdet
  rw [hb] at hb'
  cases hb'
  constructor
  · intro hstep
    have hs : ¬ ((byte &&& (1 <<< (i0.toNat &&& 7))) != 0) = true := by simp [hstep]
    rw [if_neg hs, if_pos rfl] at htime
    exact htime
  · intro hstep
    have hs : ((byte &&& (1 <<< (i0.toNat &&& 7))) != 0) = true := by simp [hstep]
    rw [if_pos hs] at htime
    exact htime

/-- Instance of C14, amended: the pair `(2, 0)` that closes the loop of a curve with three
keyframes and no step, whose first keyframe is at the time `1/8`: the edge is at `0`. -/
theorem DetectEdge_wrap_time_witness :
    Range.at (⟨[1/8, 1/4, 1/2], [0, 1, 1], [0]⟩ : FloatTrack).steps (2 / 8) = some 0 ∧
      DetectEdge 2 0 true (1/2) ⟨[1/8, 1/4, 1/2], [0, 1, 1], [0]⟩ ⟨7, true⟩ =
        some (true, ⟨0, false⟩) ∧
      (0 : ℕ) &&& (1 <<< ((2 : ℤ).toNat &&& 7)) = 0 ∧ (⟨0, false⟩ : Edge).time = 0 :=
  ⟨by decide!, by decide!, by decide,
    (DetectEdge_wrap_time ⟨[1/8, 1/4, 1/2], [0, 1, 1], [0]⟩ 2 true (1/2) ⟨7, true⟩ ⟨0, false⟩ 0
      (by decide!) (by decide!)).1 (by decide)⟩

/-- C15: whenever `DetectEdge` detects a crossing on a pair of values `v0`, `v1`, the two
values differ, so that the denominator `v1 - v0` is not zero; and the `assert` never fails:
with every read within bounds `DetectEdge` returns, for every curve and threshold. -/
theorem DetectEdge_division_guarded (track : FloatTrack) (i0 i1 : ℤ) (forward : Bool)
    (threshold : ℚ) (edge : Edge) (v0 v1 : ℚ)
    (hv0 : Range.at track.values i0 = some v0) (hv1 : Range.at track.values i1 = some v1) :
    (∀ e, DetectEdge i0 i1 forward threshold track edge = some (true, e) →
        v0 ≠ v1 ∧ v1 - v0 ≠ 0) ∧
      (∀ (byte : ℕ) (t0 t1 : ℚ), Range.at track.steps (i0 / 8) = some byte →
        Range.at track.times i0 = some t0 → Range.at track.times i1 = some t1 →
        ∃ d e, DetectEdge i0 i1 forward threshold track edge = some (d, e)) := by
  constructor
  · intro e hdet
    have hc := (DetectEdge_detected hv0 hv1 hdet).1
    have hne : v1 - v0 ≠ 0 := by
      rcases hc with ⟨h0, h1⟩ | ⟨h0, h1⟩
      · exact ne_of_gt (by linarith)
      · exact ne_of_lt (by linarith)
    exact ⟨fun h => hne (by rw [h]; ring), hne⟩
  · intro byte t0 t1 hb ht0 ht1
    rw [DetectEdge_of_reads track i0 i1 forward threshold edge v0 v1 byte t0 t1 hv0 hv1 hb ht0
      ht1]
    by_cases hc : (v0 ≤ threshold ∧ v1 > threshold) ∨ (v0 > threshold ∧ v1 ≤ threshold)
    · rw [if_pos hc]
      exact ⟨_, _, rfl⟩
    · rw [if_neg hc]
      exact ⟨_, _, rfl⟩

/-- Instance of C15: the pair `(2, 3)` of the curve of the scenarios. -/
theorem DetectEdge_division_guarded_witness :
    Range.at scenarioTrack.values 2 = some 1 ∧ Range.at scenarioTrack.values 3 = some 0 ∧
      DetectEdge 2 3 true (1/2) scenarioTrack ⟨0, false⟩ = some (true, ⟨5/8, false⟩) ∧
      (1 : ℚ) ≠ 0 ∧ (0 : ℚ) - 1 ≠ 0 :=
  ⟨by decide!, by decide!, by decide!,
    (DetectEdge_division_guarded scenarioTrack 2 3 true (1/2) ⟨0, false⟩ 1 0 (by decide!)
      (by decide!)).1 ⟨5/8, false⟩ (by decide!)⟩

/-- C16, termination: for every well-formed curve, every threshold and every query, the
generator reaches the end position after finitely many calls of `operator++`, each of which
returns, and `Run` returns; an iteration of the outer loop
without yield moves the outer cursor by exactly one cycle toward `to`, so that the cursor
left by `operator++` is a whole number of cycles further and not beyond `to`, and the inner
cursor only moves forward in a forward query and backward in a backward query. -/
theorem generator_terminates (track : FloatTrack) (hw : track.WellFormed)
    (from_ to_ threshold : ℚ) (edge0 : Edge) (mem : List Edge) :
    (∃ (it : Iterator) (n : ℕ),
      Iterator.begin from_ to_ threshold track edge0 = some it ∧
      (∃ itEnd, Iterator.advance from_ to_ threshold track n it = some itEnd ∧
        Iterator.neEnd to_ itEnd = false) ∧
      ∀ m, m < n → ∃ it', Iterator.advance from_ to_ threshold track m it = some it' ∧
        Iterator.neEnd to_ it' = true) ∧
    (∃ r out, Run ⟨from_, to_, threshold, some track, some mem⟩ edge0 = some (r, some out)) ∧
    (∀ (outer : ℚ) (inner : ℤ) (edge : Edge) (i : ℤ) (e : Edge), outer < to_ →
      forwardInner from_ to_ threshold track outer inner edge = some (false, i, e) →
      forwardOuter from_ to_ threshold track outer inner edge =
        forwardOuter from_ to_ threshold track (outer + 1) 0 e) ∧
    (∀ (outer : ℚ) (inner : ℤ) (edge : Edge) (i : ℤ) (e : Edge), outer > to_ →
      backwardInner from_ to_ threshold track outer inner edge = some (false, i, e) →
      backwardOuter from_ to_ threshold track outer inner edge =
        backwardOuter from_ to_ threshold track (outer - 1) ((track.times.length : ℤ) - 1) e) ∧
    (∀ (outer : ℚ) (inner : ℤ) (edge : Edge) (it : Iterator), 0 ≤ inner →
      forwardOuter from_ to_ threshold track outer inner edge = some it →
      it = ⟨to_, 0, it.edge_⟩ ∨
        (it.outer_ < to_ ∧ ∃ k : ℕ, it.outer_ = outer + k ∧ (k = 0 → inner < it.inner_))) ∧
    (∀ (outer : ℚ) (inner : ℤ) (edge : Edge) (it : Iterator), inner < track.times.length →
      backwardOuter from_ to_ threshold track outer inner edge = some it →
      it = ⟨to_, 0, it.edge_⟩ ∨
        (it.outer_ > to_ ∧ ∃ k : ℕ, it.outer_ = outer - k ∧ (k = 0 → it.inner_ < inner))) ∧
    (∀ (outer : ℚ) (inner : ℤ) (edge : Edge) (b : Bool) (inner' : ℤ) (e : Edge),
      forwardInner from_ to_ threshold track outer inner edge = some (b, inner', e) →
      inner ≤ inner') ∧
    (∀ (outer : ℚ) (inner : ℤ) (edge : Edge) (b : Bool) (inner' : ℤ) (e : Edge),
      backwardInner from_ to_ threshold track outer inner edge = some (b, inner', e) →
      inner' ≤ inner) := by
  have hs : track.Sized := ⟨hw.2.1, hw.2.2.1⟩
  refine ⟨?_, Run_total hs from_ to_ threshold mem edge0, ?_, ?_, ?_, ?_, ?_, ?_⟩
  · by_cases hne : from_ = to_
    · subst hne
      obtain ⟨e, hb⟩ := Iterator.begin_of_eq hs from_ threshold edge0
      exact ⟨_, 0, hb, ⟨_, rfl, Iterator.neEnd_end from_ e⟩,
        fun m hm => absurd hm (Nat.not_lt_zero m)⟩
    · obtain ⟨it, l, hb, hp⟩ := Iterator.begin_produces hw from_ to_ threshold hne edge0
      obtain ⟨h1, h2⟩ := Iterator.advance_of_produces from_ to_ threshold track l it hp
      exact ⟨it, l.length, hb, h1, h2⟩
  · intro outer inner edge i e hlt h
    rw [forwardOuter, if_pos hlt, h]
  · intro outer inner edge i e hlt h
    rw [backwardOuter, if_pos hlt, h]
  · intro outer inner edge it h0 h
    rcases forwardOuter_state from_ to_ threshold track _ outer inner edge it rfl h0 h with
      hend | ⟨-, -, h3, h4, -⟩
    · exact Or.inl hend
    · exact Or.inr ⟨h3, h4⟩
  · intro outer inner edge it h0 h
    rcases backwardOuter_state from_ to_ threshold track _ outer inner edge it rfl h0 h with
      hend | ⟨-, -, h3, h4, -⟩
    · exact Or.inl hend
    · exact Or.inr ⟨h3, h4⟩
  · intro outer inner edge b inner' e h
    exact (forwardInner_cursor from_ to_ threshold track outer _ inner edge b inner' e rfl h).1
  · intro outer inner edge b inner' e h
    exact (backwardInner_cursor from_ to_ threshold track outer _ inner edge b inner' e rfl h).1

/-- Instance of C16: the query `(0, 1)` on the curve of the scenarios: the generator is at
the end after two calls of `operator++`. -/
theorem generator_terminates_witness :
    scenarioTrack.WellFormed ∧
      Iterator.begin 0 1 (1/2) scenarioTrack ⟨0, false⟩ = some ⟨0, 2, ⟨1/8, true⟩⟩ ∧
      Iterator.advance 0 1 (1/2) scenarioTrack 2 ⟨0, 2, ⟨1/8, true⟩⟩ =
        some ⟨1, 0, ⟨5/8, false⟩⟩ ∧
      Iterator.neEnd 1 ⟨1, 0, ⟨5/8, false⟩⟩ = false ∧
      ∃ r out, Run ⟨0, 1, 1/2, some scenarioTrack, some [⟨0, false⟩]⟩ ⟨0, false⟩ =
        some (r, some out) :=
  ⟨by decide!, by decide!, by decide!, by decide!,
    (generator_terminates scenarioTrack (by decide!) 0 1 (1/2) ⟨0, false⟩
      [⟨0, false⟩]).2.1⟩

/-- C18, end sentinel: when `operator++` returns by a yield, the state of the iterator
differs from the end position `(outer_ = to, inner_ = 0)`: after a forward yield
`inner_ ≥ 1`, and after a backward yield `outer_ > to`. A forward `operator++` from a
cursor `inner_ ≥ 0` leaves the end position or a cursor `inner_ ≥ 1`, and a backward one
leaves the end position or an outer cursor after `to`. -/
theorem yield_differs_from_end (from_ to_ threshold : ℚ) (track : FloatTrack) :
    (∀ (outer : ℚ) (inner : ℤ) (edge : Edge) (inner' : ℤ) (e : Edge), outer < to_ →
      forwardInner from_ to_ threshold track outer inner edge = some (true, inner', e) →
      forwardOuter from_ to_ threshold track outer inner edge = some ⟨outer, inner', e⟩ ∧
        1 ≤ inner' ∧ Iterator.neEnd to_ ⟨outer, inner', e⟩ = true) ∧
    (∀ (outer : ℚ) (inner : ℤ) (edge : Edge) (inner' : ℤ) (e : Edge), outer > to_ →
      backwardInner from_ to_ threshold track outer inner edge = some (true, inner', e) →
      backwardOuter from_ to_ threshold track outer inner edge = some ⟨outer, inner', e⟩ ∧
        Iterator.neEnd to_ ⟨outer, inner', e⟩ = true) ∧
    (∀ (it it' : Iterator), to_ > from_ → 0 ≤ it.inner_ →
      Iterator.next from_ to_ threshold track it = some it' →
      it' = ⟨to_, 0, it'.edge_⟩ ∨
        (1 ≤ it'.inner_ ∧ it'.outer_ < to_ ∧ Iterator.neEnd to_ it' = true)) ∧
    (∀ (it it' : Iterator), to_ < from_ → it.inner_ < track.times.length →
      Iterator.next from_ to_ threshold track it = some it' →
      it' = ⟨to_, 0, it'.edge_⟩ ∨
        (it'.inner_ < (track.times.length : ℤ) - 1 ∧ it'.outer_ > to_ ∧
          Iterator.neEnd to_ it' = true)) := by
  refine ⟨?_, ?_, ?_, ?_⟩
  · intro outer inner edge inner' e hlt h
    obtain ⟨-, -, edge1, e1, hd⟩ := (forwardInner_cursor from_ to_ threshold track outer _
      inner edge true inner' e rfl h).2 rfl
    obtain ⟨v0, v1, -, hv1⟩ := DetectEdge_values_of_some hd
    have h1 : 1 ≤ inner' := by have := (Range.at_lt hv1).1; omega
    refine ⟨by rw [forwardOuter, if_pos hlt, h], h1, ?_⟩
    simp only [Iterator.neEnd, bne_iff_ne, ne_eq, Bool.or_eq_true]
    left; omega
  · intro outer inner edge inner' e hlt h
    refine ⟨by rw [backwardOuter, if_pos hlt, h], ?_⟩
    simp only [Iterator.neEnd, bne_iff_ne, ne_eq, Bool.or_eq_true]
    right; exact ne_of_gt hlt
  · intro it it' hdir h0 h
    simp only [Iterator.next, if_pos hdir] at h
    rcases forwardOuter_state from_ to_ threshold track _ it.outer_ it.inner_ it.edge_ it' rfl
      h0 h with hend | ⟨h1, -, h3, -, -⟩
    · exact Or.inl hend
    · refine Or.inr ⟨h1, h3, ?_⟩
      simp only [Iterator.neEnd, bne_iff_ne, ne_eq, Bool.or_eq_true]
      left; omega
  · intro it it' hdir h0 h
    simp only [Iterator.next, if_neg (not_lt.mpr (le_of_lt hdir)), gt_iff_lt] at h
    rcases backwardOuter_state from_ to_ threshold track _ it.outer_ it.inner_ it.edge_ it' rfl
      h0 h with hend | ⟨-, h2, h3, -, -⟩
    · exact Or.inl hend
    · refine Or.inr ⟨h2, h3, ?_⟩
      simp only [Iterator.neEnd, bne_iff_ne, ne_eq, Bool.or_eq_true]
      right; exact ne_of_gt h3

/-- Instances of C18 on the curve of the scenarios: the first yield of the forward query
`(0, 1)`, and the second yield of the backward query `(1, 0)`, which leaves `inner_ = 0`
with `outer_ = 1 > to`. -/
theorem yield_differs_from_end_witness :
    ((0 : ℚ) < 1 ∧
      forwardInner 0 1 (1/2) scenarioTrack 0 0 ⟨0, false⟩ = some (true, 2, ⟨1/8, true⟩) ∧
      forwardOuter 0 1 (1/2) scenarioTrack 0 0 ⟨0, false⟩ = some ⟨0, 2, ⟨1/8, true⟩⟩ ∧
      (1 : ℤ) ≤ 2 ∧ Iterator.neEnd 1 ⟨0, 2, ⟨1/8, true⟩⟩ = true) ∧
    ((1 : ℚ) > 0 ∧
      backwardInner 1 0 (1/2) scenarioTrack 1 2 ⟨5/8, true⟩ = some (true, 0, ⟨1/8, false⟩) ∧
      backwardOuter 1 0 (1/2) scenarioTrack 1 2 ⟨5/8, true⟩ = some ⟨1, 0, ⟨1/8, false⟩⟩ ∧
      Iterator.neEnd 0 ⟨1, 0, ⟨1/8, false⟩⟩ = true) :=
  ⟨⟨by norm_num, by decide!,
      (yield_differs_from_end 0 1 (1/2) scenarioTrack).1 0 0 ⟨0, false⟩ 2 ⟨1/8, true⟩
        (by norm_num) (by decide!)⟩,
    ⟨by norm_num, by decide!,
      (yield_differs_from_end 1 0 (1/2) scenarioTrack).2.1 1 2 ⟨5/8, true⟩ 0 ⟨1/8, false⟩
        (by norm_num) (by decide!)⟩⟩

/-- C19, index safety: on a curve with any number `N ≥ 0` of keyframes, with one value and
one step bit per keyframe, a result of `DetectEdge` tells that its two indices are in
`0..N-1`, and every read of `operator++` is within bounds, for every query: from every
cursor `inner ≥ 0`, also `N`, for a forward query, and from every cursor `inner < N`, also
`-1`, for a backward one; so that the constructor of the iterator and `Run` return. With a
single keyframe `Run` outputs no edge. -/
theorem generator_index_safe (track : FloatTrack) (hs : track.Sized)
    (from_ to_ threshold : ℚ) :
    (∀ (i0 i1 : ℤ) (forward : Bool) (edge : Edge) (r : Bool × Edge),
      DetectEdge i0 i1 forward threshold track edge = some r →
      0 ≤ i0 ∧ i0 < track.times.length ∧ 0 ≤ i1 ∧ i1 < track.times.length) ∧
    (∀ (outer : ℚ) (inner : ℤ) (edge : Edge), 0 ≤ inner →
      ∃ it, forwardOuter from_ to_ threshold track outer inner edge = some it) ∧
    (∀ (outer : ℚ) (inner : ℤ) (edge : Edge), inner < track.times.length →
      ∃ it, backwardOuter from_ to_ threshold track outer inner edge = some it) ∧
    (∀ (edge0 : Edge), ∃ it, Iterator.begin from_ to_ threshold track edge0 = some it) ∧
    (∀ (mem : List Edge) (edge0 : Edge), ∃ r out,
      Run ⟨from_, to_, threshold, some track, some mem⟩ edge0 = some (r, some out)) ∧
    (track.times.length = 1 → from_ ≠ to_ → ∀ (mem : List Edge) (edge0 : Edge),
      Run ⟨from_, to_, threshold, some track, some mem⟩ edge0 = some (true, some [])) := by
  refine ⟨?_, ?_, ?_, ?_, ?_, ?_⟩
  · intro i0 i1 forward edge r h
    obtain ⟨v0, v1, hv0, hv1⟩ := DetectEdge_values_of_some h
    have h0 := Range.at_lt hv0
    have h1 := Range.at_lt hv1
    rw [hs.1] at h0 h1
    exact ⟨h0.1, h0.2, h1.1, h1.2⟩
  · intro outer inner edge h0
    exact forwardOuter_total hs from_ to_ threshold _ outer inner edge rfl h0
  · intro outer inner edge h0
    exact backwardOuter_total hs from_ to_ threshold _ outer inner edge rfl h0
  · intro edge0
    obtain ⟨it, h, -⟩ := Iterator.begin_total hs from_ to_ threshold edge0
    exact ⟨it, h⟩
  · intro mem edge0
    exact Run_total hs from_ to_ threshold mem edge0
  · intro hN hne mem edge0
    exact Run_single hs hN from_ to_ threshold hne mem edge0

/-- Instances of C19: a curve without keyframe, on which `Run` returns for a backward
query, and a curve with a single keyframe, on which `Run` outputs no edge. -/
theorem generator_index_safe_witness :
    FloatTrack.Sized ⟨[], [], []⟩ ∧
      (∃ r out, Run ⟨3/2, -1, 0, some ⟨[], [], []⟩, some []⟩ ⟨0, false⟩ = some (r, some out)) ∧
      FloatTrack.Sized ⟨[1/2], [3], [0]⟩ ∧
      (⟨[1/2], [3], [0]⟩ : FloatTrack).times.length = 1 ∧ (-1 : ℚ) ≠ 3/2 ∧
      Run ⟨-1, 3/2, 0, some ⟨[1/2], [3], [0]⟩, some []⟩ ⟨0, false⟩ = some (true, some []) :=
  ⟨by decide, (generator_index_safe ⟨[], [], []⟩ (by decide) (3/2) (-1) 0).2.2.2.2.1 []
      ⟨0, false⟩,
    by decide, by decide, by norm_num,
    (generator_index_safe ⟨[1/2], [3], [0]⟩ (by decide) (-1) (3/2) 0).2.2.2.2.2 (by decide)
      (by norm_num) [] ⟨0, false⟩⟩

/-- C20, as stated, fails with binary32 rounding: from `outer_ = 2 ^ 24` the sum
`outer_ += 1.f` leaves `outer_` unchanged, so that the generator yields the two edges of
the same cycle again and again. On the curve of the scenarios (`N = 4`) the query
`(2 ^ 24, 2 ^ 24 + 2)` has the bound `4 * 2 = 8`, and `Run` fills an output of capacity 8
and returns `false`. -/
theorem Run_capacity_bound_counterexample :
    scenarioTrack.WellFormed ∧ (16777216 : ℚ) ≠ 16777218 ∧
      (scenarioTrack.times.length : ℤ) *
        (⌈max (16777216 : ℚ) 16777218⌉ - ⌊min (16777216 : ℚ) 16777218⌋) = 8 ∧
      binary32.add 16777216 1 = 16777216 ∧
      binary32.Run 2 ⟨16777216, 16777218, 1 / 2, some scenarioTrack,
          some (List.replicate 8 ⟨0, false⟩)⟩ ⟨0, false⟩ =
        some (false, some [⟨16777216, true⟩, ⟨16777216, false⟩, ⟨16777216, true⟩,
          ⟨16777216, false⟩, ⟨16777216, true⟩, ⟨16777216, false⟩, ⟨16777216, true⟩,
          ⟨16777216, false⟩]) :=
  ⟨by decide!, by norm_num, by decide!, by decide!, by decide!⟩

/-- C20, amended: sufficient capacity bound. On a well-formed curve with `N` keyframes and
for a query with `from_ ≠ to_`, the generator yields at most
`N * (ceil (max from_ to_) - floor (min from_ to_))` edges, and `Run` succeeds and writes
all the edges that the generator yields whenever the output has room for at least that many
edges: with binary32 rounding when `from_` and `to_` are less than `2 ^ 24` in magnitude,
where the steps `outer_ += 1.f` and `outer_ -= 1.f` of the cycle cursor are exact (for every
fuel above the number of cycles of the query plus one), and in exact arithmetic (every
`float` operation of the code computed without rounding) for every query. -/
theorem Run_capacity_bound (track : FloatTrack) (hw : track.WellFormed)
    (from_ to_ threshold : ℚ) (hne : from_ ≠ to_) (edge0 : Edge) :
    (-16777216 < from_ → from_ < 16777216 → -16777216 < to_ → to_ < 16777216 →
      ∀ fuel : ℕ, (⌈max from_ to_⌉ - ⌊min from_ to_⌋).toNat + 1 < fuel →
      ∀ mem : List Edge,
      (track.times.length : ℤ) * (⌈max from_ to_⌉ - ⌊min from_ to_⌋) ≤ (mem.length : ℤ) →
      ∃ out, binary32.Run fuel ⟨from_, to_, threshold, some track, some mem⟩ edge0 =
          some (true, some out) ∧
        (out.length : ℤ) ≤
          (track.times.length : ℤ) * (⌈max from_ to_⌉ - ⌊min from_ to_⌋)) ∧
    (∀ (it : Iterator) (l : List Edge),
      Iterator.begin from_ to_ threshold track edge0 = some it →
      Iterator.Produces from_ to_ threshold track it l →
      (l.length : ℤ) ≤ (track.times.length : ℤ) * (⌈max from_ to_⌉ - ⌊min from_ to_⌋)) ∧
    (∀ mem : List Edge,
      (track.times.length : ℤ) * (⌈max from_ to_⌉ - ⌊min from_ to_⌋) ≤ (mem.length : ℤ) →
      ∃ (it : Iterator) (l : List Edge),
        Iterator.begin from_ to_ threshold track edge0 = some it ∧
        Iterator.Produces from_ to_ threshold track it l ∧
        Run ⟨from_, to_, threshold, some track, some mem⟩ edge0 = some (true, some l)) := by
  have hall : ∃ (it : Iterator) (l : List Edge),
      Iterator.begin from_ to_ threshold track edge0 = some it ∧
      Iterator.Produces from_ to_ threshold track it l ∧
      (l.length : ℤ) ≤ (track.times.length : ℤ) * (⌈max from_ to_⌉ - ⌊min from_ to_⌋) := by
    rcases lt_or_gt_of_ne hne with h | h
    · obtain ⟨it, h1, h2⟩ := (Iterator.begin_produces_edges hw from_ to_ threshold edge0).1 h
      exact ⟨it, _, h1, h2, (FloatTrack.edges_length_le hw threshold from_ to_).1 h⟩
    · obtain ⟨it, h1, h2⟩ := (Iterator.begin_produces_edges hw from_ to_ threshold edge0).2 h
      exact ⟨it, _, h1, h2, (FloatTrack.edges_length_le hw threshold from_ to_).2 h⟩
  obtain ⟨it, l, h1, h2, h3⟩ := hall
  refine ⟨fun hf1 hf2 ht1 ht2 fuel hfuel mem hmem =>
    binary32.Run_capacity hw from_ to_ threshold hne hf1 hf2 ht1 ht2 fuel hfuel mem hmem edge0,
    ?_, ?_⟩
  · intro it' l' h1' h2'
    rw [h1] at h1'
    cases h1'
    rw [← Iterator.produces_unique from_ to_ threshold track l it l' h2 h2']
    exact h3
  · intro mem hmem
    refine ⟨it, l, h1, h2, ?_⟩
    rw [Run_of_produces from_ to_ threshold track mem edge0 hne it l h1 h2,
      if_pos (by exact_mod_cast le_trans h3 hmem)]

/-- Instance of C20, amended: the query `(-3/2, 7/3)` on the curve of the scenarios, with
the bound `4 * 5 = 20` and the runs on an output of capacity 20, with and without rounding,
which output 8 edges. -/
theorem Run_capacity_bound_witness :
    scenarioTrack.WellFormed ∧ (-3 / 2 : ℚ) ≠ 7 / 3 ∧
    (scenarioTrack.times.length : ℤ) *
      (⌈max (-3 / 2 : ℚ) (7 / 3)⌉ - ⌊min (-3 / 2 : ℚ) (7 / 3)⌋) = 20 ∧
    Run ⟨-3 / 2, 7 / 3, 1 / 2, some scenarioTrack, some (List.replicate 20 ⟨0, false⟩)⟩
        ⟨0, false⟩ =
      some (true, some [⟨-11 / 8, false⟩, ⟨-7 / 8, true⟩, ⟨-3 / 8, false⟩, ⟨1 / 8, true⟩,
        ⟨5 / 8, false⟩, ⟨9 / 8, true⟩, ⟨13 / 8, false⟩, ⟨17 / 8, true⟩]) ∧
    binary32.Run 7 ⟨-3 / 2, 7 / 3, 1 / 2, some scenarioTrack,
        some (List.replicate 20 ⟨0, false⟩)⟩ ⟨0, false⟩ =
      some (true, some [⟨-11 / 8, false⟩, ⟨-7 / 8, true⟩, ⟨-3 / 8, false⟩, ⟨1 / 8, true⟩,
        ⟨5 / 8, false⟩, ⟨9 / 8, true⟩, ⟨13 / 8, false⟩, ⟨17 / 8, true⟩]) ∧
    (∃ out, binary32.Run 7 ⟨-3 / 2, 7 / 3, 1 / 2, some scenarioTrack,
          some (List.replicate 20 ⟨0, false⟩)⟩ ⟨0, false⟩ = some (true, some out) ∧
        (out.length : ℤ) ≤ (scenarioTrack.times.length : ℤ) *
          (⌈max (-3 / 2 : ℚ) (7 / 3)⌉ - ⌊min (-3 / 2 : ℚ) (7 / 3)⌋)) ∧
    (∀ (it : Iterator) (l : List Edge),
      Iterator.begin (-3 / 2) (7 / 3) (1 / 2) scenarioTrack ⟨0, false⟩ = some it →
      Iterator.Produces (-3 / 2) (7 / 3) (1 / 2) scenarioTrack it l →
      (l.length : ℤ) ≤
        (scenarioTrack.times.length : ℤ) *
          (⌈max (-3 / 2 : ℚ) (7 / 3)⌉ - ⌊min (-3 / 2 : ℚ) (7 / 3)⌋)) ∧
    (∀ mem : List Edge,
      (scenarioTrack.times.length : ℤ) *
          (⌈max (-3 / 2 : ℚ) (7 / 3)⌉ - ⌊min (-3 / 2 : ℚ) (7 / 3)⌋) ≤ (mem.length : ℤ) →
      ∃ (it : Iterator) (l : List Edge),
        Iterator.begin (-3 / 2) (7 / 3) (1 / 2) scenarioTrack ⟨0, false⟩ = some it ∧
        Iterator.Produces (-3 / 2) (7 / 3) (1 / 2) scenarioTrack it l ∧
        Run ⟨-3 / 2, 7 / 3, 1 / 2, some scenarioTrack, some mem⟩ ⟨0, false⟩ =
          some (true, some l)) :=
  ⟨by decide!, by norm_num, by decide!, by decide!, by decide!,
    (Run_capacity_bound scenarioTrack (by decide!) (-3 / 2) (7 / 3) (1 / 2) (by norm_num)
      ⟨0, false⟩).1 (by norm_num) (by norm_num) (by norm_num) (by norm_num) 7 (by decide!)
      (List.replicate 20 ⟨0, false⟩) (by decide!),
    (Run_capacity_bound scenarioTrack (by decide!) (-3 / 2) (7 / 3) (1 / 2) (by norm_num)
      ⟨0, false⟩).2⟩

end animation
end ozz
